import Mathlib

/-!
# MArray: strided multidimensional views, indexing chains and shape utilities

A shallow embedding of `external/marray/include/marray.hpp`.

Conventions of the embedding.

* A pointer `T*` is an integer address counted in elements; a `const T&` is the
  address of the element referred to.
* `idx_type` (`unsigned`) values are `Nat`; `stride_type` (`ptrdiff_t`) values are
  `Int`.  Where the source increments or decrements a length, or multiplies lengths, the
  result is reduced modulo the width of its unsigned type; a length stored into `len_` is
  reduced to `idx_type`; the products that `default_strides` stores are reduced to the
  64-bit range of `stride_type` (`to_stride_type`); the arguments that `gemm` passes to the
  kernel are reduced to `int` (`to_int`).  The offsets added to a pointer and the products
  compared by the asserts of `lower` are exact integers.
* `std::array<X, n>` is a `List X`; the template rank `ndim` of a view is the length
  of its `len_` array.  Reading `a[k]` is `a.getD k 0`.
* The template parameters `dim` and `newdim` of the chain classes are carried as a
  field (`dim`) and as the length of `dims` (`newdim`).
* An operation returns `Except Failure _`: `Failure.assertion` when an `assert` of the
  source fires, `Failure.noOverload` when no overload of the source is viable for the
  operands (the call does not compile), `Failure.undefined` when the execution reaches
  undefined behaviour (a `std::array` accessed outside its bounds, a division by zero, a
  read of released storage).
* Memory is a function from addresses to values; a mutating operation takes the memory
  and returns the new memory.  A `Run` also returns, at a failure, the state in which the
  operation stops.
* The pointer that `Allocator::allocate` returns is a parameter `ptr` of the operations that
  allocate; the block it points to holds `aligned_allocator.capacity` elements.  The state
  that an operation leaves when `allocate` throws `std::bad_alloc` is given by a
  definition of its own (`marray.reset_uninitialized_throws`, `marray.resize_throws`).
  Releasing a block leaves the contents of memory as they are; reading a released block is
  undefined behaviour, checked where an operation reads an argument after a release.
-/

namespace MArray

/-- Why an operation yields no value. -/
inductive Failure where
  | assertion
  | noOverload
  | undefined
  deriving DecidableEq, Repr

/-- The value of an integer converted to `stride_type` (`ptrdiff_t`, 64 bits, two's
complement): the value reduced modulo `2^64` into `[-2^63, 2^63)`.  A product of a
`stride_type` and a length that is stored into a `stride_type` has this value: the product
is computed in `size_t` and converted when the length is a `size_t`, and for a narrower
length it is the result that the 64-bit multiplication leaves when the product leaves the
range. -/
def to_stride_type (x : Int) : Int := (x + 2 ^ 63) % 2 ^ 64 - 2 ^ 63

/-- The value of an integer converted to `int` (32 bits, two's complement): the value
reduced modulo `2^32` into `[-2^31, 2^31)`. -/
def to_int (x : Int) : Int := (x + 2 ^ 31) % 2 ^ 32 - 2 ^ 31

/-- Layout tag, `class Layout`: the two values of its enum (`DEFAULT` is `ROW_MAJOR`). -/
inductive Layout where
  | COLUMN_MAJOR
  | ROW_MAJOR
  deriving DecidableEq, Repr

/-- The value of `Layout::DEFAULT`. -/
def Layout.DEFAULT : Layout := Layout.ROW_MAJOR

/-- Modelled from the spec: the type `range_t` of `utility.hpp`, which is not part of the
sources at hand.  The spec calls it a half-open range of scalar indices; the source reads
it through `front()`, `back()` (used as the exclusive end, compared with `<=` against a
length) and `size()`. -/
structure range_t where
  front : Nat
  back : Nat
  deriving DecidableEq, Repr

/-- Modelled from the spec: `range_t::size()`, the number of indices of the half-open
range `[front, back)`; meaningful when `front <= back`. -/
def range_t.size (x : range_t) : Nat := x.back - x.front

/-- Modelled from the spec: `range(from, to)` of `utility.hpp`, the half-open range
`[from, to)`. -/
def range (from_ to_ : Nat) : range_t := ⟨from_, to_⟩

/-- Modelled from the spec: the one-argument `range(to)` of `utility.hpp`, the full extent
`[0, to)`. -/
def range_to (to_ : Nat) : range_t := ⟨0, to_⟩

/-- The class `const_marray_view<T, ndim>`: data pointer, lengths and strides. -/
structure const_marray_view where
  data_ : Int
  len_ : List Nat
  stride_ : List Int
  deriving DecidableEq, Repr

/-- The template parameter `ndim` of a view. -/
def const_marray_view.ndim (v : const_marray_view) : Nat := v.len_.length

/-- A view as the type `const_marray_view<T, ndim>` admits it: `len_` and `stride_` are
both `std::array`s of `ndim` entries, and `ndim > 0` (the `static_assert`). -/
def const_marray_view.WF (v : const_marray_view) : Prop :=
  0 < v.len_.length ∧ v.stride_.length = v.len_.length

instance (v : const_marray_view) : Decidable v.WF := by
  unfold const_marray_view.WF; infer_instance

/-- The class `const_marray_ref<T, ndim, dim>`: the first `dim-1` dimensions of `array`
have been indexed into; `idx` is the accumulated offset. -/
structure const_marray_ref where
  array : const_marray_view
  dim : Nat
  idx : Int
  deriving DecidableEq, Repr

/-- The class `const_marray_slice<T, ndim, dim, newdim>`: the first `dim-1` dimensions of
`array` have been indexed or sliced; `dims` are the sliced dimensions and `lens` their new
lengths (`newdim` is their common length). -/
structure const_marray_slice where
  array : const_marray_view
  dim : Nat
  idx : Int
  dims : List Nat
  lens : List Nat
  deriving DecidableEq, Repr

/-- What a bracket expression evaluates to: a scalar reference `const T&` (its address),
a view, or one of the two chain objects. -/
inductive Chain where
  | scalar (p : Int)
  | view (v : const_marray_view)
  | ref (r : const_marray_ref)
  | slice (s : const_marray_slice)
  deriving DecidableEq, Repr

/-- An index-or-range argument: `idx_type`, `range_t<I>` or `slice::all_t`. -/
inductive Arg where
  | index (i : Nat)
  | range (x : range_t)
  | all
  deriving DecidableEq, Repr

/-! ## `const_marray_ref` -/

/-- The constructor `const_marray_ref(array, idx, i)` of the class with parameter `dim`. -/
def const_marray_ref.ctor (dim : Nat) (array : const_marray_view) (idx : Int) (i : Nat) :
    const_marray_ref :=
  ⟨array, dim, idx + (i : Int) * array.stride_.getD (dim - 2) 0⟩

/-- The member `const_marray_ref::data()`. -/
def const_marray_ref.data (r : const_marray_ref) : Int := r.array.data_ + r.idx

/-- The constructor `const_marray_slice(array, idx, dims, lens, i)` (index step) of the
class with parameter `dim`. -/
def const_marray_slice.ctor_index (dim : Nat) (array : const_marray_view) (idx : Int)
    (dims lens : List Nat) (i : Nat) : const_marray_slice :=
  ⟨array, dim, idx + (i : Int) * array.stride_.getD (dim - 2) 0, dims, lens⟩

/-- The constructor `const_marray_slice(array, idx, dims, lens, range_)` (range step) of
the class with parameter `dim`: the new last sliced dimension is `dim-2`. -/
def const_marray_slice.ctor_range (dim : Nat) (array : const_marray_view) (idx : Int)
    (dims lens : List Nat) (range_ : range_t) : const_marray_slice :=
  ⟨array, dim, idx + array.stride_.getD (dim - 2) 0 * (range_.front : Int),
    dims ++ [dim - 2], lens ++ [range_.size]⟩

/-- The conversion `const_marray_ref::operator const_marray_view<T, ndim-dim+1>()`. -/
def const_marray_ref.toView (r : const_marray_ref) : const_marray_view :=
  ⟨r.data,
    (r.array.len_.drop (r.dim - 1)).take (r.array.ndim - r.dim + 1),
    (r.array.stride_.drop (r.dim - 1)).take (r.array.ndim - r.dim + 1)⟩

/-- The two overloads of `const_marray_ref::operator[](idx_type)`. -/
def const_marray_ref.index (r : const_marray_ref) (i : Nat) : Except Failure Chain :=
  if r.array.ndim = r.dim then
    .ok (.scalar (r.data + (i : Int)))
  else
    if 0 ≤ i ∧ i < r.array.len_.getD (r.dim - 1) 0 then
      .ok (.ref (const_marray_ref.ctor (r.dim + 1) r.array r.idx i))
    else .error .assertion

/-- The two overloads of `const_marray_ref::operator[](const range_t<I>&)`. -/
def const_marray_ref.range (r : const_marray_ref) (x : range_t) : Except Failure Chain :=
  if r.array.ndim = r.dim then
    if x.front ≤ x.back ∧ 0 ≤ x.front ∧ x.back ≤ r.array.len_.getD (r.array.ndim - 1) 0 then
      .ok (.view ⟨r.data + r.array.stride_.getD (r.array.ndim - 1) 0 * (x.front : Int),
        [x.size], [r.array.stride_.getD (r.array.ndim - 1) 0]⟩)
    else .error .assertion
  else
    .ok (.slice (const_marray_slice.ctor_range (r.dim + 1) r.array r.idx [] [] x))

/-- The two overloads of `const_marray_ref::operator[](slice::all_t)`. -/
def const_marray_ref.all (r : const_marray_ref) : Except Failure Chain :=
  if r.array.ndim = r.dim then
    .ok (.view r.toView)
  else
    .ok (.slice (const_marray_slice.ctor_range (r.dim + 1) r.array r.idx [] []
      (MArray.range 0 (r.array.len_.getD (r.dim - 1) 0))))

/-! ## `const_marray_slice` -/

/-- The member `const_marray_slice::data()`. -/
def const_marray_slice.data (s : const_marray_slice) : Int := s.array.data_ + s.idx

/-- The loop `strides[i] = array.stride_[dims[i]]` over the sliced dimensions. -/
def const_marray_slice.strides (s : const_marray_slice) : List Int :=
  s.dims.map (fun d => s.array.stride_.getD d 0)

/-- The conversion `const_marray_slice::operator const_marray_view<T, ndim+newdim-dim+1>()`. -/
def const_marray_slice.toView (s : const_marray_slice) : const_marray_view :=
  ⟨s.data,
    s.lens ++ (s.array.len_.drop (s.dim - 1)).take (s.array.ndim - s.dim + 1),
    s.strides ++ (s.array.stride_.drop (s.dim - 1)).take (s.array.ndim - s.dim + 1)⟩

/-- The two overloads of `const_marray_slice::operator[](idx_type)`. -/
def const_marray_slice.index (s : const_marray_slice) (i : Nat) : Except Failure Chain :=
  if s.array.ndim = s.dim then
    if 0 ≤ i ∧ i < s.array.len_.getD (s.array.ndim - 1) 0 then
      .ok (.view ⟨s.data + (i : Int) * s.array.stride_.getD (s.array.ndim - 1) 0,
        s.lens, s.strides⟩)
    else .error .assertion
  else
    if 0 ≤ i ∧ i < s.array.len_.getD (s.dim - 1) 0 then
      .ok (.slice (const_marray_slice.ctor_index (s.dim + 1) s.array s.idx s.dims s.lens i))
    else .error .assertion

/-- The two overloads of `const_marray_slice::operator[](const range_t<I>&)`. -/
def const_marray_slice.range (s : const_marray_slice) (x : range_t) : Except Failure Chain :=
  if s.array.ndim = s.dim then
    if x.front ≤ x.back ∧ 0 ≤ x.front ∧ x.back ≤ s.array.len_.getD (s.array.ndim - 1) 0 then
      .ok (.view ⟨s.data + s.array.stride_.getD (s.array.ndim - 1) 0 * (x.front : Int),
        s.lens ++ [x.size],
        s.strides ++ [s.array.stride_.getD (s.array.ndim - 1) 0]⟩)
    else .error .assertion
  else
    if x.front ≤ x.back ∧ 0 ≤ x.front ∧ x.back ≤ s.array.len_.getD (s.dim - 1) 0 then
      .ok (.slice (const_marray_slice.ctor_range (s.dim + 1) s.array s.idx s.dims s.lens x))
    else .error .assertion

/-- The two overloads of `const_marray_slice::operator[](slice::all_t)`. -/
def const_marray_slice.all (s : const_marray_slice) : Except Failure Chain :=
  if s.array.ndim = s.dim then
    .ok (.view s.toView)
  else
    .ok (.slice (const_marray_slice.ctor_range (s.dim + 1) s.array s.idx s.dims s.lens
      (MArray.range 0 (s.array.len_.getD (s.dim - 1) 0))))

/-! ## `const_marray_view`: bracket operators -/

/-- The one-dimensional accessor `const_marray_view::stride()`. -/
def const_marray_view.stride (v : const_marray_view) : Int := v.stride_.getD 0 0

/-- The two overloads of `const_marray_view::operator[](idx_type)`. -/
def const_marray_view.index (v : const_marray_view) (i : Nat) : Except Failure Chain :=
  if v.ndim = 1 then
    if i < v.len_.getD 0 0 then .ok (.scalar (v.data_ + (i : Int) * v.stride))
    else .error .assertion
  else
    if i < v.len_.getD 0 0 then .ok (.ref (const_marray_ref.ctor 2 v 0 i))
    else .error .assertion

/-- The two overloads of `const_marray_view::operator[](const range_t<I>&)`. -/
def const_marray_view.range (v : const_marray_view) (x : range_t) : Except Failure Chain :=
  if v.ndim = 1 then
    if 0 ≤ x.front ∧ x.back ≤ v.len_.getD 0 0 then
      .ok (.view ⟨v.data_ + (x.front : Int) * v.stride_.getD 0 0, [x.size],
        [v.stride_.getD 0 0]⟩)
    else .error .assertion
  else
    if 0 ≤ x.front ∧ x.back ≤ v.len_.getD 0 0 then
      .ok (.slice (const_marray_slice.ctor_range 2 v 0 [] [] x))
    else .error .assertion

/-- The two overloads of `const_marray_view::operator[](slice::all_t)`. -/
def const_marray_view.all (v : const_marray_view) : Except Failure Chain :=
  if v.ndim = 1 then
    .ok (.view v)
  else
    .ok (.slice (const_marray_slice.ctor_range 2 v 0 [] [] (range_to (v.len_.getD 0 0))))

/-! ## One step and whole chains -/

/-- The expression `c[arg]`: overload resolution on the class of `c` and the type of the
argument.  A scalar `const T&` has no bracket operator. -/
def Chain.bracket (c : Chain) (arg : Arg) : Except Failure Chain :=
  match c, arg with
  | .scalar _, _ => .error .noOverload
  | .view v, .index i => v.index i
  | .view v, .range x => v.range x
  | .view v, .all => v.all
  | .ref r, .index i => r.index i
  | .ref r, .range x => r.range x
  | .ref r, .all => r.all
  | .slice s, .index i => s.index i
  | .slice s, .range x => s.range x
  | .slice s, .all => s.all

/-- The expression `c[a_0][a_1]...[a_{k-1}]`, evaluated left to right. -/
def Chain.brackets (c : Chain) : List Arg → Except Failure Chain
  | [] => .ok c
  | arg :: args =>
    match c.bracket arg with
    | .ok c1 => c1.brackets args
    | .error e => .error e

/-- The `enable_if` condition of the variadic `operator()(Arg&&, Args&&...)` of each
class, as a function of `sizeof...(Args)`. -/
def Chain.variadic_enabled (c : Chain) (sizeof_Args : Nat) : Bool :=
  match c with
  | .scalar _ => false
  | .view v => sizeof_Args = v.ndim - 1
  | .ref r => r.array.ndim - r.dim ≠ 0 ∧ sizeof_Args = r.array.ndim - r.dim
  | .slice s => s.array.ndim - s.dim ≠ 0 ∧ sizeof_Args = s.array.ndim - s.dim

/-- The call operator `c(a_0, ..., a_{k-1})`: the one-argument overload returns
`(*this)[arg]`, the variadic overload returns `(*this)[arg](args...)`. -/
def Chain.call (c : Chain) : List Arg → Except Failure Chain
  | [] => .error .noOverload
  | [arg] => c.bracket arg
  | arg :: arg1 :: args =>
    if c.variadic_enabled (arg1 :: args).length then
      match c.bracket arg with
      | .ok c1 => c1.call (arg1 :: args)
      | .error e => .error e
    else .error .noOverload

/-! ## `const_marray_view`: shape and stride utilities -/

/-- The loop `for (unsigned i = ndim-1; i > 0; i--) stride[i-1] = stride[i]*len[i];` of
`default_strides`, entered with the loop variable equal to the first argument.  The product
is stored into a `stride_type`. -/
def default_strides.row_loop (len : List Nat) : Nat → List Int → List Int
  | 0, stride => stride
  | i + 1, stride =>
    default_strides.row_loop len i
      (stride.set i (to_stride_type (stride.getD (i + 1) 0 * (len.getD (i + 1) 0 : Int))))

/-- The loop `for (unsigned i = 1; i < ndim; i++) stride[i] = stride[i-1]*len[i-1];` of
`default_strides`: the first argument counts the iterations still to run, the second is
the loop variable.  The product is stored into a `stride_type`. -/
def default_strides.col_loop (len : List Nat) : Nat → Nat → List Int → List Int
  | 0, _, stride => stride
  | todo + 1, i, stride =>
    default_strides.col_loop len todo (i + 1)
      (stride.set i (to_stride_type (stride.getD (i - 1) 0 * (len.getD (i - 1) 0 : Int))))

/-- The static member `const_marray_view::default_strides(len, layout)`; `len` holds the
values of the argument, of a type `U` that may be wider than `idx_type`. -/
def default_strides (len : List Nat) (layout : Layout) : List Int :=
  let ndim := len.length
  let stride : List Int := List.replicate ndim 0
  if layout = Layout.ROW_MAJOR then
    default_strides.row_loop len (ndim - 1) (stride.set (ndim - 1) 1)
  else
    default_strides.col_loop len (ndim - 1) 1 (stride.set 0 1)

/-- The assertions of the first loop of `const_marray_view::permute`:
`assert(0 <= perm[i] && perm[i] < ndim)` and, for every `j < i`,
`assert(perm[i] != perm[j])`. -/
def const_marray_view.permute_asserts (ndim : Nat) (perm : List Nat) : Bool :=
  (List.range ndim).all (fun i =>
    (decide (0 ≤ perm.getD i 0) && decide (perm.getD i 0 < ndim)) &&
      (List.range i).all (fun j => perm.getD i 0 != perm.getD j 0))

/-- The member `const_marray_view::permute(const std::array<U, ndim>& perm)`.  The
argument type fixes the number of entries of `perm` to `ndim`. -/
def const_marray_view.permute (v : const_marray_view) (perm : List Nat) :
    Except Failure const_marray_view :=
  if perm.length ≠ v.ndim then .error .noOverload
  else if const_marray_view.permute_asserts v.ndim perm then
    .ok ⟨v.data_,
      (List.range v.ndim).map (fun i => v.len_.getD (perm.getD i 0) 0),
      (List.range v.ndim).map (fun i => v.stride_.getD (perm.getD i 0) 0)⟩
  else .error .assertion

/-- The assertions of the first loop of `const_marray_view::lower`:
`assert(split[i] <= ndim)` and `if (i != 0) assert(split[i-1] <= split[i])`. -/
def const_marray_view.lower_split_asserts (ndim : Nat) (split : List Nat) : Bool :=
  (List.range split.length).all (fun i =>
    decide (split.getD i 0 ≤ ndim) &&
      (i == 0 || decide (split.getD (i - 1) 0 ≤ split.getD i 0)))

/-- The statement `int begin = (i == 0 ? 0 : split[i-1]);` of `lower`. -/
def const_marray_view.lower_begin (split : List Nat) (i : Nat) : Int :=
  if i = 0 then 0 else (split.getD (i - 1) 0 : Int)

/-- The statement `int end = (i == newdim-1 ? ndim-1 : split[i]-1);` of `lower`, where
`newdim` is the number of entries of `split`.  `newdim-1` is computed in `unsigned`
arithmetic; `split[i]` with `i >= newdim` is outside the bounds of the array; `split[i]-1`
converted to `int` is `-1` when `split[i]` is `0`. -/
def const_marray_view.lower_end (ndim : Nat) (split : List Nat) (i : Nat) :
    Except Failure Int :=
  if i = (split.length + 2 ^ 32 - 1) % 2 ^ 32 then .ok ((ndim : Int) - 1)
  else if i < split.length then .ok ((split.getD i 0 : Int) - 1)
  else .error .undefined

/-- The inner loops `for (unsigned j = begin; j < end; j++)` of `lower`: in the branch
taken when `stride_[begin] < stride_[end]` (`ascending`) the assertion is
`stride_[j+1] == stride_[j]*len_[j]`, in the other branch it is
`stride_[j] == stride_[j+1]*len_[j+1]`; both multiply `newlen[i]` (an `unsigned`) by
`len_[j]`.  The first argument counts the iterations still to run. -/
def const_marray_view.lower_merge_loop (v : const_marray_view) (ascending : Bool) :
    Nat → Nat → Nat → Except Failure Nat
  | 0, _, newlen => .ok newlen
  | todo + 1, j, newlen =>
    if (if ascending then
          v.stride_.getD (j + 1) 0 = v.stride_.getD j 0 * (v.len_.getD j 0 : Int)
        else
          v.stride_.getD j 0 = v.stride_.getD (j + 1) 0 * (v.len_.getD (j + 1) 0 : Int)) then
      const_marray_view.lower_merge_loop v ascending todo (j + 1)
        ((newlen * v.len_.getD j 0) % 2 ^ 32)
    else .error .assertion

/-- The body of one iteration of the main loop of `lower` for a run `[begin, end]` with
`begin <= end`: the values stored into `newlen[i]` and `newstride[i]`. -/
def const_marray_view.lower_run (v : const_marray_view) (begin_ end_ : Nat) :
    Except Failure (Nat × Int) :=
  if v.stride_.getD begin_ 0 < v.stride_.getD end_ 0 then
    match const_marray_view.lower_merge_loop v true (end_ - begin_) begin_
        (v.len_.getD end_ 0) with
    | .ok newlen => .ok (newlen, v.stride_.getD begin_ 0)
    | .error e => .error e
  else
    match const_marray_view.lower_merge_loop v false (end_ - begin_) begin_
        (v.len_.getD end_ 0) with
    | .ok newlen => .ok (newlen, v.stride_.getD end_ 0)
    | .error e => .error e

/-- The main loop `for (unsigned i = 0; i <= newdim; i++)` of `lower`.  The first argument
counts the iterations still to run, the second is `i`; `newlen` and `newstride` are the
two arrays declared with `newdim` entries, so storing at `i >= newdim` is outside their
bounds. -/
def const_marray_view.lower_loop (v : const_marray_view) (split : List Nat) :
    Nat → Nat → List Nat → List Int → Except Failure (List Nat × List Int)
  | 0, _, newlen, newstride => .ok (newlen, newstride)
  | todo + 1, i, newlen, newstride =>
    match const_marray_view.lower_end v.ndim split i with
    | .error e => .error e
    | .ok end_ =>
      if const_marray_view.lower_begin split i > end_ then
        const_marray_view.lower_loop v split todo (i + 1) newlen newstride
      else if i < newlen.length then
        match v.lower_run (const_marray_view.lower_begin split i).toNat end_.toNat with
        | .error e => .error e
        | .ok (l, s) =>
          const_marray_view.lower_loop v split todo (i + 1) (newlen.set i l)
            (newstride.set i s)
      else .error .undefined

/-- The member `const_marray_view::lower(const std::array<U, newdim>& split)`.  The source
returns `{newlen, data_, newstride}`, built from the two arrays of `newdim` entries.  As the
header stands no call of the member compiles: its template parameter `unsigned newdim` is
not deduced from the extent of a `std::array`, which has the type `size_t`, and the return
type, a view of rank `newdim+1`, has no constructor from arrays of `newdim` entries.  The
definition is the body as it is written. -/
def const_marray_view.lower (v : const_marray_view) (split : List Nat) :
    Except Failure const_marray_view :=
  if split.length < v.ndim then
    if const_marray_view.lower_split_asserts v.ndim split then
      match const_marray_view.lower_loop v split (split.length + 1) 0
          (List.replicate split.length 0) (List.replicate split.length 0) with
      | .ok (newlen, newstride) => .ok ⟨v.data_, newlen, newstride⟩
      | .error e => .error e
    else .error .assertion
  else .error .assertion

/-- The member `const_marray_view::front()`, defined for `ndim == 1` only. -/
def const_marray_view.front (v : const_marray_view) : Except Failure Chain :=
  if v.ndim = 1 then
    if 0 < v.len_.getD 0 0 then .ok (.scalar (v.data_ + 0)) else .error .assertion
  else .error .noOverload

/-- The two overloads of `const_marray_view::front(unsigned dim)`. -/
def const_marray_view.front_dim (v : const_marray_view) (dim : Nat) : Except Failure Chain :=
  if v.ndim = 1 then
    if dim = 0 then v.front else .error .assertion
  else
    if dim < v.ndim then
      if 0 < v.len_.getD dim 0 then
        .ok (.view ⟨v.data_,
          v.len_.take dim ++ (v.len_.drop (dim + 1)).take (v.ndim - dim - 1),
          v.stride_.take dim ++ (v.stride_.drop (dim + 1)).take (v.ndim - dim - 1)⟩)
      else .error .assertion
    else .error .assertion

/-- The member `const_marray_view::back()`, defined for `ndim == 1` only. -/
def const_marray_view.back (v : const_marray_view) : Except Failure Chain :=
  if v.ndim = 1 then
    if 0 < v.len_.getD 0 0 then
      .ok (.scalar (v.data_ + ((v.len_.getD 0 0 - 1 : Nat) : Int) * v.stride_.getD 0 0))
    else .error .assertion
  else .error .noOverload

/-- The two overloads of `const_marray_view::back(unsigned dim)`. -/
def const_marray_view.back_dim (v : const_marray_view) (dim : Nat) : Except Failure Chain :=
  if v.ndim = 1 then
    if dim = 0 then v.back else .error .assertion
  else
    match v.front_dim dim with
    | .ok (.view view) =>
      .ok (.view ⟨view.data_ + ((v.len_.getD dim 0 - 1 : Nat) : Int) * v.stride_.getD dim 0,
        view.len_, view.stride_⟩)
    | .ok c => .ok c
    | .error e => .error e

/-! ## Vocabulary for stating properties of chains -/

instance instDecidableEqExcept {ε α : Type} [DecidableEq ε] [DecidableEq α] :
    DecidableEq (Except ε α) := fun x y =>
  match x, y with
  | .ok a, .ok b =>
    if h : a = b then isTrue (by rw [h]) else isFalse (fun h1 => h (Except.ok.inj h1))
  | .error a, .error b =>
    if h : a = b then isTrue (by rw [h]) else isFalse (fun h1 => h (Except.error.inj h1))
  | .ok _, .error _ => isFalse (fun h => by cases h)
  | .error _, .ok _ => isFalse (fun h => by cases h)

/-- The number of arguments a chain object still expects: the dimensions of the original
view that no step has resolved yet. -/
def Chain.remaining : Chain → Nat
  | .scalar _ => 0
  | .view v => v.ndim
  | .ref r => r.array.ndim - r.dim + 1
  | .slice s => s.array.ndim - s.dim + 1

/-- The index a step starts at: the index itself, the front of a range, `0` for `all`. -/
def Arg.start : Arg → Nat
  | .index i => i
  | .range x => x.front
  | .all => 0

/-- Whether a step keeps its dimension (a range or `all`) rather than dropping it. -/
def Arg.kept : Arg → Bool
  | .index _ => false
  | .range _ => true
  | .all => true

/-- A step that is valid for a dimension of length `len`: an index below `len`, or a
range `[front, back)` with `front <= back <= len`. -/
def Arg.valid (len : Nat) : Arg → Prop
  | .index i => i < len
  | .range x => x.front ≤ x.back ∧ x.back ≤ len
  | .all => True

instance (len : Nat) (a : Arg) : Decidable (a.valid len) := by
  cases a <;> unfold Arg.valid <;> infer_instance

/-- One valid step per dimension. -/
def chain_valid : List Arg → List Nat → Prop
  | [], [] => True
  | a :: args, l :: lens => a.valid l ∧ chain_valid args lens
  | _, _ => False

/-- The sum over the steps of `(index or range start) * stride[dim]`. -/
def chain_offset : List Arg → List Int → Int
  | a :: args, s :: strides => (a.start : Int) * s + chain_offset args strides
  | _, _ => 0

/-- The lengths of the kept dimensions, in the order kept: the size of a range, the full
extent for `all`. -/
def kept_lens : List Arg → List Nat → List Nat
  | .index _ :: args, _ :: lens => kept_lens args lens
  | .range x :: args, _ :: lens => x.size :: kept_lens args lens
  | .all :: args, l :: lens => l :: kept_lens args lens
  | _, _ => []

/-- The original strides of the kept dimensions, in the order kept. -/
def kept_strides : List Arg → List Int → List Int
  | .index _ :: args, _ :: strides => kept_strides args strides
  | _ :: args, s :: strides => s :: kept_strides args strides
  | _, _ => []

/-- The linear offset `sum_k i_k * stride[k]` of an index tuple. -/
def linear_offset : List Nat → List Int → Int
  | i :: idx, s :: strides => (i : Int) * s + linear_offset idx strides
  | _, _ => 0

/-- An index tuple with every index below the length of its dimension. -/
def in_range : List Nat → List Nat → Prop
  | [], [] => True
  | i :: idx, l :: lens => i < l ∧ in_range idx lens
  | _, _ => False

/-- The elements of a one-dimensional view, read from the memory `mem` through
`operator[](idx_type)` at the indices `0, ..., len_[0]-1`. -/
def const_marray_view.elements (mem : Int → Int) (v : const_marray_view) :
    List (Option Int) :=
  (List.range (v.len_.getD 0 0)).map (fun i =>
    match v.index i with
    | .ok (.scalar p) => some (mem p)
    | _ => none)

/-- A memory holding the given values at the addresses `0, 1, ...`. -/
def memory_of (values : List Int) : Int → Int :=
  fun p => values.getD p.toNat 0

/-- A bijection on `[0, n)` given as a list of `n` entries: every entry is in range and no
entry is repeated. -/
def is_bijection (n : Nat) (perm : List Nat) : Prop :=
  perm.length = n ∧ (∀ x ∈ perm, x < n) ∧ perm.Nodup

/-- The inverse of a permutation given as a list: entry `i` is the position at which `i`
occurs in `perm`. -/
def inverse_perm (perm : List Nat) : List Nat :=
  (List.range perm.length).map (fun i => perm.indexOf i)

/-- Ascending-stride contiguity of the run `[begin, end]`: every adjacent pair satisfies
`stride[j+1] == stride[j]*len[j]`. -/
def run_ascending (v : const_marray_view) (begin_ end_ : Nat) : Bool :=
  (List.range (end_ - begin_)).all (fun k =>
    decide (v.stride_.getD (begin_ + k + 1) 0 =
      v.stride_.getD (begin_ + k) 0 * (v.len_.getD (begin_ + k) 0 : Int)))

/-- Descending-stride contiguity of the run `[begin, end]`: every adjacent pair satisfies
`stride[j] == stride[j+1]*len[j+1]`. -/
def run_descending (v : const_marray_view) (begin_ end_ : Nat) : Bool :=
  (List.range (end_ - begin_)).all (fun k =>
    decide (v.stride_.getD (begin_ + k) 0 =
      v.stride_.getD (begin_ + k + 1) 0 * (v.len_.getD (begin_ + k + 1) 0 : Int)))

/-- The product of the lengths of the dimensions `begin, ..., end`. -/
def merged_length (v : const_marray_view) (begin_ end_ : Nat) : Nat :=
  ((v.len_.drop begin_).take (end_ + 1 - begin_)).prod

/-- The smaller of the strides at the two endpoints of the run `[begin, end]`. -/
def merged_stride (v : const_marray_view) (begin_ end_ : Nat) : Int :=
  min (v.stride_.getD begin_ 0) (v.stride_.getD end_ 0)

/-! ## Iterator, bulk assignment and copy -/

/-- Modelled from the spec: the traversal of the iterator returned by `make_iterator` of
`miterator.hpp`, which is not part of the sources at hand.  The spec describes a traversal
of the Cartesian product of all dimension ranges in a fixed nested order; the list holds
the multi-indices in the order visited, the last dimension fastest.  A call `it.next(p)`
that returns `true` leaves each pointer at its start advanced by
`sum_k idx_k * stride[k]` for the multi-index visited. -/
def iterator_indices : List Nat → List (List Nat)
  | [] => [[]]
  | l :: len =>
    (List.range l).flatMap (fun i => (iterator_indices len).map (fun idx => i :: idx))

/-- The class `marray_view<T, ndim>`: it derives from `const_marray_view<T, ndim>` and has
the same three members. -/
abbrev marray_view := const_marray_view

/-- The address of the element with multi-index `idx`: the data pointer advanced by the
linear offset of `idx` (the value a pointer has after `it.next`). -/
def const_marray_view.address (v : const_marray_view) (idx : List Nat) : Int :=
  v.data_ + linear_offset idx v.stride_

/-- The successive values of `a_` at which `*a_ = value` executes in
`marray_view::operator=(const T& value)`. -/
def marray_view.assign_value_targets (v : marray_view) : List Int :=
  (iterator_indices v.len_).map (fun idx => v.address idx)

/-- The member `marray_view::operator=(const T& value)`:
`while (it.next(a_)) *a_ = value;`. -/
def marray_view.assign_value {α : Type} (v : marray_view) (value : α) (mem : Int → α) :
    Int → α :=
  (marray_view.assign_value_targets v).foldl (fun m a_ => Function.update m a_ value) mem

/-- The function `copy(a, b)`: `assert(a.lengths() == b.lengths())`, then
`while (it.next(a_, b_)) *b_ = *a_;` over the lengths of `a` with the strides of `a` and
of `b`. -/
def copy {α : Type} (a : const_marray_view) (b : marray_view) (mem : Int → α) :
    Except Failure (Int → α) :=
  if a.len_ = b.len_ then
    .ok ((iterator_indices a.len_).foldl
      (fun m idx => Function.update m (b.address idx) (m (a.address idx))) mem)
  else .error .assertion

/-- The member `marray_view::operator=(const const_marray_view<T, ndim>& other)`:
`copy(other, *this)`. -/
def marray_view.assign_view {α : Type} (this : marray_view) (other : const_marray_view)
    (mem : Int → α) : Except Failure (Int → α) :=
  copy other this mem

/-- A view that addresses pairwise distinct locations: distinct in-bounds multi-indices
have distinct addresses. -/
def const_marray_view.injective (v : const_marray_view) : Prop :=
  ∀ idx1 idx2, in_range idx1 v.len_ → in_range idx2 v.len_ →
    v.address idx1 = v.address idx2 → idx1 = idx2

/-- The elements of a view in traversal order, read from the memory `mem`. -/
def const_marray_view.contents {α : Type} (v : const_marray_view) (mem : Int → α) : List α :=
  (iterator_indices v.len_).map (fun idx => mem (v.address idx))

/-- The addresses of the elements of a view, in traversal order. -/
def const_marray_view.addresses (v : const_marray_view) : List Int :=
  (iterator_indices v.len_).map (fun idx => v.address idx)

/-! ## `marray_view`: rotation -/

/-- The call `std::swap(*a, *b)`. -/
def swap_cells {α : Type} (mem : Int → α) (a b : Int) : Int → α :=
  Function.update (Function.update mem a (mem b)) b (mem a)

/-- Each of the three loops of `rotate_dim`:
`for (idx_type i = 0; i < count; i++) { std::swap(*a, *b); a += s; b -= s; }`. -/
def marray_view.rotate_reverse_loop {α : Type} (s : Int) :
    Nat → Int → Int → (Int → α) → (Int → α)
  | 0, _, _, mem => mem
  | count + 1, a, b, mem =>
    marray_view.rotate_reverse_loop s count (a + s) (b - s) (swap_cells mem a b)

/-- The body of the loop `while (it.next(p))` of `rotate_dim`: the three reversals of the
fiber that starts at `p`, with `n = len_[dim]`, `s = stride_[dim]` and the normalized
`shift`. -/
def marray_view.rotate_fiber {α : Type} (p s : Int) (n : Nat) (shift : Int)
    (mem : Int → α) : Int → α :=
  let mem1 := marray_view.rotate_reverse_loop s (shift / 2).toNat p (p + (shift - 1) * s) mem
  let mem2 := marray_view.rotate_reverse_loop s (((n : Int) - shift) / 2).toNat
    (p + shift * s) (p + ((n : Int) - 1) * s) mem1
  marray_view.rotate_reverse_loop s (n / 2) p (p + ((n : Int) - 1) * s) mem2

/-- The statements `shift = shift%n; if (shift < 0) shift += n;` of `rotate_dim`: the
remainder of the signed division truncates towards zero. -/
def marray_view.rotate_normalize (shift : Int) (n : Nat) : Int :=
  if Int.tmod shift n < 0 then Int.tmod shift n + n else Int.tmod shift n

/-- The member `marray_view::rotate_dim(unsigned dim, stride_type shift)`.  With
`len_[dim] == 0` the statement `shift%n` divides by zero. -/
def marray_view.rotate_dim {α : Type} (v : marray_view) (dim : Nat) (shift : Int)
    (mem : Int → α) : Except Failure (Int → α) :=
  if dim < v.ndim then
    if v.len_.getD dim 0 = 0 then .error .undefined
    else if marray_view.rotate_normalize shift (v.len_.getD dim 0) = 0 then .ok mem
    else
      .ok ((iterator_indices
          (v.len_.take dim ++ (v.len_.drop (dim + 1)).take (v.ndim - dim - 1))).foldl
        (fun m idx =>
          marray_view.rotate_fiber
            (v.data_ + linear_offset idx
              (v.stride_.take dim ++ (v.stride_.drop (dim + 1)).take (v.ndim - dim - 1)))
            (v.stride_.getD dim 0) (v.len_.getD dim 0)
            (marray_view.rotate_normalize shift (v.len_.getD dim 0)) m)
        mem)
  else .error .assertion

/-- The loop `for (unsigned dim = 0; dim < ndim; dim++) rotate_dim(dim, shift[dim]);` of
`rotate`; the first argument counts the iterations still to run. -/
def marray_view.rotate_loop {α : Type} (v : marray_view) (shift : List Int) :
    Nat → Nat → (Int → α) → Except Failure (Int → α)
  | 0, _, mem => .ok mem
  | todo + 1, dim, mem =>
    match marray_view.rotate_dim v dim (shift.getD dim 0) mem with
    | .ok mem1 => marray_view.rotate_loop v shift todo (dim + 1) mem1
    | .error e => .error e

/-- The member `marray_view::rotate(const std::array<U, ndim>& shift)`. -/
def marray_view.rotate {α : Type} (v : marray_view) (shift : List Int) (mem : Int → α) :
    Except Failure (Int → α) :=
  if shift.length ≠ v.ndim then .error .noOverload
  else marray_view.rotate_loop v shift v.ndim 0 mem

/-- The address of element `j` of the fiber that starts at `p` and has stride `s`. -/
def fiber_cell (p s : Int) (j : Nat) : Int := p + (j : Int) * s

/-- The multi-index obtained from `idx` by inserting `j` at position `dim`. -/
def insert_at (j : Nat) : Nat → List Nat → List Nat
  | 0, idx => j :: idx
  | _ + 1, [] => [j]
  | dim + 1, i :: idx => i :: insert_at j dim idx

/-! ## `marray`: the owning array -/

/-- The class `marray<T, ndim, Allocator>`: the three members of the view it derives from,
plus `size_` and `layout_`. -/
structure marray where
  data_ : Int
  len_ : List Nat
  stride_ : List Int
  size_ : Nat
  layout_ : Layout
  deriving DecidableEq, Repr

/-- An owning array seen as the `marray_view` it derives from. -/
def marray.view (a : marray) : marray_view := ⟨a.data_, a.len_, a.stride_⟩

/-- The state of a default-constructed `marray<T, ndim>`: the default member initializers
(`nullptr` is the address `0`). -/
def marray.empty (ndim : Nat) : marray :=
  ⟨0, List.replicate ndim 0, List.replicate ndim 0, 0, Layout.DEFAULT⟩

/-- The call `Allocator::allocate(n)` of `aligned_allocator<T, N>` requests `n*sizeof(T)`
bytes from `posix_memalign`, the product computed in `size_t`: the number of elements of
size `sizeof_T` that the block it returns holds. -/
def aligned_allocator.capacity (sizeof_T n : Nat) : Nat := (n * sizeof_T) % 2 ^ 64 / sizeof_T

/-- The member `marray::reset(len, uninitialized_t, layout)` when
`Allocator::allocate(size_)` returns; `ptr` is the pointer returned, to a block of
`aligned_allocator.capacity sizeof(T) size_` elements.  `len` holds the values of the
argument, of a type `U` that may be wider than `idx_type`: `size_` is their product
accumulated in `size_t`, the strides are computed from them, and `base::reset` stores them
into `len_` converted to `idx_type` (32-bit unsigned). -/
def marray.reset_uninitialized (len : List Nat) (layout : Layout) (ptr : Int) : marray :=
  ⟨ptr, len.map (fun l => l % 2 ^ 32), default_strides len layout,
    len.foldl (fun size l => (size * l) % 2 ^ 64) 1, layout⟩

/-- The state in which `marray::reset(len, uninitialized_t, layout)` leaves the array
`this` when `Allocator::allocate(size_)` throws `std::bad_alloc`: `size_` and `layout_` are
assigned before the call, and `base::reset` does not run. -/
def marray.reset_uninitialized_throws (this : marray) (len : List Nat) (layout : Layout) :
    marray :=
  ⟨this.data_, this.len_, this.stride_, len.foldl (fun size l => (size * l) % 2 ^ 64) 1,
    layout⟩

/-- The call `std::uninitialized_fill_n(data_, size_, val)`. -/
def uninitialized_fill_n {α : Type} (data_ : Int) (size_ : Nat) (val : α) (mem : Int → α) :
    Int → α :=
  (List.range size_).foldl
    (fun (m : Int → α) (k : Nat) => Function.update m (data_ + (k : Int)) val) mem

/-- The member `marray::reset(len, val, layout)`:
`reset(len, uninitialized, layout); std::uninitialized_fill_n(data_, size_, val);`. -/
def marray.reset_value {α : Type} (len : List Nat) (val : α) (layout : Layout) (ptr : Int)
    (mem : Int → α) : marray × (Int → α) :=
  (marray.reset_uninitialized len layout ptr,
    uninitialized_fill_n (marray.reset_uninitialized len layout ptr).data_
      (marray.reset_uninitialized len layout ptr).size_ val mem)

/-- The member `marray::resize(const std::array<U, ndim>& len, const T& val)`; `ptr` is the
pointer that `Allocator::allocate` returns for the new buffer.  `marray a(std::move(*this))`
swaps the array with a default-constructed one, so `a` is the old array and `layout_` is
`DEFAULT` when `reset(len, val, layout_)` runs; `a` and the view `b` of the new array get
the component-wise minimum of the two shapes; `copy(a, b)`.  When the call returns, the
destructor of `a` releases the old buffer (`marray.resize_released`); the release does not
change the contents of memory. -/
def marray.resize {α : Type} (this : marray) (len : List Nat) (val : α) (ptr : Int)
    (mem : Int → α) : Except Failure (marray × (Int → α)) :=
  if len.length ≠ this.len_.length then .error .noOverload
  else
    let a := this
    let moved_from := marray.empty this.len_.length
    let after_reset := marray.reset_value len val moved_from.layout_ ptr mem
    let b := after_reset.1.view
    let minlen := (List.range this.len_.length).map (fun i =>
      min (a.len_.getD i 0) (b.len_.getD i 0))
    match copy ⟨a.data_, minlen, a.stride_⟩ ⟨b.data_, minlen, b.stride_⟩ after_reset.2 with
    | .ok mem2 => .ok (after_reset.1, mem2)
    | .error e => .error e

/-- The state in which `resize(len, val)` leaves the array `this` when the allocation of the
new buffer throws `std::bad_alloc`: the array was moved from, `reset(len, val, layout_)`
stops in `reset(len, uninitialized, layout_)`, and the old array, held by the local `a`, is
destroyed. -/
def marray.resize_throws (this : marray) (len : List Nat) : marray :=
  marray.reset_uninitialized_throws (marray.empty this.len_.length) len
    (marray.empty this.len_.length).layout_

/-- The strides of a row-major layout in closed form: each stride is the product of the
lengths of the later dimensions. -/
def row_major_strides : List Nat → List Int
  | [] => []
  | _ :: len => ((len.prod : Nat) : Int) :: row_major_strides len

/-! ## `marray`: `reset` and `swap` -/

/-- The member `const_marray_view::reset()`:
`data_ = nullptr; len_.fill(0); stride_.fill(0);`. -/
def const_marray_view.reset (v : const_marray_view) : const_marray_view :=
  ⟨0, List.replicate v.len_.length 0, List.replicate v.stride_.length 0⟩

/-- The member `marray::reset()`.  The second component is the block handed to
`Allocator::deallocate(data_, size_)` when `data_` is not null, and `none` when the call
is skipped.  The destructor calls `data_[i].~T()` that precede the release do not change
the contents of memory. -/
def marray.reset (this : marray) : marray × Option (Int × Nat) :=
  let released := if this.data_ ≠ 0 then some (this.data_, this.size_) else none
  let base := const_marray_view.reset this.view
  (⟨base.data_, base.len_, base.stride_, 0, Layout.DEFAULT⟩, released)

/-- The block that `resize` releases: when the call returns its local `a`, which holds the
old array, is destroyed, and the destructor `~marray()` is `reset()`. -/
def marray.resize_released (this : marray) : Option (Int × Nat) := (marray.reset this).2

/-- Whether the address `p` lies in a block handed to `Allocator::deallocate`. -/
def released_contains (block : Option (Int × Nat)) (p : Int) : Prop :=
  match block with
  | none => False
  | some (data, size) => data ≤ p ∧ p < data + (size : Int)

instance (block : Option (Int × Nat)) (p : Int) : Decidable (released_contains block p) := by
  unfold released_contains
  cases block with
  | none => exact instDecidableFalse
  | some b => exact instDecidableAnd

/-- The member `marray::swap(marray& other)`: `std::swap` of each of the five members.
The result holds the new `*this`, the new `other` and the memory, which no statement of
`swap` reads or writes. -/
def marray.swap {α : Type} (this other : marray) (mem : Int → α) :
    (marray × marray) × (Int → α) :=
  ((⟨other.data_, other.len_, other.stride_, other.size_, other.layout_⟩,
    ⟨this.data_, this.len_, this.stride_, this.size_, this.layout_⟩), mem)

/-! ## Transposition and `gemm` -/

/-- The overloads of `operator^(matrix_view<T>& m, transpose_t)`, declared for rank 2:
`matrix_view<T>(m.length(1), m.length(0), m.data(), m.stride(1), m.stride(0))`.  The
asserts `dim < ndim` of `length(dim)` and `stride(dim)` hold for rank 2. -/
def marray_view.transpose (m : marray_view) : Except Failure marray_view :=
  if m.ndim = 2 then
    .ok ⟨m.data_, [m.len_.getD 1 0, m.len_.getD 0 0], [m.stride_.getD 1 0, m.stride_.getD 0 0]⟩
  else .error .noOverload

/-- The arguments of one call of the external kernel `sgemm_` or `dgemm_`, in the order of
its declaration. -/
structure kernel_call (α : Type) where
  transa : Char
  transb : Char
  m : Int
  n : Int
  k : Int
  alpha : α
  a : Int
  lda : Int
  b : Int
  ldb : Int
  beta : α
  c : Int
  ldc : Int
  deriving DecidableEq, Repr

/-- The two overloads `gemm(int m, int n, int k, alpha, a, lda, b, ldb, beta, c, ldc)`:
the call `sgemm_("N", "N", &m, &n, &k, &alpha, a, &lda, b, &ldb, &beta, c, &ldc)`, or the
same call of `dgemm_`. -/
def gemm_pointers {α : Type} (m n k : Int) (alpha : α) (a lda b ldb : Int) (beta : α)
    (c ldc : Int) : kernel_call α :=
  ⟨'N', 'N', m, n, k, alpha, a, lda, b, ldb, beta, c, ldc⟩

/-- The function `gemm(alpha, a, b, beta, c)` on rank-2 views, up to the call of the
kernel: the result is the kernel call it makes.  The three asserts on the strides, the
flags `transc`, `transa`, `transb`, the views `at`, `bt`, `ct`, the three asserts on their
lengths, and the arguments `ct.length(0), ct.length(1), at.length(1), alpha, at.data(),
at.stride(1), bt.data(), bt.stride(1), beta, ct.data(), ct.stride(1)`.  The operands `a`
and `b` are `const_matrix_view`s, for which the header declares no `operator^` (its three
overloads take a `matrix_view`), so that no call of this function compiles as the header
stands; `a^T` and `b^T` are read as the transposition that those overloads compute.  The
lengths (`idx_type`) and strides (`stride_type`) are converted to the `int` parameters of
the callee by `to_int`. -/
def gemm {α : Type} (alpha : α) (a b : const_marray_view) (beta : α) (c : marray_view) :
    Except Failure (kernel_call α) :=
  if a.ndim ≠ 2 ∨ b.ndim ≠ 2 ∨ c.ndim ≠ 2 then .error .noOverload
  else if ¬ (a.stride_.getD 0 0 = 1 ∨ a.stride_.getD 1 0 = 1) then .error .assertion
  else if ¬ (b.stride_.getD 0 0 = 1 ∨ b.stride_.getD 1 0 = 1) then .error .assertion
  else if ¬ (c.stride_.getD 0 0 = 1 ∨ c.stride_.getD 1 0 = 1) then .error .assertion
  else
    let transc : Bool := decide (c.stride_.getD 1 0 = 1)
    let transa : Bool := decide (a.stride_.getD 1 0 = 1) != transc
    let transb : Bool := decide (b.stride_.getD 1 0 = 1) != transc
    match (if transa then marray_view.transpose a else .ok a),
        (if transb then marray_view.transpose b else .ok b),
        (if transc then marray_view.transpose c else .ok c) with
    | .ok a_t, .ok b_t, .ok c_t =>
      if ¬ a_t.len_.getD 0 0 = c_t.len_.getD 0 0 then .error .assertion
      else if ¬ b_t.len_.getD 1 0 = c_t.len_.getD 1 0 then .error .assertion
      else if ¬ a_t.len_.getD 1 0 = b_t.len_.getD 0 0 then .error .assertion
      else
        .ok (gemm_pointers (to_int (c_t.len_.getD 0 0 : Int)) (to_int (c_t.len_.getD 1 0 : Int))
          (to_int (a_t.len_.getD 1 0 : Int)) alpha a_t.data_ (to_int (a_t.stride_.getD 1 0))
          b_t.data_ (to_int (b_t.stride_.getD 1 0)) beta c_t.data_
          (to_int (c_t.stride_.getD 1 0)))
    | _, _, _ => .error .noOverload

/-- Modelled from the spec: the external kernel `sgemm_`/`dgemm_`, which is declared but
not defined in the sources at hand.  The spec calls it a dense matrix multiply on
column-major storage; for the flags `"N", "N"` the reference computation stores
`alpha * sum_l A(i,l) * B(l,j) + beta * C(i,j)` into `C(i,j)` for `i < m`, `j < n`, with
`A(i,l)` at `a + i + l*lda`, `B(l,j)` at `b + l + j*ldb` and `C(i,j)` at `c + i + j*ldc`.
The sum is taken over exact arithmetic and the operands are read from the memory before
the call.  Other flags are not modelled: the memory is returned as it is. -/
def reference_kernel {α : Type} [Add α] [Mul α] [Zero α] (call : kernel_call α)
    (mem : Int → α) : Int → α :=
  if call.transa = 'N' ∧ call.transb = 'N' then
    (iterator_indices [call.n.toNat, call.m.toNat]).foldl
      (fun acc ji =>
        Function.update acc
          (call.c + ((ji.getD 1 0 : Nat) : Int) + ((ji.getD 0 0 : Nat) : Int) * call.ldc)
          (call.alpha *
              (List.range call.k.toNat).foldl
                (fun (s : α) (l : Nat) =>
                  s + mem (call.a + ((ji.getD 1 0 : Nat) : Int) + (l : Int) * call.lda) *
                    mem (call.b + (l : Int) + ((ji.getD 0 0 : Nat) : Int) * call.ldb))
                0 +
            call.beta *
              mem (call.c + ((ji.getD 1 0 : Nat) : Int) +
                ((ji.getD 0 0 : Nat) : Int) * call.ldc)))
      mem
  else mem

/-- The function `gemm(alpha, a, b, beta, c)` with the kernel call carried out by
`reference_kernel`. -/
def gemm_effect {α : Type} [Add α] [Mul α] [Zero α] (alpha : α) (a b : const_marray_view)
    (beta : α) (c : marray_view) (mem : Int → α) : Except Failure (Int → α) :=
  match gemm alpha a b beta c with
  | .ok call => .ok (reference_kernel call mem)
  | .error e => .error e

/-! ## `marray`: `push_back` and `pop_back` -/

/-- A run of a mutating operation on a state `σ`: it completes with the new state, or it
stops at a failure with the state reached until then. -/
abbrev Run (σ : Type) := Except (Failure × σ) σ

/-- The function `copy(a, b)` as a run on the memory: the `assert` is its first statement. -/
def copy.run {α : Type} (a : const_marray_view) (b : marray_view) (mem : Int → α) :
    Run (Int → α) :=
  if a.len_ = b.len_ then
    match copy a b mem with
    | .ok mem1 => .ok mem1
    | .error e => .error (e, mem)
  else .error (.assertion, mem)

/-- The member `marray_view::operator=(const const_marray_view<T, ndim>& other)` as a run
on the memory: `copy(other, *this)`. -/
def marray_view.assign_view.run {α : Type} (this : marray_view) (other : const_marray_view)
    (mem : Int → α) : Run (Int → α) :=
  copy.run other this mem

/-- The member `marray_view::rotate_dim(dim, shift)` as a run on the memory:
`assert(dim < ndim)` is its first statement, and the division `shift%n` precedes the first
store. -/
def marray_view.rotate_dim.run {α : Type} (v : marray_view) (dim : Nat) (shift : Int)
    (mem : Int → α) : Run (Int → α) :=
  if dim < v.ndim then
    match marray_view.rotate_dim v dim shift mem with
    | .ok mem1 => .ok mem1
    | .error e => .error (e, mem)
  else .error (.assertion, mem)

/-- The loop of `push_back(dim, x)` for `ndim != 1`:
`for (unsigned i = 0, j = 0; i < ndim; i++) if (i != dim) assert(len_[i] == x.len_[j++]);`.
The first argument counts the iterations still to run; the result tells whether every
assert holds. -/
def marray.push_back_asserts (len_ xlen : List Nat) (dim : Nat) : Nat → Nat → Nat → Bool
  | 0, _, _ => true
  | todo + 1, i, j =>
    if i ≠ dim then
      if len_.getD i 0 = xlen.getD j 0 then
        marray.push_back_asserts len_ xlen dim todo (i + 1) (j + 1)
      else false
    else marray.push_back_asserts len_ xlen dim todo (i + 1) j

/-- The member `marray::push_back(const T& x)` for `ndim == 1`:
`resize(len_[0]+1); back() = x;`.  The sum is computed in `idx_type` (32-bit unsigned);
`T_default` is the value `T()` that `resize` takes as its default fill value and `ptr` the
pointer that `Allocator::allocate` returns.  `x` is the address of the element referred to;
it is read by the assignment, after `resize` has released the old buffer. -/
def marray.push_back {α : Type} (T_default : α) (this : marray) (x : Int) (ptr : Int)
    (mem : Int → α) : Run (marray × (Int → α)) :=
  if this.len_.length ≠ 1 then .error (.noOverload, (this, mem))
  else
    match marray.resize this [(this.len_.getD 0 0 + 1) % 2 ^ 32] T_default ptr mem with
    | .error e => .error (e, (this, mem))
    | .ok (this1, mem1) =>
      match this1.view.back with
      | .ok (.scalar p) =>
        if released_contains (marray.resize_released this) x then
          .error (.undefined, (this1, mem1))
        else .ok (this1, Function.update mem1 p (mem1 x))
      | .ok _ => .error (.noOverload, (this1, mem1))
      | .error e => .error (e, (this1, mem1))

/-- The member `marray::push_back(unsigned dim, const marray_view<T, ndim-1>& x)` for
`ndim != 1`: `assert(dim < ndim)`, the loop of asserts on the lengths,
`len = len_; len[dim]++; resize(len); back(dim) = x;`.  The increment is computed in
`idx_type` (32-bit unsigned); `T_default` is the value `T()` and `ptr` the pointer that
`Allocator::allocate` returns.  The elements of `x` are read by the assignment, after its
assert on the lengths and after `resize` has released the old buffer. -/
def marray.push_back_dim {α : Type} (T_default : α) (this : marray) (dim : Nat)
    (x : marray_view) (ptr : Int) (mem : Int → α) : Run (marray × (Int → α)) :=
  if this.len_.length = 1 ∨ x.len_.length + 1 ≠ this.len_.length then
    .error (.noOverload, (this, mem))
  else if ¬ dim < this.len_.length then .error (.assertion, (this, mem))
  else if ¬ marray.push_back_asserts this.len_ x.len_ dim this.len_.length 0 0 then
    .error (.assertion, (this, mem))
  else
    match marray.resize this (this.len_.set dim ((this.len_.getD dim 0 + 1) % 2 ^ 32))
        T_default ptr mem with
    | .error e => .error (e, (this, mem))
    | .ok (this1, mem1) =>
      match this1.view.back_dim dim with
      | .ok (.view slice) =>
        if x.len_ = slice.len_ ∧
            ∃ p ∈ x.addresses, released_contains (marray.resize_released this) p then
          .error (.undefined, (this1, mem1))
        else
          match copy x slice mem1 with
          | .ok mem2 => .ok (this1, mem2)
          | .error e => .error (e, (this1, mem1))
      | .ok _ => .error (.noOverload, (this1, mem1))
      | .error e => .error (e, (this1, mem1))

/-- The member `marray::pop_back()` for `ndim == 1`: `resize(len_[0]-1)`, with no assert
on `len_[0]`.  The difference is computed in `idx_type` (32-bit unsigned). -/
def marray.pop_back {α : Type} (T_default : α) (this : marray) (ptr : Int)
    (mem : Int → α) : Run (marray × (Int → α)) :=
  if this.len_.length ≠ 1 then .error (.noOverload, (this, mem))
  else
    match marray.resize this [(this.len_.getD 0 0 + (2 ^ 32 - 1)) % 2 ^ 32] T_default ptr
        mem with
    | .error e => .error (e, (this, mem))
    | .ok state => .ok state

/-- The two overloads of `marray::pop_back(unsigned dim)`.  For `ndim == 1`:
`assert(dim == 0); pop_back();`.  For `ndim != 1`: `assert(dim < ndim);
assert(len_[dim] > 0); len = len_; len[dim]--; resize(len);`. -/
def marray.pop_back_dim {α : Type} (T_default : α) (this : marray) (dim : Nat) (ptr : Int)
    (mem : Int → α) : Run (marray × (Int → α)) :=
  if this.len_.length = 1 then
    if dim = 0 then marray.pop_back T_default this ptr mem
    else .error (.assertion, (this, mem))
  else if ¬ dim < this.len_.length then .error (.assertion, (this, mem))
  else if ¬ 0 < this.len_.getD dim 0 then .error (.assertion, (this, mem))
  else
    match marray.resize this
        (this.len_.set dim ((this.len_.getD dim 0 + (2 ^ 32 - 1)) % 2 ^ 32))
        T_default ptr mem with
    | .error e => .error (e, (this, mem))
    | .ok state => .ok state

/-- What a run on an owning array shows without its memory: the array it completed with,
or the failure and the array it stopped with. -/
def Run.outcome {α : Type} (r : Run (marray × (Int → α))) : Except (Failure × marray) marray :=
  match r with
  | .ok (a, _) => .ok a
  | .error (e, (a, _)) => .error (e, a)

/-- The states of an owning array of rank `ndim` that default construction or construction
from a shape, followed by any number of `resize`, `push_back`, `pop_back` on a dimension of
non-zero length, `swap` and `reset`, can reach.  A shape is passed as a `std::array<U, ndim>`:
with `wide = false` every length passed is a value of `idx_type` (below `2^32`), with
`wide = true` the type `U` may be wider.  With `throwing = true` the states that `resize`,
`push_back` and `pop_back` leave when the allocation throws `std::bad_alloc` are included
(a constructor that throws leaves no array). -/
inductive marray.reachable (ndim : Nat) (wide throwing : Bool) : marray → Prop
  | default_constructed : marray.reachable ndim wide throwing (marray.empty ndim)
  | from_shape (len : List Nat) (layout : Layout) (ptr : Int) :
      len.length = ndim → (wide = false → ∀ l ∈ len, l < 2 ^ 32) →
      marray.reachable ndim wide throwing (marray.reset_uninitialized len layout ptr)
  | resize {α : Type} (a : marray) (len : List Nat) (val : α) (ptr : Int) (mem : Int → α)
      (a1 : marray) (mem1 : Int → α) :
      marray.reachable ndim wide throwing a → (wide = false → ∀ l ∈ len, l < 2 ^ 32) →
      marray.resize a len val ptr mem = .ok (a1, mem1) →
      marray.reachable ndim wide throwing a1
  | resize_throws (a : marray) (len : List Nat) :
      throwing = true → marray.reachable ndim wide throwing a → len.length = a.len_.length →
      (wide = false → ∀ l ∈ len, l < 2 ^ 32) →
      marray.reachable ndim wide throwing (marray.resize_throws a len)
  | push_back {α : Type} (T_default : α) (a : marray) (x : Int) (ptr : Int) (mem : Int → α)
      (a1 : marray) (mem1 : Int → α) :
      marray.reachable ndim wide throwing a →
      marray.push_back T_default a x ptr mem = .ok (a1, mem1) →
      marray.reachable ndim wide throwing a1
  | push_back_throws (a : marray) :
      throwing = true → marray.reachable ndim wide throwing a → a.len_.length = 1 →
      marray.reachable ndim wide throwing
        (marray.resize_throws a [(a.len_.getD 0 0 + 1) % 2 ^ 32])
  | push_back_dim {α : Type} (T_default : α) (a : marray) (dim : Nat) (x : marray_view)
      (ptr : Int) (mem : Int → α) (a1 : marray) (mem1 : Int → α) :
      marray.reachable ndim wide throwing a →
      marray.push_back_dim T_default a dim x ptr mem = .ok (a1, mem1) →
      marray.reachable ndim wide throwing a1
  | push_back_dim_throws (a : marray) (dim : Nat) (x : marray_view) :
      throwing = true → marray.reachable ndim wide throwing a → a.len_.length ≠ 1 →
      x.len_.length + 1 = a.len_.length → dim < a.len_.length →
      marray.push_back_asserts a.len_ x.len_ dim a.len_.length 0 0 = true →
      marray.reachable ndim wide throwing
        (marray.resize_throws a (a.len_.set dim ((a.len_.getD dim 0 + 1) % 2 ^ 32)))
  | pop_back_dim {α : Type} (T_default : α) (a : marray) (dim : Nat) (ptr : Int)
      (mem : Int → α) (a1 : marray) (mem1 : Int → α) :
      marray.reachable ndim wide throwing a → 0 < a.len_.getD dim 0 →
      marray.pop_back_dim T_default a dim ptr mem = .ok (a1, mem1) →
      marray.reachable ndim wide throwing a1
  | pop_back_dim_throws (a : marray) (dim : Nat) :
      throwing = true → marray.reachable ndim wide throwing a → dim < a.len_.length →
      0 < a.len_.getD dim 0 →
      marray.reachable ndim wide throwing
        (marray.resize_throws a
          (a.len_.set dim ((a.len_.getD dim 0 + (2 ^ 32 - 1)) % 2 ^ 32)))
  | swap_this {α : Type} (a b : marray) (mem : Int → α) :
      marray.reachable ndim wide throwing a → marray.reachable ndim wide throwing b →
      marray.reachable ndim wide throwing (marray.swap a b mem).1.1
  | swap_other {α : Type} (a b : marray) (mem : Int → α) :
      marray.reachable ndim wide throwing a → marray.reachable ndim wide throwing b →
      marray.reachable ndim wide throwing (marray.swap a b mem).1.2
  | reset (a : marray) :
      marray.reachable ndim wide throwing a →
      marray.reachable ndim wide throwing (marray.reset a).1

/-! ## Chain objects: current dimension and conversion to a view -/

/-- The length of the dimension that the next step of a chain resolves: `len_[0]` for a
view, `array.len_[dim-1]` for a chain object of the class with parameter `dim`. -/
def Chain.current_length : Chain → Nat
  | .scalar _ => 0
  | .view v => v.len_.getD 0 0
  | .ref r => r.array.len_.getD (r.dim - 1) 0
  | .slice s => s.array.len_.getD (s.dim - 1) 0

/-- A chain value as the types of the source admit it: a view with `ndim > 0` and as many
strides as lengths, or a chain object over such a view whose parameter `dim` satisfies
`2 <= dim <= ndim`. -/
def Chain.admissible : Chain → Prop
  | .scalar _ => True
  | .view v => v.WF
  | .ref r => r.array.WF ∧ 2 ≤ r.dim ∧ r.dim ≤ r.array.ndim
  | .slice s => s.array.WF ∧ 2 ≤ s.dim ∧ s.dim ≤ s.array.ndim

/-- The conversion of a chain value to a view: `operator const_marray_view` of the two
chain classes; a view converts to itself and a scalar reference has no conversion. -/
def Chain.toView : Chain → Option const_marray_view
  | .scalar _ => none
  | .view v => some v
  | .ref r => some r.toView
  | .slice s => some s.toView

/-- A chain value obtained from the view `v` after `d` of its dimensions were resolved. -/
def Chain.resolved (v : const_marray_view) (d : Nat) : Chain → Prop
  | .scalar _ => False
  | .view w => d = 0 ∧ w = v
  | .ref r => r.array = v ∧ r.dim = d + 1 ∧ 1 ≤ d
  | .slice s => s.array = v ∧ s.dim = d + 1 ∧ 1 ≤ d

/-! ## `gemm`: the normalized views -/

/-- The views `at`, `bt`, `ct` of `gemm(alpha, a, b, beta, c)`: the three asserts on the
strides, `transc = c.stride(1) == 1`, `transa = (a.stride(1) == 1) != transc`,
`transb = (b.stride(1) == 1) != transc`, and `at = (transa ? a^T : a)`,
`bt = (transb ? b^T : b)`, `ct = (transc ? c^T : c)`. -/
def gemm_views (a b : const_marray_view) (c : marray_view) :
    Except Failure (const_marray_view × const_marray_view × marray_view) :=
  if a.ndim ≠ 2 ∨ b.ndim ≠ 2 ∨ c.ndim ≠ 2 then .error .noOverload
  else if ¬ (a.stride_.getD 0 0 = 1 ∨ a.stride_.getD 1 0 = 1) then .error .assertion
  else if ¬ (b.stride_.getD 0 0 = 1 ∨ b.stride_.getD 1 0 = 1) then .error .assertion
  else if ¬ (c.stride_.getD 0 0 = 1 ∨ c.stride_.getD 1 0 = 1) then .error .assertion
  else
    let transc : Bool := decide (c.stride_.getD 1 0 = 1)
    let transa : Bool := decide (a.stride_.getD 1 0 = 1) != transc
    let transb : Bool := decide (b.stride_.getD 1 0 = 1) != transc
    match (if transa then marray_view.transpose a else .ok a),
        (if transb then marray_view.transpose b else .ok b),
        (if transc then marray_view.transpose c else .ok c) with
    | .ok a_t, .ok b_t, .ok c_t => .ok (a_t, b_t, c_t)
    | _, _, _ => .error .noOverload

/-! ## Column-major strides in closed form -/

/-- The strides of a column-major layout whose first stride is `first`: each stride is the
previous one times the previous length. -/
def col_major_strides_from (first : Int) : List Nat → List Int
  | [] => []
  | l :: len => first :: col_major_strides_from (first * (l : Int)) len

/-- The strides of a column-major layout in closed form. -/
def col_major_strides (len : List Nat) : List Int := col_major_strides_from 1 len

/-! ## `marray`: construction from a view -/

/-- The member `marray::reset(const marray_view<T, ndim>& other, Layout layout)`:
`reset(other.len_, uninitialized, layout)` when `std::is_scalar<T>::value`, else
`reset(other.len_, T(), layout)`; then `*this = other`, which is `copy(other, *this)`.
`T_default` is the value `T()` and `ptr` the pointer that `Allocator::allocate` returns. -/
def marray.reset_view {α : Type} (is_scalar : Bool) (T_default : α) (other : marray_view)
    (layout : Layout) (ptr : Int) (mem : Int → α) : Except Failure (marray × (Int → α)) :=
  let after_reset : marray × (Int → α) :=
    if is_scalar then (marray.reset_uninitialized other.len_ layout ptr, mem)
    else marray.reset_value other.len_ T_default layout ptr mem
  match copy other after_reset.1.view after_reset.2 with
  | .ok mem1 => .ok (after_reset.1, mem1)
  | .error e => .error e

/-- The constructor `marray(const marray_view<T, ndim>& other, Layout layout=DEFAULT)`:
its body is `reset(other);`, which does not pass `layout` on, so `reset` runs with its
default argument `DEFAULT`. -/
def marray.ctor_view {α : Type} (is_scalar : Bool) (T_default : α) (other : marray_view)
    (_layout : Layout) (ptr : Int) (mem : Int → α) : Except Failure (marray × (Int → α)) :=
  marray.reset_view is_scalar T_default other Layout.DEFAULT ptr mem

/-! ## Lemmas on the call operator -/

/-- A successful step on a chain object that expects at least two more arguments yields
one that expects one argument fewer. -/
theorem Chain.bracket_remaining (c c1 : Chain) (arg : Arg) (k : Nat)
    (hrem : c.remaining = k + 2) (hstep : c.bracket arg = .ok c1) :
    c1.remaining = k + 1 := by
  cases c with
  | scalar p => simp [Chain.remaining] at hrem
  | view v =>
    simp only [Chain.remaining] at hrem
    have h1 : ¬ v.ndim = 1 := by omega
    cases arg <;>
      simp only [Chain.bracket, const_marray_view.index, const_marray_view.range,
        const_marray_view.all, h1, if_false] at hstep
    · split at hstep
      · cases hstep
        simp only [Chain.remaining, const_marray_ref.ctor]; omega
      · cases hstep
    · split at hstep
      · cases hstep
        simp only [Chain.remaining, const_marray_slice.ctor_range]; omega
      · cases hstep
    · cases hstep
      simp only [Chain.remaining, const_marray_slice.ctor_range]; omega
  | ref r =>
    simp only [Chain.remaining] at hrem
    have h1 : ¬ r.array.ndim = r.dim := by omega
    cases arg <;>
      simp only [Chain.bracket, const_marray_ref.index, const_marray_ref.range,
        const_marray_ref.all, h1, if_false] at hstep
    · split at hstep
      · cases hstep
        simp only [Chain.remaining, const_marray_ref.ctor]; omega
      · cases hstep
    · cases hstep
      simp only [Chain.remaining, const_marray_slice.ctor_range]; omega
    · cases hstep
      simp only [Chain.remaining, const_marray_slice.ctor_range]; omega
  | slice s =>
    simp only [Chain.remaining] at hrem
    have h1 : ¬ s.array.ndim = s.dim := by omega
    cases arg <;>
      simp only [Chain.bracket, const_marray_slice.index, const_marray_slice.range,
        const_marray_slice.all, h1, if_false] at hstep
    · split at hstep
      · cases hstep
        simp only [Chain.remaining, const_marray_slice.ctor_index]; omega
      · cases hstep
    · split at hstep
      · cases hstep
        simp only [Chain.remaining, const_marray_slice.ctor_range]; omega
      · cases hstep
    · cases hstep
      simp only [Chain.remaining, const_marray_slice.ctor_range]; omega

/-- The variadic call overload is enabled when the argument count matches the dimensions
still open. -/
theorem Chain.variadic_enabled_of_remaining (c : Chain) (k : Nat)
    (hrem : c.remaining = k + 2) : c.variadic_enabled (k + 1) = true := by
  cases c with
  | scalar p => simp [Chain.remaining] at hrem
  | view v =>
    simp only [Chain.remaining] at hrem
    simp only [Chain.variadic_enabled, decide_eq_true_eq]; omega
  | ref r =>
    simp only [Chain.remaining] at hrem
    simp only [Chain.variadic_enabled, decide_eq_true_eq]; omega
  | slice s =>
    simp only [Chain.remaining] at hrem
    simp only [Chain.variadic_enabled, decide_eq_true_eq]; omega

/-- With as many arguments as dimensions still open, the call operator of any chain object
unfolds to the bracket chain. -/
theorem Chain.call_unfolds_to_steps (args : List Arg) :
    ∀ (c : Chain), args ≠ [] → args.length = c.remaining → c.call args = c.brackets args := by
  induction args with
  | nil => intro c h; exact absurd rfl h
  | cons a rest ih =>
    intro c _ hlen
    cases rest with
    | nil =>
      simp only [Chain.call, Chain.brackets]
      cases c.bracket a <;> rfl
    | cons b rest1 =>
      have hrem : c.remaining = rest1.length + 2 := by
        simp only [List.length_cons] at hlen; omega
      have hen := Chain.variadic_enabled_of_remaining c rest1.length hrem
      simp only [Chain.call, Chain.brackets, List.length_cons, hen, if_true]
      cases hstep : c.bracket a with
      | error e => rfl
      | ok c1 =>
        have h1 := Chain.bracket_remaining c c1 a rest1.length hrem hstep
        have := ih c1 (by simp) (by simp only [List.length_cons]; omega)
        simpa [Chain.brackets] using this

/-! ## Lemmas on chains of valid steps -/

/-- Reading `a[d]` and moving on: the suffix from `d` is `a[d]` followed by the suffix from
`d+1`. -/
theorem drop_eq_getD_cons {α : Type} (l : List α) (d : Nat) (a : α) (h : d < l.length) :
    l.drop d = l.getD d a :: l.drop (d + 1) := by
  rw [List.drop_eq_getElem_cons h, List.getD_eq_getElem l a h]

theorem chain_valid_cons_inv {a : Arg} {rest : List Arg} {l : List Nat} {d : Nat}
    (h : chain_valid (a :: rest) (l.drop d)) :
    d < l.length ∧ a.valid (l.getD d 0) ∧ chain_valid rest (l.drop (d + 1)) := by
  by_cases hd : d < l.length
  · rw [drop_eq_getD_cons l d 0 hd] at h
    exact ⟨hd, h.1, h.2⟩
  · rw [List.drop_eq_nil_of_le (by omega)] at h
    exact absurd h (by simp [chain_valid])

theorem chain_valid_nil_inv {l : List Nat} {d : Nat}
    (h : chain_valid [] (l.drop d)) : l.length ≤ d := by
  by_cases hd : d < l.length
  · rw [drop_eq_getD_cons l d 0 hd] at h
    exact absurd h (by simp [chain_valid])
  · omega

/-- Invariant of a `const_marray_slice` with `d` dimensions resolved: valid steps for the
remaining dimensions end in the view that extends the recorded lengths and strides. -/
theorem slice_steps_valid (rest : List Arg) :
    ∀ (s : const_marray_slice) (d : Nat), s.dim = d + 1 →
      s.array.stride_.length = s.array.len_.length → rest ≠ [] →
      chain_valid rest (s.array.len_.drop d) →
      (Chain.slice s).brackets rest = .ok (.view
        ⟨s.array.data_ + s.idx + chain_offset rest (s.array.stride_.drop d),
          s.lens ++ kept_lens rest (s.array.len_.drop d),
          s.strides ++ kept_strides rest (s.array.stride_.drop d)⟩) := by
  induction rest with
  | nil => intro s d _ _ h; exact absurd rfl h
  | cons a rest ih =>
    intro s d hdim hlen _ hvalid
    obtain ⟨hd, ha, hrest⟩ := chain_valid_cons_inv hvalid
    have hds : d < s.array.stride_.length := by omega
    rw [drop_eq_getD_cons s.array.len_ d 0 hd, drop_eq_getD_cons s.array.stride_ d 0 hds]
    cases rest with
    | nil =>
      have hn := chain_valid_nil_inv hrest
      have hnd : s.array.ndim = s.dim := by
        simp only [const_marray_view.ndim]; omega
      have hd1 : s.array.ndim - 1 = d := by
        simp only [const_marray_view.ndim]; omega
      have hd2 : s.dim - 1 = d := by omega
      have hd3 : s.array.len_.length - (d + 1) + 1 = 1 := by omega
      have hl : List.drop (d + 1) s.array.len_ = [] := List.drop_eq_nil_of_le hn
      have hs : List.drop (d + 1) s.array.stride_ = [] := List.drop_eq_nil_of_le (by omega)
      cases a with
      | index i =>
        simp only [Arg.valid] at ha
        simp [-List.getD_eq_getElem?_getD, Chain.brackets, Chain.bracket, const_marray_slice.index, hnd.symm, hd1, ha,
          chain_offset, kept_lens, kept_strides, Arg.start, const_marray_slice.data,
          add_assoc]
      | range x =>
        simp only [Arg.valid] at ha
        simp [-List.getD_eq_getElem?_getD, Chain.brackets, Chain.bracket, const_marray_slice.range, hnd.symm, hd1, ha,
          chain_offset, kept_lens, kept_strides, Arg.start, const_marray_slice.data,
          add_assoc, mul_comm]
      | all =>
        simp [-List.getD_eq_getElem?_getD, Chain.brackets, Chain.bracket, const_marray_slice.all, hnd.symm,
          const_marray_slice.toView, hd1, hd2, hdim, hd3, hl, hs,
          chain_offset, kept_lens, kept_strides, Arg.start, const_marray_slice.data,
          drop_eq_getD_cons s.array.len_ d 0 hd, drop_eq_getD_cons s.array.stride_ d 0 hds]
    | cons b rest1 =>
      obtain ⟨hd', _, _⟩ := chain_valid_cons_inv hrest
      have hnd : ¬ s.array.ndim = s.dim := by
        simp only [const_marray_view.ndim]; omega
      have hd2 : s.dim - 1 = d := by omega
      cases a with
      | index i =>
        simp only [Arg.valid] at ha
        have := ih (const_marray_slice.ctor_index (s.dim + 1) s.array s.idx s.dims s.lens i)
          (d + 1) (by simp [-List.getD_eq_getElem?_getD, const_marray_slice.ctor_index, hdim]) hlen (by simp) hrest
        simp only [Chain.brackets, Chain.bracket, const_marray_slice.index, hnd, hd2, ha,
          if_false, if_true, and_self, Nat.zero_le, true_and] at this ⊢
        rw [this]
        simp [-List.getD_eq_getElem?_getD, const_marray_slice.ctor_index, hdim, chain_offset, kept_lens, kept_strides,
          Arg.start, const_marray_slice.strides, add_assoc]
      | range x =>
        simp only [Arg.valid] at ha
        have := ih (const_marray_slice.ctor_range (s.dim + 1) s.array s.idx s.dims s.lens x)
          (d + 1) (by simp [-List.getD_eq_getElem?_getD, const_marray_slice.ctor_range, hdim]) hlen (by simp) hrest
        simp only [Chain.brackets, Chain.bracket, const_marray_slice.range, hnd, hd2, ha,
          if_false, if_true, and_self, Nat.zero_le, true_and] at this ⊢
        rw [this]
        simp [-List.getD_eq_getElem?_getD, const_marray_slice.ctor_range, hdim, chain_offset, kept_lens, kept_strides,
          Arg.start, const_marray_slice.strides, add_assoc, mul_comm]
      | all =>
        have := ih (const_marray_slice.ctor_range (s.dim + 1) s.array s.idx s.dims s.lens
            (MArray.range 0 (s.array.len_.getD (s.dim - 1) 0)))
          (d + 1) (by simp [-List.getD_eq_getElem?_getD, const_marray_slice.ctor_range, hdim]) hlen (by simp) hrest
        simp only [Chain.brackets, Chain.bracket, const_marray_slice.all, hnd, hd2,
          if_false] at this ⊢
        rw [this]
        simp [-List.getD_eq_getElem?_getD, const_marray_slice.ctor_range, hdim, chain_offset, kept_lens, kept_strides,
          Arg.start, const_marray_slice.strides, add_assoc, MArray.range, range_t.size]

/-- Invariant of a `const_marray_ref` with `d` dimensions indexed: valid steps for the
remaining dimensions, one of them a range or `all`, end in the view of the kept
dimensions. -/
theorem ref_steps_valid (rest : List Arg) :
    ∀ (r : const_marray_ref) (d : Nat), r.dim = d + 1 →
      r.array.stride_.length = r.array.len_.length → (∃ a ∈ rest, a.kept = true) →
      chain_valid rest (r.array.len_.drop d) →
      (Chain.ref r).brackets rest = .ok (.view
        ⟨r.array.data_ + r.idx + chain_offset rest (r.array.stride_.drop d),
          kept_lens rest (r.array.len_.drop d),
          kept_strides rest (r.array.stride_.drop d)⟩) := by
  induction rest with
  | nil => intro r d _ _ h; simp at h
  | cons a rest ih =>
    intro r d hdim hlen hkept hvalid
    obtain ⟨hd, ha, hrest⟩ := chain_valid_cons_inv hvalid
    have hds : d < r.array.stride_.length := by omega
    rw [drop_eq_getD_cons r.array.len_ d 0 hd, drop_eq_getD_cons r.array.stride_ d 0 hds]
    cases rest with
    | nil =>
      have hn := chain_valid_nil_inv hrest
      have hnd : r.array.ndim = r.dim := by
        simp only [const_marray_view.ndim]; omega
      have hd1 : r.array.ndim - 1 = d := by
        simp only [const_marray_view.ndim]; omega
      have hd2 : r.dim - 1 = d := by omega
      have hd3 : r.array.len_.length - (d + 1) + 1 = 1 := by omega
      have hl : List.drop (d + 1) r.array.len_ = [] := List.drop_eq_nil_of_le hn
      have hs : List.drop (d + 1) r.array.stride_ = [] := List.drop_eq_nil_of_le (by omega)
      cases a with
      | index i => simp [Arg.kept] at hkept
      | range x =>
        simp only [Arg.valid] at ha
        simp [-List.getD_eq_getElem?_getD, Chain.brackets, Chain.bracket,
          const_marray_ref.range, hnd.symm, hd1, ha,
          chain_offset, kept_lens, kept_strides, Arg.start, const_marray_ref.data,
          add_assoc, mul_comm]
      | all =>
        simp [-List.getD_eq_getElem?_getD, Chain.brackets, Chain.bracket,
          const_marray_ref.all, hnd.symm,
          const_marray_ref.toView, hd1, hd2, hdim, hd3, hl, hs,
          chain_offset, kept_lens, kept_strides, Arg.start, const_marray_ref.data,
          drop_eq_getD_cons r.array.len_ d 0 hd, drop_eq_getD_cons r.array.stride_ d 0 hds]
    | cons b rest1 =>
      obtain ⟨hd', _, _⟩ := chain_valid_cons_inv hrest
      have hnd : ¬ r.array.ndim = r.dim := by
        simp only [const_marray_view.ndim]; omega
      have hd2 : r.dim - 1 = d := by omega
      cases a with
      | index i =>
        simp only [Arg.valid] at ha
        have hkept1 : ∃ a ∈ b :: rest1, a.kept = true := by
          obtain ⟨a, hmem, hk⟩ := hkept
          rcases List.mem_cons.mp hmem with h | h
          · subst h; simp [Arg.kept] at hk
          · exact ⟨a, h, hk⟩
        have := ih (const_marray_ref.ctor (r.dim + 1) r.array r.idx i)
          (d + 1) (by simp [const_marray_ref.ctor, hdim]) hlen hkept1 hrest
        simp only [Chain.brackets, Chain.bracket, const_marray_ref.index, hnd, hd2, ha,
          if_false, if_true, and_self, Nat.zero_le, true_and] at this ⊢
        rw [this]
        simp [-List.getD_eq_getElem?_getD, const_marray_ref.ctor, hdim, chain_offset,
          kept_lens, kept_strides, Arg.start, add_assoc]
      | range x =>
        have := slice_steps_valid (b :: rest1)
          (const_marray_slice.ctor_range (r.dim + 1) r.array r.idx [] [] x)
          (d + 1) (by simp [const_marray_slice.ctor_range, hdim]) hlen (by simp) hrest
        simp only [Chain.brackets, Chain.bracket, const_marray_ref.range, hnd,
          if_false] at this ⊢
        rw [this]
        simp [-List.getD_eq_getElem?_getD, const_marray_slice.ctor_range, hdim, chain_offset,
          kept_lens, kept_strides, Arg.start, const_marray_slice.strides, add_assoc, mul_comm]
      | all =>
        have := slice_steps_valid (b :: rest1)
          (const_marray_slice.ctor_range (r.dim + 1) r.array r.idx [] []
            (MArray.range 0 (r.array.len_.getD (r.dim - 1) 0)))
          (d + 1) (by simp [const_marray_slice.ctor_range, hdim]) hlen (by simp) hrest
        simp only [Chain.brackets, Chain.bracket, const_marray_ref.all, hnd,
          if_false] at this ⊢
        rw [this]
        simp [-List.getD_eq_getElem?_getD, const_marray_slice.ctor_range, hdim, hd2,
          chain_offset, kept_lens, kept_strides, Arg.start, const_marray_slice.strides,
          add_assoc, MArray.range, range_t.size]

/-- Valid steps for all dimensions of a view, one of them a range or `all`, end in the view
of the kept dimensions. -/
theorem view_steps_valid (v : const_marray_view) (args : List Arg)
    (hlen : v.stride_.length = v.len_.length) (hkept : ∃ a ∈ args, a.kept = true)
    (hvalid : chain_valid args v.len_) :
    (Chain.view v).brackets args = .ok (.view
      ⟨v.data_ + chain_offset args v.stride_, kept_lens args v.len_,
        kept_strides args v.stride_⟩) := by
  cases args with
  | nil => simp at hkept
  | cons a rest =>
    have hvalid0 : chain_valid (a :: rest) (v.len_.drop 0) := by simpa using hvalid
    obtain ⟨hd, ha, hrest⟩ := chain_valid_cons_inv hvalid0
    have hds : 0 < v.stride_.length := by omega
    have hl0 := drop_eq_getD_cons v.len_ 0 0 hd
    have hs0 := drop_eq_getD_cons v.stride_ 0 0 hds
    simp only [List.drop_zero, Nat.zero_add] at hl0 hs0
    cases rest with
    | nil =>
      have hn := chain_valid_nil_inv hrest
      have hnd : v.ndim = 1 := by
        simp only [const_marray_view.ndim]; omega
      have hl : List.drop 1 v.len_ = [] := List.drop_eq_nil_of_le hn
      have hs : List.drop 1 v.stride_ = [] := List.drop_eq_nil_of_le (by omega)
      rw [hl] at hl0
      rw [hs] at hs0
      cases a with
      | index i => simp [Arg.kept] at hkept
      | range x =>
        simp only [Arg.valid] at ha
        conv_rhs => rw [hl0, hs0]
        simp [-List.getD_eq_getElem?_getD, Chain.brackets, Chain.bracket,
          const_marray_view.range, hnd, ha,
          chain_offset, kept_lens, kept_strides, Arg.start]
      | all =>
        conv_rhs => rw [hl0, hs0]
        simp only [Chain.brackets, Chain.bracket, const_marray_view.all, hnd, if_true,
          chain_offset, kept_lens, kept_strides, Arg.start]
        rw [← hl0, ← hs0]
        simp
    | cons b rest1 =>
      obtain ⟨hd', _, _⟩ := chain_valid_cons_inv hrest
      have hnd : ¬ v.ndim = 1 := by
        simp only [const_marray_view.ndim]; omega
      rw [hl0, hs0]
      cases a with
      | index i =>
        simp only [Arg.valid] at ha
        have hkept1 : ∃ a ∈ b :: rest1, a.kept = true := by
          obtain ⟨a, hmem, hk⟩ := hkept
          rcases List.mem_cons.mp hmem with h | h
          · subst h; simp [Arg.kept] at hk
          · exact ⟨a, h, hk⟩
        have := ref_steps_valid (b :: rest1) (const_marray_ref.ctor 2 v 0 i)
          1 (by simp [const_marray_ref.ctor]) hlen hkept1 hrest
        simp only [Chain.brackets, Chain.bracket, const_marray_view.index, hnd, ha,
          if_false, if_true] at this ⊢
        rw [this]
        simp [-List.getD_eq_getElem?_getD, const_marray_ref.ctor, chain_offset,
          kept_lens, kept_strides, Arg.start, add_assoc]
      | range x =>
        simp only [Arg.valid] at ha
        have := slice_steps_valid (b :: rest1)
          (const_marray_slice.ctor_range 2 v 0 [] [] x)
          1 (by simp [const_marray_slice.ctor_range]) hlen (by simp) hrest
        simp only [Chain.brackets, Chain.bracket, const_marray_view.range, hnd, ha,
          if_false, if_true, Nat.zero_le, true_and] at this ⊢
        rw [this]
        simp [-List.getD_eq_getElem?_getD, const_marray_slice.ctor_range, chain_offset,
          kept_lens, kept_strides, Arg.start, const_marray_slice.strides, add_assoc, mul_comm]
      | all =>
        have := slice_steps_valid (b :: rest1)
          (const_marray_slice.ctor_range 2 v 0 [] [] (range_to (v.len_.getD 0 0)))
          1 (by simp [const_marray_slice.ctor_range]) hlen (by simp) hrest
        simp only [Chain.brackets, Chain.bracket, const_marray_view.all, hnd,
          if_false] at this ⊢
        rw [this]
        simp [-List.getD_eq_getElem?_getD, const_marray_slice.ctor_range,
          chain_offset, kept_lens, kept_strides, Arg.start, const_marray_slice.strides,
          add_assoc, range_to, range_t.size]

theorem kept_lens_length (args : List Arg) :
    ∀ (lens : List Nat), chain_valid args lens →
      (kept_lens args lens).length = args.countP Arg.kept := by
  induction args with
  | nil => intro lens _; cases lens <;> simp [kept_lens]
  | cons a rest ih =>
    intro lens h
    cases lens with
    | nil => simp [chain_valid] at h
    | cons l lens =>
      have := ih lens h.2
      cases a <;> simp [kept_lens, Arg.kept, List.countP_cons, this]

theorem kept_strides_length (args : List Arg) :
    ∀ (lens : List Nat) (strides : List Int), chain_valid args lens →
      strides.length = lens.length →
      (kept_strides args strides).length = args.countP Arg.kept := by
  induction args with
  | nil => intro lens strides _ _; cases strides <;> simp [kept_strides]
  | cons a rest ih =>
    intro lens strides h hlen
    cases lens with
    | nil => simp [chain_valid] at h
    | cons l lens =>
      cases strides with
      | nil => simp at hlen
      | cons s strides =>
        have := ih lens strides h.2 (by simpa using hlen)
        cases a <;> simp [kept_strides, Arg.kept, List.countP_cons, this]

/-! ## Claims about the indexing chain -/

/-- On a rank-2 view every fully indexed expression `v[i][j]` with `i` in range evaluates,
for any `j`, to the element at offset `i * stride[0] + j`: the last step neither checks
`j` nor scales it by `stride[1]`. -/
theorem const_marray_view.rank2_full_index (v : const_marray_view) (i j : Nat)
    (hrank : v.ndim = 2) (hi : i < v.len_.getD 0 0) :
    (Chain.view v).brackets [.index i, .index j] =
      .ok (.scalar (v.data_ + (i : Int) * v.stride_.getD 0 0 + (j : Int))) := by
  have h1 : ¬ v.ndim = 1 := by omega
  simp [-List.getD_eq_getElem?_getD, Chain.brackets, Chain.bracket, const_marray_view.index,
    h1, hi, const_marray_ref.index, const_marray_ref.ctor, hrank, const_marray_ref.data]

/-- C1 (the code departs from the claim): on the rank-2 view with lengths `[2,3]` and the
column-major strides `[1,2]`, the in-range expression `v[0][1]` refers to offset `1` from
the data pointer, while the linear offset `0*1 + 1*2` is `2`. -/
theorem full_index_column_major_offset :
    const_marray_view.WF ⟨0, [2, 3], [1, 2]⟩ ∧
    default_strides [2, 3] Layout.COLUMN_MAJOR = [1, 2] ∧
    in_range [0, 1] [2, 3] ∧
    linear_offset [0, 1] [1, 2] = 2 ∧
    (Chain.view ⟨0, [2, 3], [1, 2]⟩).brackets [.index 0, .index 1] = .ok (.scalar 1) := by
  refine ⟨by decide, by decide, ?_, by decide, by decide⟩
  simp [in_range]

/-- C2 (the code departs from the claim): on the rank-2 view with lengths `[2,3]` and
strides `[3,1]`, the expression `v[0][5]`, whose last index `5` is not below the length
`3`, returns a reference (at offset `5`) and no assertion fires. -/
theorem full_index_last_dimension_unchecked :
    const_marray_view.WF ⟨0, [2, 3], [3, 1]⟩ ∧
    ¬ in_range [0, 5] [2, 3] ∧
    (Chain.view ⟨0, [2, 3], [3, 1]⟩).brackets [.index 0, .index 5] = .ok (.scalar 5) := by
  refine ⟨by decide, ?_, by decide⟩
  simp [in_range]

/-- C3: for a view and a chain of one valid step per dimension, at least one of them a
range or `all`, the bracket chain yields a view at the data pointer advanced by the sum
of `(index or range start) * stride[dim]`, whose lengths are the range sizes (full extent
for `all`) and whose strides are the original strides of the kept dimensions, in the
order kept; its rank is the number of range/`all` steps. -/
theorem sliced_chain_yields_view (v : const_marray_view) (args : List Arg)
    (hwf : v.WF) (hvalid : chain_valid args v.len_)
    (hkept : ∃ a ∈ args, a.kept = true) :
    (Chain.view v).brackets args = .ok (.view
      ⟨v.data_ + chain_offset args v.stride_, kept_lens args v.len_,
        kept_strides args v.stride_⟩) ∧
    (kept_lens args v.len_).length = args.countP Arg.kept ∧
    (kept_strides args v.stride_).length = args.countP Arg.kept :=
  ⟨view_steps_valid v args hwf.2 hkept hvalid,
    kept_lens_length args v.len_ hvalid,
    kept_strides_length args v.len_ v.stride_ hvalid hwf.2⟩

/-- Witness for C3: on a `[3,4]` array, rows `[0,2)` with all columns give the `[2,4]`
view with the original strides at offset `0`. -/
theorem sliced_chain_yields_view_witness :
    const_marray_view.WF ⟨0, [3, 4], [4, 1]⟩ ∧
    chain_valid [.range (range 0 2), .all] [3, 4] ∧
    (Chain.view ⟨0, [3, 4], [4, 1]⟩).brackets [.range (range 0 2), .all] =
      .ok (.view ⟨0, [2, 4], [4, 1]⟩) :=
  ⟨by decide, by simp [chain_valid, Arg.valid, range],
    (sliced_chain_yields_view ⟨0, [3, 4], [4, 1]⟩ [.range (range 0 2), .all] (by decide)
      (by simp [chain_valid, Arg.valid, range]) ⟨.all, by simp, rfl⟩).1⟩

/-- C4: for a view of rank at least 2 and `i < len[0]`, `v[i]` is a chain object whose
conversion to a view is the view of rank `N-1` with lengths `len[1..N-1]`, strides
`stride[1..N-1]` and data pointer advanced by `i * stride[0]`. -/
theorem index_then_view (v : const_marray_view) (i : Nat)
    (hwf : v.WF) (hrank : 2 ≤ v.ndim) (hi : i < v.len_.getD 0 0) :
    ∃ r : const_marray_ref, v.index i = .ok (.ref r) ∧
      r.toView = ⟨v.data_ + (i : Int) * v.stride_.getD 0 0, v.len_.drop 1,
        v.stride_.drop 1⟩ ∧
      r.toView.ndim = v.ndim - 1 := by
  have h1 : ¬ v.ndim = 1 := by omega
  refine ⟨const_marray_ref.ctor 2 v 0 i, ?_, ?_, ?_⟩
  · simp only [const_marray_view.index, h1, hi, if_false, if_true]
  · have hl : (List.drop 1 v.len_).length ≤ v.ndim - 2 + 1 := by
      simp only [List.length_drop, const_marray_view.ndim]; omega
    have hs : (List.drop 1 v.stride_).length ≤ v.ndim - 2 + 1 := by
      simp only [List.length_drop, const_marray_view.ndim, hwf.2]; omega
    simp only [const_marray_ref.toView, const_marray_ref.ctor, const_marray_ref.data,
      Nat.add_one_sub_one, List.take_of_length_le hl, List.take_of_length_le hs, zero_add]
  · simp only [const_marray_ref.toView, const_marray_ref.ctor, const_marray_view.ndim,
      List.length_take, List.length_drop]
    simp only [const_marray_view.ndim] at hrank
    omega

/-- Witness for C4: on the `[2,3]` row-major array `[[1,2,3],[4,5,6]]`, `view[1]` converts
to the rank-1 view at offset `3` with length `3` and stride `1`, whose elements are
`[4,5,6]`. -/
theorem index_then_view_witness :
    default_strides [2, 3] Layout.ROW_MAJOR = [3, 1] ∧
    (∃ r : const_marray_ref,
      const_marray_view.index ⟨0, [2, 3], [3, 1]⟩ 1 = .ok (.ref r) ∧
      r.toView = ⟨3, [3], [1]⟩ ∧ r.toView.ndim = 1) ∧
    const_marray_view.elements (memory_of [1, 2, 3, 4, 5, 6]) ⟨3, [3], [1]⟩ =
      [some 4, some 5, some 6] :=
  ⟨by decide,
    index_then_view ⟨0, [2, 3], [3, 1]⟩ 1 (by decide) (by decide) (by decide),
    by decide⟩

/-- C5: for a view of rank `N` and `N` index-or-range arguments, the call
`v(a_0, ..., a_{N-1})` evaluates to exactly what `v[a_0]...[a_{N-1}]` evaluates to (the
same scalar reference or view, or the same failure); in particular `v(i, j, k)` and
`v[i][j][k]` denote the same element of a rank-3 view. -/
theorem call_same_as_bracket_chain (v : const_marray_view) (args : List Arg)
    (hrank : 0 < v.ndim) (hargs : args.length = v.ndim) :
    (Chain.view v).call args = (Chain.view v).brackets args :=
  Chain.call_unfolds_to_steps args (Chain.view v)
    (by intro h; rw [h] at hargs; simp at hargs; omega) hargs

/-- Witness for C5: on the rank-3 row-major view with lengths `[2,3,4]`, `v(1, 2, 3)` and
`v[1][2][3]` are the same scalar reference, at offset `23`. -/
theorem call_same_as_bracket_chain_witness :
    (Chain.view ⟨0, [2, 3, 4], [12, 4, 1]⟩).call [.index 1, .index 2, .index 3] =
      (Chain.view ⟨0, [2, 3, 4], [12, 4, 1]⟩).brackets [.index 1, .index 2, .index 3] ∧
    (Chain.view ⟨0, [2, 3, 4], [12, 4, 1]⟩).call [.index 1, .index 2, .index 3] =
      .ok (.scalar 23) :=
  ⟨call_same_as_bracket_chain ⟨0, [2, 3, 4], [12, 4, 1]⟩ [.index 1, .index 2, .index 3]
    (by decide) (by decide), by decide⟩

/-- C6 (the code departs from the claim): after an index on a rank-3 view with lengths
`[2,3,4]`, the range `[0,100)` on the dimension of length `3` produces a chain object and
no assertion fires; and directly on a rank-1 view of length `3`, the range with front `2`
and back `1` passes the assertion as well. -/
theorem range_bounds_unchecked :
    (Chain.view ⟨0, [2, 3, 4], [12, 4, 1]⟩).brackets [.index 0, .range (range 0 100)] =
      .ok (.slice ⟨⟨0, [2, 3, 4], [12, 4, 1]⟩, 3, 0, [1], [100]⟩) ∧
    (∃ c, (Chain.view ⟨0, [3], [1]⟩).brackets [.range (range 2 1)] = .ok c) :=
  ⟨by decide, ⟨_, rfl⟩⟩

/-! ## Claims about `default_strides` -/

theorem getD_set_eq {α : Type} (l : List α) (i : Nat) (a d : α) (h : i < l.length) :
    (l.set i a).getD i d = a := by
  rw [List.getD_eq_getElem _ _ (by simpa using h)]
  simp

theorem getD_set_ne {α : Type} (l : List α) (i j : Nat) (a d : α) (h : i ≠ j) :
    (l.set i a).getD j d = l.getD j d := by
  simp only [List.getD_eq_getElem?_getD, List.getElem?_set_ne h]

/-- A value within the range of `stride_type` is unchanged by the conversion. -/
theorem to_stride_type_of_fits (x : Int) (h0 : -2 ^ 63 ≤ x) (h1 : x < 2 ^ 63) :
    to_stride_type x = x := by
  unfold to_stride_type
  rw [Int.emod_eq_of_lt (by omega) (by omega)]
  omega

/-- The conversion to `stride_type` depends on the value modulo `2^64` only. -/
theorem to_stride_type_congr {x y : Int} (h : x % 2 ^ 64 = y % 2 ^ 64) :
    to_stride_type x = to_stride_type y := by
  unfold to_stride_type
  have e : (x + 2 ^ 63) % 2 ^ 64 = (y + 2 ^ 63) % 2 ^ 64 := by
    rw [Int.add_emod, h, ← Int.add_emod]
  rw [e]

theorem to_stride_type_emod (x : Int) : to_stride_type x % 2 ^ 64 = x % 2 ^ 64 := by
  unfold to_stride_type
  omega

/-- A product with a converted factor converts to the same value as the exact product. -/
theorem to_stride_type_mul (a b : Int) :
    to_stride_type (to_stride_type a * b) = to_stride_type (a * b) := by
  apply to_stride_type_congr
  rw [Int.mul_emod, to_stride_type_emod, ← Int.mul_emod]

/-- Invariant of the row-major loop: entries from the loop variable on are untouched, the
entries below it satisfy the recurrence in `stride_type`. -/
theorem default_strides.row_loop_inv (len : List Nat) (n : Nat) :
    ∀ (i : Nat) (stride : List Int), stride.length = n → i < n →
      (default_strides.row_loop len i stride).length = n ∧
      (∀ j, i ≤ j → (default_strides.row_loop len i stride).getD j 0 = stride.getD j 0) ∧
      (∀ j, j < i → (default_strides.row_loop len i stride).getD j 0 =
        to_stride_type ((default_strides.row_loop len i stride).getD (j + 1) 0 *
          (len.getD (j + 1) 0 : Int))) := by
  intro i
  induction i with
  | zero =>
    intro stride hlen _
    exact ⟨hlen, fun _ _ => rfl, fun j hj => absurd hj (Nat.not_lt_zero j)⟩
  | succ i ih =>
    intro stride hlen hi
    have hset : (stride.set i (to_stride_type
        (stride.getD (i + 1) 0 * (len.getD (i + 1) 0 : Int)))).length = n := by
      simpa using hlen
    obtain ⟨h1, h2, h3⟩ := ih _ hset (by omega)
    simp only [default_strides.row_loop]
    refine ⟨h1, ?_, ?_⟩
    · intro j hj
      rw [h2 j (by omega), getD_set_ne _ _ _ _ _ (by omega)]
    · intro j hj
      by_cases hji : j < i
      · exact h3 j hji
      · have hje : j = i := by omega
        subst hje
        rw [h2 j (le_refl j), h2 (j + 1) (by omega), getD_set_eq _ _ _ _ (by omega),
          getD_set_ne _ _ _ _ _ (by omega)]

/-- Invariant of the column-major loop: entries below the loop variable are untouched, the
entries from it on satisfy the recurrence in `stride_type`. -/
theorem default_strides.col_loop_inv (len : List Nat) (n : Nat) :
    ∀ (todo i : Nat) (stride : List Int), stride.length = n → 1 ≤ i → i + todo = n →
      (default_strides.col_loop len todo i stride).length = n ∧
      (∀ j, j < i → (default_strides.col_loop len todo i stride).getD j 0 = stride.getD j 0) ∧
      (∀ j, i ≤ j → j < n → (default_strides.col_loop len todo i stride).getD j 0 =
        to_stride_type ((default_strides.col_loop len todo i stride).getD (j - 1) 0 *
          (len.getD (j - 1) 0 : Int))) := by
  intro todo
  induction todo with
  | zero =>
    intro i stride hlen _ hsum
    exact ⟨hlen, fun _ _ => rfl, fun j hj hjn => by omega⟩
  | succ todo ih =>
    intro i stride hlen hi hsum
    have hset : (stride.set i (to_stride_type
        (stride.getD (i - 1) 0 * (len.getD (i - 1) 0 : Int)))).length = n := by
      simpa using hlen
    obtain ⟨h1, h2, h3⟩ := ih (i + 1) _ hset (by omega) (by omega)
    simp only [default_strides.col_loop]
    refine ⟨h1, ?_, ?_⟩
    · intro j hj
      rw [h2 j (by omega), getD_set_ne _ _ _ _ _ (by omega)]
    · intro j hj hjn
      by_cases hji : i + 1 ≤ j
      · exact h3 j hji hjn
      · have hje : j = i := by omega
        subst hje
        rw [h2 j (by omega), h2 (j - 1) (by omega), getD_set_eq _ _ _ _ (by omega),
          getD_set_ne _ _ _ _ _ (by omega)]

/-- Counterexample for C7: for the shape `(65536, 65536, 65536, 65536, 65536)` the
row-major strides are `(0, 2^48, 2^32, 2^16, 1)` and the column-major strides are
`(1, 2^16, 2^32, 2^48, 0)`: the product `2^48 * 65536 = 2^64` does not fit the 64-bit
`stride_type`, and the stride stored is `0`, not the product. -/
theorem default_strides_product_wraps :
    default_strides [65536, 65536, 65536, 65536, 65536] Layout.ROW_MAJOR =
      [0, 281474976710656, 4294967296, 65536, 1] ∧
    (default_strides [65536, 65536, 65536, 65536, 65536] Layout.ROW_MAJOR).getD 0 0 ≠
      (default_strides [65536, 65536, 65536, 65536, 65536] Layout.ROW_MAJOR).getD 1 0 *
        (([65536, 65536, 65536, 65536, 65536] : List Nat).getD 1 0 : Int) ∧
    default_strides [65536, 65536, 65536, 65536, 65536] Layout.COLUMN_MAJOR =
      [1, 65536, 4294967296, 281474976710656, 0] ∧
    (default_strides [65536, 65536, 65536, 65536, 65536] Layout.COLUMN_MAJOR).getD 4 0 ≠
      (default_strides [65536, 65536, 65536, 65536, 65536] Layout.COLUMN_MAJOR).getD 3 0 *
        (([65536, 65536, 65536, 65536, 65536] : List Nat).getD 3 0 : Int) := by
  refine ⟨by decide, by decide, by decide, by decide⟩

/-- C7 (amended): for a shape of rank `N >= 1`, `default_strides` with row-major layout
returns `N` strides with `stride[N-1] = 1` and, for `i < N-1`, `stride[i]` equal to the
product `stride[i+1] * len[i+1]` converted to the 64-bit `stride_type`, which is the product
itself when that lies in `[-2^63, 2^63)`; with column-major layout it returns `N` strides
with `stride[0] = 1` and, for `i >= 1`, `stride[i]` equal to `stride[i-1] * len[i-1]`
converted in the same way. -/
theorem default_strides_recurrence (len : List Nat) (hrank : 0 < len.length) :
    ((default_strides len Layout.ROW_MAJOR).length = len.length ∧
      (default_strides len Layout.ROW_MAJOR).getD (len.length - 1) 0 = 1 ∧
      ∀ i, i + 1 < len.length →
        (default_strides len Layout.ROW_MAJOR).getD i 0 =
          to_stride_type ((default_strides len Layout.ROW_MAJOR).getD (i + 1) 0 *
            (len.getD (i + 1) 0 : Int)) ∧
        (-2 ^ 63 ≤ (default_strides len Layout.ROW_MAJOR).getD (i + 1) 0 *
            (len.getD (i + 1) 0 : Int) →
          (default_strides len Layout.ROW_MAJOR).getD (i + 1) 0 *
            (len.getD (i + 1) 0 : Int) < 2 ^ 63 →
          (default_strides len Layout.ROW_MAJOR).getD i 0 =
            (default_strides len Layout.ROW_MAJOR).getD (i + 1) 0 *
              (len.getD (i + 1) 0 : Int))) ∧
    ((default_strides len Layout.COLUMN_MAJOR).length = len.length ∧
      (default_strides len Layout.COLUMN_MAJOR).getD 0 0 = 1 ∧
      ∀ i, 1 ≤ i → i < len.length →
        (default_strides len Layout.COLUMN_MAJOR).getD i 0 =
          to_stride_type ((default_strides len Layout.COLUMN_MAJOR).getD (i - 1) 0 *
            (len.getD (i - 1) 0 : Int)) ∧
        (-2 ^ 63 ≤ (default_strides len Layout.COLUMN_MAJOR).getD (i - 1) 0 *
            (len.getD (i - 1) 0 : Int) →
          (default_strides len Layout.COLUMN_MAJOR).getD (i - 1) 0 *
            (len.getD (i - 1) 0 : Int) < 2 ^ 63 →
          (default_strides len Layout.COLUMN_MAJOR).getD i 0 =
            (default_strides len Layout.COLUMN_MAJOR).getD (i - 1) 0 *
              (len.getD (i - 1) 0 : Int))) := by
  have hrep : (List.replicate len.length (0 : Int)).length = len.length := by simp
  constructor
  · have hset : ((List.replicate len.length (0 : Int)).set (len.length - 1) 1).length =
        len.length := by simp
    obtain ⟨h1, h2, h3⟩ := default_strides.row_loop_inv len len.length (len.length - 1) _ hset
      (by omega)
    simp only [default_strides, if_true]
    refine ⟨h1, ?_, fun i hi => ⟨h3 i (by omega), fun hlo hhi => ?_⟩⟩
    · rw [h2 _ (le_refl _), getD_set_eq _ _ _ _ (by simpa using hrank)]
    · rw [h3 i (by omega)]
      exact to_stride_type_of_fits _ hlo hhi
  · have hset : ((List.replicate len.length (0 : Int)).set 0 1).length = len.length := by simp
    obtain ⟨h1, h2, h3⟩ := default_strides.col_loop_inv len len.length (len.length - 1) 1 _ hset
      (le_refl 1) (by omega)
    have hne : ¬ Layout.COLUMN_MAJOR = Layout.ROW_MAJOR := by decide
    simp only [default_strides, hne, if_false]
    refine ⟨h1, ?_, fun i hi hin => ⟨h3 i hi hin, fun hlo hhi => ?_⟩⟩
    · rw [h2 0 (by omega), getD_set_eq _ _ _ _ (by simpa using hrank)]
    · rw [h3 i hi hin]
      exact to_stride_type_of_fits _ hlo hhi

/-- Witness for C7: the shape `[2,3]` has the row-major strides `[3,1]` and the
column-major strides `[1,2]`. -/
theorem default_strides_recurrence_witness :
    default_strides [2, 3] Layout.ROW_MAJOR = [3, 1] ∧
    default_strides [2, 3] Layout.COLUMN_MAJOR = [1, 2] ∧
    (default_strides [2, 3] Layout.ROW_MAJOR).getD 0 0 =
      (default_strides [2, 3] Layout.ROW_MAJOR).getD 1 0 * (([2, 3] : List Nat).getD 1 0 : Int) ∧
    (default_strides [2, 3] Layout.COLUMN_MAJOR).getD 1 0 =
      (default_strides [2, 3] Layout.COLUMN_MAJOR).getD 0 0 * (([2, 3] : List Nat).getD 0 0 : Int) :=
  ⟨by decide, by decide,
    ((default_strides_recurrence [2, 3] (by decide)).1.2.2 0 (by decide)).2 (by decide)
      (by decide),
    ((default_strides_recurrence [2, 3] (by decide)).2.2.2 1 (by decide) (by decide)).2
      (by decide) (by decide)⟩

/-! ## Claims about `permute` -/

theorem getD_map_range {α : Type} (f : Nat → α) (n i : Nat) (d : α) (h : i < n) :
    ((List.range n).map f).getD i d = f i := by
  rw [List.getD_eq_getElem _ _ (by simpa using h)]
  simp

/-- The assertions of `permute` pass exactly for lists with every entry in range and no
entry repeated. -/
theorem const_marray_view.permute_asserts_iff (n : Nat) (perm : List Nat)
    (hlen : perm.length = n) :
    const_marray_view.permute_asserts n perm = true ↔
      (∀ x ∈ perm, x < n) ∧ perm.Nodup := by
  simp only [const_marray_view.permute_asserts, List.all_eq_true, List.mem_range,
    Bool.and_eq_true, decide_eq_true_eq, bne_iff_ne, ne_eq, Nat.zero_le, true_and]
  constructor
  · intro h
    constructor
    · intro x hx
      obtain ⟨i, hi, rfl⟩ := List.mem_iff_getElem.mp hx
      have := (h i (by omega)).1
      rwa [List.getD_eq_getElem _ _ hi] at this
    · rw [List.Nodup, List.pairwise_iff_getElem]
      intro i j hi hj hij heq
      have := (h j (by omega)).2 i hij
      rw [List.getD_eq_getElem _ _ hi, List.getD_eq_getElem _ _ hj] at this
      exact this heq.symm
  · intro ⟨hrange, hnodup⟩ i hi
    have hi' : i < perm.length := by omega
    refine ⟨?_, ?_⟩
    · rw [List.getD_eq_getElem _ _ hi']
      exact hrange _ (List.getElem_mem hi')
    · intro j hj heq
      have hj' : j < perm.length := by omega
      rw [List.getD_eq_getElem _ _ hi', List.getD_eq_getElem _ _ hj'] at heq
      have := (hnodup.getElem_inj_iff).mp heq
      omega

/-- A bijection on `[0, n)` lists every index below `n`. -/
theorem is_bijection.mem_of_lt {n : Nat} {perm : List Nat} (h : is_bijection n perm)
    (i : Nat) (hi : i < n) : i ∈ perm := by
  obtain ⟨hlen, hrange, hnodup⟩ := h
  have hsub : perm ⊆ List.range n := fun x hx => List.mem_range.mpr (hrange x hx)
  have hperm : perm.Perm (List.range n) :=
    (List.subperm_of_subset hnodup hsub).perm_of_length_le (by simp [hlen])
  exact hperm.mem_iff.mpr (List.mem_range.mpr hi)

/-- The inverse of a bijection is a bijection. -/
theorem is_bijection.inverse {n : Nat} {perm : List Nat} (h : is_bijection n perm) :
    is_bijection n (inverse_perm perm) := by
  have hlen := h.1
  refine ⟨by simp [inverse_perm, hlen], ?_, ?_⟩
  · intro x hx
    simp only [inverse_perm, List.mem_map, List.mem_range] at hx
    obtain ⟨i, hi, rfl⟩ := hx
    rw [← hlen]
    exact List.indexOf_lt_length.mpr (h.mem_of_lt i (by omega))
  · simp only [inverse_perm]
    refine List.Nodup.map_on ?_ (List.nodup_range _)
    intro x hx y hy hxy
    rw [List.mem_range] at hx hy
    exact (List.indexOf_inj (h.mem_of_lt x (by omega)) (h.mem_of_lt y (by omega))).mp hxy

/-- Composing a bijection with its inverse gives the identity on `[0, n)`. -/
theorem is_bijection.getD_inverse {n : Nat} {perm : List Nat} (h : is_bijection n perm)
    (i : Nat) (hi : i < n) :
    (inverse_perm perm).getD i 0 < n ∧ perm.getD ((inverse_perm perm).getD i 0) 0 = i := by
  have hlen := h.1
  have hmem := h.mem_of_lt i hi
  have hlt : List.indexOf i perm < perm.length := List.indexOf_lt_length.mpr hmem
  have hinv : (inverse_perm perm).getD i 0 = List.indexOf i perm := by
    simp only [inverse_perm]
    exact getD_map_range _ _ _ _ (by omega)
  rw [hinv]
  refine ⟨by omega, ?_⟩
  rw [List.getD_eq_getElem _ _ hlt]
  exact List.getElem_indexOf hlt

theorem map_range_getD_self {α : Type} (l : List α) (d : α) :
    (List.range l.length).map (fun i => l.getD i d) = l := by
  apply List.ext_getElem (by simp)
  intro i h1 h2
  rw [List.getElem_map, List.getElem_range, List.getD_eq_getElem _ _ h2]

/-- C8: for a view of rank `N` and a bijection `perm` on `[0, N)`, `permute(perm)` returns
a view with the same data pointer and `N` dimensions whose length and stride at each
position `i` are the original length and stride at position `perm[i]`. -/
theorem permute_reorders_by_perm (v : const_marray_view) (perm : List Nat)
    (hbij : is_bijection v.ndim perm) :
    ∃ w : const_marray_view, v.permute perm = .ok w ∧ w.data_ = v.data_ ∧
      w.len_.length = v.ndim ∧ w.stride_.length = v.ndim ∧
      ∀ i, i < v.ndim →
        w.len_.getD i 0 = v.len_.getD (perm.getD i 0) 0 ∧
        w.stride_.getD i 0 = v.stride_.getD (perm.getD i 0) 0 := by
  have hassert := (const_marray_view.permute_asserts_iff v.ndim perm hbij.1).mpr hbij.2
  refine ⟨⟨v.data_, (List.range v.ndim).map (fun i => v.len_.getD (perm.getD i 0) 0),
    (List.range v.ndim).map (fun i => v.stride_.getD (perm.getD i 0) 0)⟩, ?_, rfl, ?_, ?_, ?_⟩
  · simp only [const_marray_view.permute, hbij.1, ne_eq, not_true_eq_false, if_false,
      hassert, if_true]
  · simp
  · simp
  · intro i hi
    exact ⟨getD_map_range _ _ _ _ hi, getD_map_range _ _ _ _ hi⟩

/-- Witness for C8: permuting the row-major `[2,3,4]` view by `[2,0,1]`. -/
theorem permute_reorders_by_perm_witness :
    is_bijection 3 [2, 0, 1] ∧
    const_marray_view.permute ⟨0, [2, 3, 4], [12, 4, 1]⟩ [2, 0, 1] =
      .ok ⟨0, [4, 2, 3], [1, 12, 4]⟩ ∧
    ∃ w : const_marray_view,
      const_marray_view.permute ⟨0, [2, 3, 4], [12, 4, 1]⟩ [2, 0, 1] = .ok w ∧
      w.data_ = 0 ∧ w.len_.length = 3 ∧ w.stride_.length = 3 ∧
      ∀ i, i < 3 →
        w.len_.getD i 0 = ([2, 3, 4] : List Nat).getD (([2, 0, 1] : List Nat).getD i 0) 0 ∧
        w.stride_.getD i 0 =
          ([12, 4, 1] : List Int).getD (([2, 0, 1] : List Nat).getD i 0) 0 :=
  ⟨by unfold is_bijection; decide, by decide,
    permute_reorders_by_perm ⟨0, [2, 3, 4], [12, 4, 1]⟩ [2, 0, 1]
      (by unfold is_bijection; decide)⟩

/-- C9: for a view and a valid permutation `p` of its axes,
`view.permute(p).permute(inverse(p))` succeeds and has the same lengths, strides and data
pointer as the original view. -/
theorem permute_inverse_restores (v : const_marray_view) (p : List Nat)
    (hwf : v.WF) (hbij : is_bijection v.ndim p) :
    ∃ w : const_marray_view, v.permute p = .ok w ∧
      w.permute (inverse_perm p) = .ok v := by
  have hassert := (const_marray_view.permute_asserts_iff v.ndim p hbij.1).mpr hbij.2
  have hinv := hbij.inverse
  have hassert2 :=
    (const_marray_view.permute_asserts_iff v.ndim (inverse_perm p) hinv.1).mpr hinv.2
  refine ⟨⟨v.data_, (List.range v.ndim).map (fun i => v.len_.getD (p.getD i 0) 0),
    (List.range v.ndim).map (fun i => v.stride_.getD (p.getD i 0) 0)⟩, ?_, ?_⟩
  · simp only [const_marray_view.permute, hbij.1, ne_eq, not_true_eq_false, if_false,
      hassert, if_true]
  · have hnd : (⟨v.data_,
        (List.range v.ndim).map (fun i => v.len_.getD (p.getD i 0) 0),
        (List.range v.ndim).map (fun i => v.stride_.getD (p.getD i 0) 0)⟩ :
          const_marray_view).ndim = v.ndim := by
      simp [const_marray_view.ndim]
    have hl : (List.range v.ndim).map (fun i =>
        ((List.range v.ndim).map (fun i => v.len_.getD (p.getD i 0) 0)).getD
          ((inverse_perm p).getD i 0) 0) = v.len_ := by
      conv_rhs => rw [← map_range_getD_self v.len_ 0]
      show _ = List.map _ (List.range v.ndim)
      apply List.map_congr_left
      intro i hi
      rw [List.mem_range] at hi
      obtain ⟨h1, h2⟩ := hbij.getD_inverse i hi
      rw [getD_map_range _ _ _ _ h1, h2]
    have hs : (List.range v.ndim).map (fun i =>
        ((List.range v.ndim).map (fun i => v.stride_.getD (p.getD i 0) 0)).getD
          ((inverse_perm p).getD i 0) 0) = v.stride_ := by
      conv_rhs => rw [← map_range_getD_self v.stride_ 0, hwf.2]
      show _ = List.map _ (List.range v.ndim)
      apply List.map_congr_left
      intro i hi
      rw [List.mem_range] at hi
      obtain ⟨h1, h2⟩ := hbij.getD_inverse i hi
      rw [getD_map_range _ _ _ _ h1, h2]
    simp only [const_marray_view.permute, hnd, hinv.1, ne_eq, not_true_eq_false, if_false,
      hassert2, if_true, hl, hs]

/-- Witness for C9: the row-major `[2,3,4]` view, permuted by `[2,0,1]` and then by the
inverse `[1,2,0]`, is the original view. -/
theorem permute_inverse_restores_witness :
    const_marray_view.WF ⟨0, [2, 3, 4], [12, 4, 1]⟩ ∧ is_bijection 3 [2, 0, 1] ∧
    inverse_perm [2, 0, 1] = [1, 2, 0] ∧
    ∃ w : const_marray_view,
      const_marray_view.permute ⟨0, [2, 3, 4], [12, 4, 1]⟩ [2, 0, 1] = .ok w ∧
      w.permute (inverse_perm [2, 0, 1]) = .ok ⟨0, [2, 3, 4], [12, 4, 1]⟩ :=
  ⟨by decide, by unfold is_bijection; decide, by decide,
    permute_inverse_restores ⟨0, [2, 3, 4], [12, 4, 1]⟩ [2, 0, 1] (by decide)
      (by unfold is_bijection; decide)⟩

/-- C10: for a view of rank `N` and an argument `perm` of `N` entries, `permute(perm)`
returns a view if and only if every entry of `perm` is in `[0, N)` and no entry is
repeated; otherwise an assertion fires. -/
theorem permute_succeeds_iff_bijection (v : const_marray_view) (perm : List Nat)
    (hlen : perm.length = v.ndim) :
    ((∃ w : const_marray_view, v.permute perm = .ok w) ↔
      ((∀ x ∈ perm, x < v.ndim) ∧ perm.Nodup)) ∧
    (¬ ((∀ x ∈ perm, x < v.ndim) ∧ perm.Nodup) → v.permute perm = .error .assertion) := by
  have hiff := const_marray_view.permute_asserts_iff v.ndim perm hlen
  by_cases hb : (∀ x ∈ perm, x < v.ndim) ∧ perm.Nodup
  · have hassert := hiff.mpr hb
    refine ⟨⟨fun _ => hb, fun _ => ⟨⟨v.data_,
      (List.range v.ndim).map (fun i => v.len_.getD (perm.getD i 0) 0),
      (List.range v.ndim).map (fun i => v.stride_.getD (perm.getD i 0) 0)⟩, ?_⟩⟩,
      fun h => absurd hb h⟩
    simp only [const_marray_view.permute, hlen, ne_eq, not_true_eq_false, if_false,
      hassert, if_true]
  · have hassert : ¬ const_marray_view.permute_asserts v.ndim perm = true :=
      fun h => hb (hiff.mp h)
    have hfail : v.permute perm = .error .assertion := by
      simp only [const_marray_view.permute, hlen, ne_eq, not_true_eq_false, if_false,
        hassert, Bool.false_eq_true]
    refine ⟨⟨?_, fun h => absurd h hb⟩, fun _ => hfail⟩
    rintro ⟨w, hw⟩
    rw [hfail] at hw
    cases hw

/-- Witness for C10: on the rank-3 view, `[2,0,1]` is accepted, while `[2,0,2]` (an entry
repeated) and `[2,0,3]` (an entry out of range) make an assertion fire. -/
theorem permute_succeeds_iff_bijection_witness :
    ((∃ w : const_marray_view,
        const_marray_view.permute ⟨0, [2, 3, 4], [12, 4, 1]⟩ [2, 0, 1] = .ok w) ↔
      ((∀ x ∈ ([2, 0, 1] : List Nat), x < 3) ∧ ([2, 0, 1] : List Nat).Nodup)) ∧
    const_marray_view.permute ⟨0, [2, 3, 4], [12, 4, 1]⟩ [2, 0, 2] = .error .assertion ∧
    const_marray_view.permute ⟨0, [2, 3, 4], [12, 4, 1]⟩ [2, 0, 3] = .error .assertion :=
  ⟨(permute_succeeds_iff_bijection ⟨0, [2, 3, 4], [12, 4, 1]⟩ [2, 0, 1] (by decide)).1,
    by decide, by decide⟩

/-! ## Claims about `lower` -/

/-- The last iteration of the main loop of `lower` (`i == newdim`) reads `split[newdim]`,
outside the bounds of `split`. -/
theorem const_marray_view.lower_end_last (ndim : Nat) (split : List Nat) :
    const_marray_view.lower_end ndim split split.length = .error .undefined := by
  have h32 : (2 : Nat) ^ 32 = 4294967296 := by norm_num
  have hne : ¬ split.length = (split.length + 2 ^ 32 - 1) % 2 ^ 32 := by
    rw [h32]; omega
  simp only [const_marray_view.lower_end, hne, if_false, Nat.lt_irrefl]

/-- The main loop of `lower`, run up to and including `i == newdim`, never completes. -/
theorem const_marray_view.lower_loop_never_completes (v : const_marray_view)
    (split : List Nat) :
    ∀ (todo i : Nat) (newlen : List Nat) (newstride : List Int),
      i + todo = split.length + 1 → 0 < todo →
      ∀ r, const_marray_view.lower_loop v split todo i newlen newstride ≠ .ok r := by
  intro todo
  induction todo with
  | zero => intro i _ _ _ h; exact absurd h (Nat.lt_irrefl 0)
  | succ todo ih =>
    intro i newlen newstride hsum _ r
    by_cases hlast : todo = 0
    · have hi : i = split.length := by omega
      subst hlast
      simp only [const_marray_view.lower_loop, hi, const_marray_view.lower_end_last]
      intro h; cases h
    · simp only [const_marray_view.lower_loop]
      cases hend : const_marray_view.lower_end v.ndim split i with
      | error e => intro h; cases h
      | ok end_ =>
        simp only
        split
        · exact ih (i + 1) _ _ (by omega) (by omega) r
        · split
          · cases hrun : v.lower_run (const_marray_view.lower_begin split i).toNat end_.toNat with
            | error e => intro h; cases h
            | ok ls => exact ih (i + 1) _ _ (by omega) (by omega) r
          · intro h; cases h

/-- Within defined behaviour `lower` never returns a view: every call ends in a failed
assertion or in the out-of-bounds read of the last iteration. -/
theorem const_marray_view.lower_never_returns (v : const_marray_view) (split : List Nat)
    (w : const_marray_view) : v.lower split ≠ .ok w := by
  unfold const_marray_view.lower
  split
  · split
    · cases hloop : const_marray_view.lower_loop v split (split.length + 1) 0
          (List.replicate split.length 0) (List.replicate split.length 0) with
      | error e => intro h; cases h
      | ok r =>
        exact absurd hloop
          (const_marray_view.lower_loop_never_completes v split _ 0 _ _ (by omega) (by omega) r)
    · intro h; cases h
  · intro h; cases h

/-- With no split points the first iteration of `lower` already reads `split[0]` of an
empty array. -/
theorem const_marray_view.lower_no_split (v : const_marray_view) (hrank : 0 < v.ndim) :
    v.lower [] = .error .undefined := by
  simp [const_marray_view.lower, hrank, const_marray_view.lower_split_asserts,
    const_marray_view.lower_loop, const_marray_view.lower_end]

/-- C11 (the code departs from the claim): on the row-major view with lengths `[2,3,4]`
and the split point `1`, the claim describes the view with lengths `[2,12]` and strides
`[12,1]`; the first iteration of `lower` takes the run `[0,2]` instead of `[0,0]` and
stores length `24` and stride `1`, and the second iteration reads `split[1]` outside the
bounds of `split`, so no view is returned. -/
theorem lower_first_run_overshoots :
    const_marray_view.WF ⟨0, [2, 3, 4], [12, 4, 1]⟩ ∧
    const_marray_view.lower_split_asserts 3 [1] = true ∧
    run_descending ⟨0, [2, 3, 4], [12, 4, 1]⟩ 0 0 = true ∧
    run_descending ⟨0, [2, 3, 4], [12, 4, 1]⟩ 1 2 = true ∧
    [merged_length ⟨0, [2, 3, 4], [12, 4, 1]⟩ 0 0,
      merged_length ⟨0, [2, 3, 4], [12, 4, 1]⟩ 1 2] = [2, 12] ∧
    [merged_stride ⟨0, [2, 3, 4], [12, 4, 1]⟩ 0 0,
      merged_stride ⟨0, [2, 3, 4], [12, 4, 1]⟩ 1 2] = [12, 1] ∧
    const_marray_view.lower_end 3 [1] 0 = .ok 2 ∧
    const_marray_view.lower_run ⟨0, [2, 3, 4], [12, 4, 1]⟩ 0 2 = .ok (24, 1) ∧
    const_marray_view.lower_end 3 [1] 1 = .error .undefined ∧
    const_marray_view.lower ⟨0, [2, 3, 4], [12, 4, 1]⟩ [1] = .error .undefined := by
  refine ⟨by decide, by decide, by decide, by decide, by decide, by decide, by decide,
    by decide, by decide, by decide⟩

/-- C12 (the code departs from the claim): on the view with lengths `[2,3,4]` and strides
`[100,4,1]` and the split point `1`, both runs `[0,0]` and `[1,2]` are contiguous, yet an
assertion of `lower` fires (the first iteration checks the run `[0,2]`); and on the
column-major view with lengths `[1,3]`, strides `[1,1]` and the split point `2`, the run
`[0,1]` is ascending-contiguous, yet an assertion fires (equal endpoint strides select the
descending check). -/
theorem lower_rejects_contiguous_runs :
    const_marray_view.lower_split_asserts 3 [1] = true ∧
    run_descending ⟨0, [2, 3, 4], [100, 4, 1]⟩ 0 0 = true ∧
    run_descending ⟨0, [2, 3, 4], [100, 4, 1]⟩ 1 2 = true ∧
    const_marray_view.lower ⟨0, [2, 3, 4], [100, 4, 1]⟩ [1] = .error .assertion ∧
    default_strides [1, 3] Layout.COLUMN_MAJOR = [1, 1] ∧
    const_marray_view.lower_split_asserts 2 [2] = true ∧
    run_ascending ⟨0, [1, 3], [1, 1]⟩ 0 1 = true ∧
    const_marray_view.lower ⟨0, [1, 3], [1, 1]⟩ [2] = .error .assertion := by
  refine ⟨by decide, by decide, by decide, by decide, by decide, by decide, by decide,
    by decide⟩

/-- C13 (the code departs from the claim): for the shape `[2,3]`, whose lengths have the
product `6`, lowering the view with the row-major strides or with the column-major strides
with no split points returns no view: the first iteration reads `split[0]` of the empty
array of split points. -/
theorem lower_without_split_points :
    ([2, 3] : List Nat).prod = 6 ∧
    const_marray_view.lower ⟨0, [2, 3], default_strides [2, 3] Layout.ROW_MAJOR⟩ [] =
      .error .undefined ∧
    const_marray_view.lower ⟨0, [2, 3], default_strides [2, 3] Layout.COLUMN_MAJOR⟩ [] =
      .error .undefined := by
  refine ⟨by decide, by decide, by decide⟩

/-! ## Claims about `front` and `back` -/

theorem take_drop_succ_eq_eraseIdx {α : Type} (l : List α) (dim n : Nat)
    (hn : l.length = n) :
    l.take dim ++ (l.drop (dim + 1)).take (n - dim - 1) = l.eraseIdx dim := by
  have h : (l.drop (dim + 1)).length ≤ n - dim - 1 := by
    rw [List.length_drop]; omega
  rw [List.eraseIdx_eq_take_drop_succ, List.take_of_length_le h]

/-- C19: for a view of rank `N >= 2`, `dim < N` and `len[dim] > 0`, `front(dim)` is the view
with position `dim` deleted from the lengths and strides at the same data pointer, and
`back(dim)` is that view with the data pointer advanced by `(len[dim]-1) * stride[dim]`;
for rank 1 with `len[0] > 0`, `front()` is the element at offset `0` and `back()` the
element at offset `(len[0]-1) * stride[0]`; with `dim >= N` or `len[dim] == 0` an
assertion fires. -/
theorem front_back_subviews (v : const_marray_view) (dim : Nat) (hwf : v.WF) :
    (2 ≤ v.ndim → dim < v.ndim → 0 < v.len_.getD dim 0 →
      v.front_dim dim = .ok (.view ⟨v.data_, v.len_.eraseIdx dim, v.stride_.eraseIdx dim⟩) ∧
      v.back_dim dim = .ok (.view
        ⟨v.data_ + ((v.len_.getD dim 0 - 1 : Nat) : Int) * v.stride_.getD dim 0,
          v.len_.eraseIdx dim, v.stride_.eraseIdx dim⟩) ∧
      (v.len_.eraseIdx dim).length = v.ndim - 1) ∧
    (v.ndim = 1 → 0 < v.len_.getD 0 0 →
      v.front = .ok (.scalar v.data_) ∧ v.front_dim 0 = .ok (.scalar v.data_) ∧
      v.back = .ok (.scalar
        (v.data_ + ((v.len_.getD 0 0 - 1 : Nat) : Int) * v.stride_.getD 0 0)) ∧
      v.back_dim 0 = .ok (.scalar
        (v.data_ + ((v.len_.getD 0 0 - 1 : Nat) : Int) * v.stride_.getD 0 0))) ∧
    (v.ndim ≤ dim ∨ v.len_.getD dim 0 = 0 →
      v.front_dim dim = .error .assertion ∧ v.back_dim dim = .error .assertion) := by
  refine ⟨?_, ?_, ?_⟩
  · intro hrank hdim hlen
    have h1 : ¬ v.ndim = 1 := by omega
    have hf : v.front_dim dim =
        .ok (.view ⟨v.data_, v.len_.eraseIdx dim, v.stride_.eraseIdx dim⟩) := by
      simp only [const_marray_view.front_dim, h1, if_false, hdim, if_true, hlen,
        take_drop_succ_eq_eraseIdx v.len_ dim v.ndim rfl,
        take_drop_succ_eq_eraseIdx v.stride_ dim v.ndim hwf.2]
    refine ⟨hf, ?_, ?_⟩
    · simp only [const_marray_view.back_dim, h1, if_false, hf]
    · rw [List.length_eraseIdx]
      simp only [const_marray_view.ndim] at hdim ⊢
      simp [hdim]
  · intro hrank hlen
    simp [-List.getD_eq_getElem?_getD, const_marray_view.front,
      const_marray_view.front_dim, const_marray_view.back, const_marray_view.back_dim,
      hrank, hlen]
  · intro hbad
    by_cases h1 : v.ndim = 1
    · by_cases hd : dim = 0
      · subst hd
        have hlen : ¬ 0 < v.len_.getD 0 0 := by
          rcases hbad with h | h
          · omega
          · omega
        simp [-List.getD_eq_getElem?_getD, const_marray_view.front,
          const_marray_view.front_dim, const_marray_view.back, const_marray_view.back_dim,
          h1, hlen]
      · simp [const_marray_view.front_dim, const_marray_view.back_dim, h1, hd]
    · have hf : v.front_dim dim = .error .assertion := by
        simp only [const_marray_view.front_dim, h1, if_false]
        rcases hbad with h | h
        · have : ¬ dim < v.ndim := by omega
          simp only [this, if_false]
        · have : ¬ 0 < v.len_.getD dim 0 := by omega
          simp only [this, if_false, ite_self]
      refine ⟨hf, ?_⟩
      simp only [const_marray_view.back_dim, h1, if_false, hf]

/-- Witness for C19: on the row-major `[2,3,4]` view, `front(1)` and `back(1)` are the
`[2,4]` views with strides `[12,1]` at offsets `0` and `8`. -/
theorem front_back_subviews_witness :
    const_marray_view.WF ⟨0, [2, 3, 4], [12, 4, 1]⟩ ∧
    const_marray_view.front_dim ⟨0, [2, 3, 4], [12, 4, 1]⟩ 1 =
      .ok (.view ⟨0, [2, 4], [12, 1]⟩) ∧
    const_marray_view.back_dim ⟨0, [2, 3, 4], [12, 4, 1]⟩ 1 =
      .ok (.view ⟨8, [2, 4], [12, 1]⟩) :=
  ⟨by decide,
    ((front_back_subviews ⟨0, [2, 3, 4], [12, 4, 1]⟩ 1 (by decide)).1
      (by decide) (by decide) (by decide)).1,
    ((front_back_subviews ⟨0, [2, 3, 4], [12, 4, 1]⟩ 1 (by decide)).1
      (by decide) (by decide) (by decide)).2.1⟩

/-! ## Lemmas on the iterator and on memory updates -/

/-- The iterator visits exactly the in-bounds multi-indices. -/
theorem mem_iterator_indices (len : List Nat) :
    ∀ idx : List Nat, idx ∈ iterator_indices len ↔ in_range idx len := by
  induction len with
  | nil =>
    intro idx
    cases idx <;> simp [iterator_indices, in_range]
  | cons l len ih =>
    intro idx
    cases idx with
    | nil => simp [iterator_indices, in_range]
    | cons i idx =>
      simp only [iterator_indices, List.mem_flatMap, List.mem_range, List.mem_map,
        List.cons.injEq, in_range]
      constructor
      · rintro ⟨j, hj, idx', hidx', rfl, rfl⟩
        exact ⟨hj, (ih _).mp hidx'⟩
      · rintro ⟨hi, hidx⟩
        exact ⟨i, hi, idx, (ih _).mpr hidx, rfl, rfl⟩

/-- The iterator visits no multi-index twice. -/
theorem nodup_iterator_indices (len : List Nat) : (iterator_indices len).Nodup := by
  induction len with
  | nil => simp [iterator_indices]
  | cons l len ih =>
    simp only [iterator_indices, List.nodup_flatMap]
    constructor
    · intro i _
      exact ih.map (fun a b h => (List.cons.inj h).2)
    · apply List.Pairwise.imp_of_mem _ (List.nodup_range l)
      intro i j _ _ hij
      simp only [Function.onFun, List.disjoint_left, List.mem_map]
      rintro x ⟨a, _, rfl⟩ ⟨b, _, hb⟩
      exact hij (List.cons.inj hb).1.symm

/-- Storing one value at each address of a list: afterwards an address holds the value if
it is in the list and its old content otherwise. -/
theorem foldl_update_value {α : Type} (value : α) (targets : List Int) :
    ∀ (mem : Int → α) (x : Int),
      (targets.foldl (fun m a_ => Function.update m a_ value) mem) x =
        if x ∈ targets then value else mem x := by
  induction targets with
  | nil => intro mem x; simp
  | cons t targets ih =>
    intro mem x
    rw [List.foldl_cons, ih]
    by_cases hx : x ∈ targets
    · simp [hx]
    · by_cases hxt : x = t
      · subst hxt; simp [hx]
      · simp [hx, hxt, Function.update_noteq hxt]

/-- Copying element by element along a list of multi-indices with pairwise distinct
destinations, none of which is a source: afterwards each destination holds the old
content of its source, and every other address is unchanged. -/
theorem foldl_update_copy {α ι : Type} (src dst : ι → Int) (indices : List ι) :
    ∀ (mem : Int → α), indices.Nodup →
      (∀ i ∈ indices, ∀ j ∈ indices, dst i = dst j → i = j) →
      (∀ i ∈ indices, ∀ j ∈ indices, src i ≠ dst j) →
      (∀ i ∈ indices,
        (indices.foldl (fun m i => Function.update m (dst i) (m (src i))) mem) (dst i) =
          mem (src i)) ∧
      (∀ x, (∀ i ∈ indices, x ≠ dst i) →
        (indices.foldl (fun m i => Function.update m (dst i) (m (src i))) mem) x = mem x) := by
  induction indices with
  | nil => intro mem _ _ _; simp
  | cons i0 indices ih =>
    intro mem hnodup hinj hdisj
    have hnd := List.nodup_cons.mp hnodup
    obtain ⟨ih1, ih2⟩ := ih (Function.update mem (dst i0) (mem (src i0))) hnd.2
      (fun i hi j hj => hinj i (List.mem_cons_of_mem _ hi) j (List.mem_cons_of_mem _ hj))
      (fun i hi j hj => hdisj i (List.mem_cons_of_mem _ hi) j (List.mem_cons_of_mem _ hj))
    simp only [List.foldl_cons]
    constructor
    · intro i hi
      rcases List.mem_cons.mp hi with h | h
      · subst h
        rw [ih2 (dst i) (fun j hj hdst => hnd.1 (by
          have := hinj i (List.mem_cons_self _ _) j (List.mem_cons_of_mem _ hj) hdst
          rw [this]; exact hj))]
        simp
      · rw [ih1 i h]
        exact Function.update_noteq
          (hdisj i (List.mem_cons_of_mem _ h) i0 (List.mem_cons_self _ _)) _ _
    · intro x hx
      rw [ih2 x (fun i hi => hx i (List.mem_cons_of_mem _ hi))]
      exact Function.update_noteq (hx i0 (List.mem_cons_self _ _)) _ _

/-! ## Claims about bulk assignment and copy -/

/-- C17 (counterexample): the source `a` of length `2` and stride `1` at address `0`
holds `[7,8]`; the destination `b` of length `2` and stride `0` at address `10` shares no
location with `a`; after `copy(a, b)` the element `b[0]` is `8` while `a[0]` is `7`. -/
theorem copy_into_zero_stride_destination :
    (const_marray_view.mk 0 [2] [1]).len_ = (const_marray_view.mk 10 [2] [0]).len_ ∧
    (∀ x ∈ const_marray_view.addresses ⟨0, [2], [1]⟩,
      x ∉ const_marray_view.addresses ⟨10, [2], [0]⟩) ∧
    in_range [0] [2] ∧
    (copy ⟨0, [2], [1]⟩ ⟨10, [2], [0]⟩ (memory_of [7, 8])).map
        (fun m => (m (const_marray_view.address ⟨10, [2], [0]⟩ [0]),
          m (const_marray_view.address ⟨0, [2], [1]⟩ [0]))) = .ok (8, 7) := by
  refine ⟨rfl, by decide, by simp [in_range], by decide⟩

/-- C17 (amended): for views `a` (source) and `b` (destination) with equal lengths, where
`b` addresses pairwise distinct locations none of which is a location of `a`, whatever
the strides, `copy(a, b)` completes and afterwards every in-bounds multi-index `idx`
satisfies `b[idx] == a[idx]`, with `a` and every location outside `b` unchanged; with
unequal lengths an assertion fires. -/
theorem copy_reproduces_source {α : Type} (a : const_marray_view) (b : marray_view)
    (mem : Int → α) :
    (a.len_ = b.len_ → b.injective →
      (∀ i j, in_range i a.len_ → in_range j b.len_ → a.address i ≠ b.address j) →
      ∃ mem1, copy a b mem = .ok mem1 ∧
        (∀ idx, in_range idx b.len_ →
          mem1 (b.address idx) = mem (a.address idx) ∧
          mem1 (a.address idx) = mem (a.address idx)) ∧
        (∀ x, (∀ idx, in_range idx b.len_ → x ≠ b.address idx) → mem1 x = mem x)) ∧
    (a.len_ ≠ b.len_ → copy a b mem = .error .assertion) := by
  constructor
  · intro hlen hinj hdisj
    have hfold := foldl_update_copy (fun idx => a.address idx) (fun idx => b.address idx)
      (iterator_indices a.len_) mem (nodup_iterator_indices _)
      (fun i hi j hj h => hinj i j
        (hlen ▸ (mem_iterator_indices _ _).mp hi) (hlen ▸ (mem_iterator_indices _ _).mp hj) h)
      (fun i hi j hj => hdisj i j ((mem_iterator_indices _ _).mp hi)
        (hlen ▸ (mem_iterator_indices _ _).mp hj))
    refine ⟨(iterator_indices a.len_).foldl
      (fun m idx => Function.update m (b.address idx) (m (a.address idx))) mem,
      by unfold copy; rw [if_pos hlen], ?_, ?_⟩
    · intro idx hidx
      have hmem : idx ∈ iterator_indices b.len_ := (mem_iterator_indices _ _).mpr hidx
      rw [← hlen] at hmem
      refine ⟨hfold.1 idx hmem, ?_⟩
      exact hfold.2 _ (fun j hj => hdisj idx j (hlen ▸ hidx)
        (hlen ▸ (mem_iterator_indices _ _).mp hj))
    · intro x hx
      exact hfold.2 x (fun j hj => hx j (hlen ▸ (mem_iterator_indices _ _).mp hj))
  · intro hne
    simp only [copy, hne, if_false]

/-- Witness for C17: copying the column-major `[2,2]` view at address `0` into the
row-major `[2,2]` view at address `10`. -/
theorem copy_reproduces_source_witness :
    (copy ⟨0, [2, 2], [1, 2]⟩ ⟨10, [2, 2], [2, 1]⟩ (memory_of [1, 2, 3, 4])).map
        (fun m => (const_marray_view.contents ⟨10, [2, 2], [2, 1]⟩ m,
          const_marray_view.contents ⟨0, [2, 2], [1, 2]⟩ m)) =
      .ok ([1, 3, 2, 4], [1, 3, 2, 4]) ∧
    ∃ mem1, copy ⟨0, [2, 2], [1, 2]⟩ ⟨10, [2, 2], [2, 1]⟩ (memory_of [1, 2, 3, 4]) =
        .ok mem1 ∧
      (∀ idx, in_range idx [2, 2] →
        mem1 (const_marray_view.address ⟨10, [2, 2], [2, 1]⟩ idx) =
          memory_of [1, 2, 3, 4] (const_marray_view.address ⟨0, [2, 2], [1, 2]⟩ idx) ∧
        mem1 (const_marray_view.address ⟨0, [2, 2], [1, 2]⟩ idx) =
          memory_of [1, 2, 3, 4] (const_marray_view.address ⟨0, [2, 2], [1, 2]⟩ idx)) ∧
      (∀ x, (∀ idx, in_range idx [2, 2] →
        x ≠ const_marray_view.address ⟨10, [2, 2], [2, 1]⟩ idx) →
        mem1 x = memory_of [1, 2, 3, 4] x) := by
  refine ⟨by decide, ?_⟩
  have hmem : ∀ idx, in_range idx [2, 2] → idx ∈ iterator_indices [2, 2] :=
    fun idx h => (mem_iterator_indices _ _).mpr h
  refine (copy_reproduces_source ⟨0, [2, 2], [1, 2]⟩ ⟨10, [2, 2], [2, 1]⟩
    (memory_of [1, 2, 3, 4])).1 rfl ?_ ?_
  · have key : ∀ i ∈ iterator_indices [2, 2], ∀ j ∈ iterator_indices [2, 2],
        const_marray_view.address ⟨10, [2, 2], [2, 1]⟩ i =
          const_marray_view.address ⟨10, [2, 2], [2, 1]⟩ j → i = j := by decide
    exact fun i j hi hj => key i (hmem i hi) j (hmem j hj)
  · have key : ∀ i ∈ iterator_indices [2, 2], ∀ j ∈ iterator_indices [2, 2],
        const_marray_view.address ⟨0, [2, 2], [1, 2]⟩ i ≠
          const_marray_view.address ⟨10, [2, 2], [2, 1]⟩ j := by decide
    exact fun i j hi hj => key i (hmem i hi) j (hmem j hj)

/-- C18: after assigning the scalar `value` to a view, every in-bounds multi-index of the
view holds `value`; every location stored to is the address of an in-bounds multi-index,
and every other location keeps its content. -/
theorem assign_value_fills_exactly {α : Type} (v : marray_view) (value : α)
    (mem : Int → α) :
    (∀ idx, in_range idx v.len_ →
      marray_view.assign_value v value mem (v.address idx) = value) ∧
    (∀ a_ ∈ marray_view.assign_value_targets v,
      ∃ idx, in_range idx v.len_ ∧ a_ = v.address idx) ∧
    (∀ x, (∀ idx, in_range idx v.len_ → x ≠ v.address idx) →
      marray_view.assign_value v value mem x = mem x) := by
  refine ⟨?_, ?_, ?_⟩
  · intro idx hidx
    have hmem : v.address idx ∈ marray_view.assign_value_targets v :=
      List.mem_map.mpr ⟨idx, (mem_iterator_indices _ _).mpr hidx, rfl⟩
    simp only [marray_view.assign_value, foldl_update_value, hmem, if_true]
  · intro a_ ha
    obtain ⟨idx, hidx, rfl⟩ := List.mem_map.mp ha
    exact ⟨idx, (mem_iterator_indices _ _).mp hidx, rfl⟩
  · intro x hx
    have hmem : ¬ x ∈ marray_view.assign_value_targets v := by
      intro h
      obtain ⟨idx, hidx, rfl⟩ := List.mem_map.mp h
      exact hx idx ((mem_iterator_indices _ _).mp hidx) rfl
    simp only [marray_view.assign_value, foldl_update_value, hmem, if_false]

/-! ## Lemmas on rotation -/

theorem swap_cells_left {α : Type} (mem : Int → α) (a b : Int) :
    swap_cells mem a b a = mem b := by
  unfold swap_cells
  by_cases h : a = b
  · subst h; simp
  · rw [Function.update_noteq h, Function.update_same]

theorem swap_cells_right {α : Type} (mem : Int → α) (a b : Int) :
    swap_cells mem a b b = mem a := by
  unfold swap_cells
  rw [Function.update_same]

theorem swap_cells_other {α : Type} (mem : Int → α) (a b x : Int) (ha : x ≠ a)
    (hb : x ≠ b) : swap_cells mem a b x = mem x := by
  unfold swap_cells
  rw [Function.update_noteq hb, Function.update_noteq ha]

theorem swap_cells_self {α : Type} (mem : Int → α) (a : Int) : swap_cells mem a a = mem := by
  funext x
  by_cases h : x = a
  · subst h; exact swap_cells_right mem x x
  · exact swap_cells_other mem a a x h h

theorem fiber_cell_succ (p s : Int) (j : Nat) : fiber_cell p s (j + 1) = fiber_cell p s j + s := by
  simp only [fiber_cell]; push_cast; ring

theorem fiber_cell_pred (p s : Int) (j : Nat) (hj : 0 < j) :
    fiber_cell p s (j - 1) = fiber_cell p s j - s := by
  obtain ⟨k, rfl⟩ : ∃ k, j = k + 1 := ⟨j - 1, by omega⟩
  simp only [fiber_cell, Nat.add_sub_cancel]; push_cast; ring

/-- A reversal loop that swaps the pairs `(lo+k, hi-k)` for `k < count` of a fiber whose
cells up to `hi` are pairwise distinct: the cells of each pair exchange their contents and
every other address is unchanged. -/
theorem rotate_reverse_loop_pairs {α : Type} (p s : Int) :
    ∀ (count lo hi : Nat) (mem : Int → α), lo + 2 * count ≤ hi + 1 →
      (∀ j k, j ≤ hi → k ≤ hi → fiber_cell p s j = fiber_cell p s k → j = k) →
      (∀ k, k < count →
        marray_view.rotate_reverse_loop s count (fiber_cell p s lo) (fiber_cell p s hi) mem
            (fiber_cell p s (lo + k)) = mem (fiber_cell p s (hi - k)) ∧
        marray_view.rotate_reverse_loop s count (fiber_cell p s lo) (fiber_cell p s hi) mem
            (fiber_cell p s (hi - k)) = mem (fiber_cell p s (lo + k))) ∧
      (∀ x, (∀ k, k < count → x ≠ fiber_cell p s (lo + k) ∧ x ≠ fiber_cell p s (hi - k)) →
        marray_view.rotate_reverse_loop s count (fiber_cell p s lo) (fiber_cell p s hi) mem x =
          mem x) := by
  intro count
  induction count with
  | zero =>
    intro lo hi mem _ _
    exact ⟨fun k hk => absurd hk (Nat.not_lt_zero k), fun x _ => rfl⟩
  | succ count ih =>
    intro lo hi mem hle hinj
    have hhi : 0 < hi := by omega
    obtain ⟨ih1, ih2⟩ := ih (lo + 1) (hi - 1)
      (swap_cells mem (fiber_cell p s lo) (fiber_cell p s hi)) (by omega)
      (fun j k hj hk => hinj j k (by omega) (by omega))
    have hstep : marray_view.rotate_reverse_loop s (count + 1) (fiber_cell p s lo)
        (fiber_cell p s hi) mem =
        marray_view.rotate_reverse_loop s count (fiber_cell p s (lo + 1))
          (fiber_cell p s (hi - 1))
          (swap_cells mem (fiber_cell p s lo) (fiber_cell p s hi)) := by
      rw [fiber_cell_succ, fiber_cell_pred p s hi hhi]
      rfl
    rw [hstep]
    have hne : ∀ j k, j ≤ hi → k ≤ hi → j ≠ k → fiber_cell p s j ≠ fiber_cell p s k :=
      fun j k hj hk hjk h => hjk (hinj j k hj hk h)
    constructor
    · intro k hk
      cases k with
      | zero =>
        simp only [Nat.add_zero, Nat.sub_zero]
        constructor
        · rw [ih2 _ (fun k hk => ⟨hne _ _ (by omega) (by omega) (by omega),
            hne _ _ (by omega) (by omega) (by omega)⟩)]
          exact swap_cells_left _ _ _
        · rw [ih2 _ (fun k hk => ⟨hne _ _ (by omega) (by omega) (by omega),
            hne _ _ (by omega) (by omega) (by omega)⟩)]
          exact swap_cells_right _ _ _
      | succ k =>
        have hk' : k < count := by omega
        obtain ⟨h1, h2⟩ := ih1 k hk'
        have e1 : lo + (k + 1) = lo + 1 + k := by omega
        have e2 : hi - (k + 1) = hi - 1 - k := by omega
        rw [e1, e2]
        constructor
        · rw [h1]
          exact swap_cells_other _ _ _ _ (hne _ _ (by omega) (by omega) (by omega))
            (hne _ _ (by omega) (by omega) (by omega))
        · rw [h2]
          exact swap_cells_other _ _ _ _ (hne _ _ (by omega) (by omega) (by omega))
            (hne _ _ (by omega) (by omega) (by omega))
    · intro x hx
      rw [ih2 x (fun k hk => by
        have := hx (k + 1) (by omega)
        have e1 : lo + (k + 1) = lo + 1 + k := by omega
        have e2 : hi - (k + 1) = hi - 1 - k := by omega
        rw [e1, e2] at this
        exact this)]
      have h0 := hx 0 (by omega)
      simp only [Nat.add_zero, Nat.sub_zero] at h0
      exact swap_cells_other _ _ _ _ h0.1 h0.2


/-- A reversal loop run over the whole segment `[lo, hi]` of a fiber with pairwise distinct
cells reverses the segment and changes nothing else. -/
theorem rotate_reverse_loop_segment {α : Type} (p s : Int) (lo hi : Nat) (mem : Int → α)
    (hle : lo ≤ hi)
    (hinj : ∀ j k, j ≤ hi → k ≤ hi → fiber_cell p s j = fiber_cell p s k → j = k) :
    (∀ j, lo ≤ j → j ≤ hi →
      marray_view.rotate_reverse_loop s ((hi + 1 - lo) / 2) (fiber_cell p s lo)
          (fiber_cell p s hi) mem (fiber_cell p s j) = mem (fiber_cell p s (lo + hi - j))) ∧
    (∀ x, (∀ j, lo ≤ j → j ≤ hi → x ≠ fiber_cell p s j) →
      marray_view.rotate_reverse_loop s ((hi + 1 - lo) / 2) (fiber_cell p s lo)
          (fiber_cell p s hi) mem x = mem x) := by
  obtain ⟨h1, h2⟩ := rotate_reverse_loop_pairs p s ((hi + 1 - lo) / 2) lo hi mem
    (by omega) hinj
  have hne : ∀ j k, j ≤ hi → k ≤ hi → j ≠ k → fiber_cell p s j ≠ fiber_cell p s k :=
    fun j k hj hk hjk h => hjk (hinj j k hj hk h)
  constructor
  · intro j hlo hhi
    by_cases hleft : j - lo < (hi + 1 - lo) / 2
    · have := (h1 (j - lo) hleft).1
      have e1 : lo + (j - lo) = j := by omega
      have e2 : hi - (j - lo) = lo + hi - j := by omega
      rw [e1, e2] at this
      exact this
    · by_cases hright : hi - j < (hi + 1 - lo) / 2
      · have := (h1 (hi - j) hright).2
        have e1 : hi - (hi - j) = j := by omega
        have e2 : lo + (hi - j) = lo + hi - j := by omega
        rw [e1, e2] at this
        exact this
      · have e : lo + hi - j = j := by omega
        rw [e]
        exact h2 _ (fun k hk => ⟨hne _ _ (by omega) (by omega) (by omega),
          hne _ _ (by omega) (by omega) (by omega)⟩)
  · intro x hx
    exact h2 x (fun k hk => ⟨hx _ (by omega) (by omega), hx _ (by omega) (by omega)⟩)

/-- The three reversals of `rotate_dim` on one fiber with pairwise distinct cells: element
`j` of the fiber receives the old element `(j + shift) mod n`, and every address outside
the fiber is unchanged. -/
theorem rotate_fiber_effect {α : Type} (p s : Int) (n r : Nat) (mem : Int → α)
    (hr : 0 < r) (hrn : r < n)
    (hinj : ∀ j k, j < n → k < n → fiber_cell p s j = fiber_cell p s k → j = k) :
    (∀ j, j < n →
      marray_view.rotate_fiber p s n (r : Int) mem (fiber_cell p s j) =
        mem (fiber_cell p s ((j + r) % n))) ∧
    (∀ x, (∀ j, j < n → x ≠ fiber_cell p s j) →
      marray_view.rotate_fiber p s n (r : Int) mem x = mem x) := by
  have hne : ∀ j k, j < n → k < n → j ≠ k → fiber_cell p s j ≠ fiber_cell p s k :=
    fun j k hj hk hjk h => hjk (hinj j k hj hk h)
  have c1 : ((r : Int) / 2).toNat = (r - 1 + 1 - 0) / 2 := by
    have : ((r : Int) / 2) = ((r / 2 : Nat) : Int) := by norm_cast
    rw [this, Int.toNat_ofNat]
    congr 1; omega
  have c2 : (((n : Int) - (r : Int)) / 2).toNat = (n - 1 + 1 - r) / 2 := by
    have : (((n : Int) - (r : Int)) / 2) = (((n - r) / 2 : Nat) : Int) := by
      rw [← Nat.cast_sub (le_of_lt hrn)]; norm_cast
    rw [this, Int.toNat_ofNat]
    congr 1; omega
  have c3 : n / 2 = (n - 1 + 1 - 0) / 2 := by congr 1; omega
  have a0 : p = fiber_cell p s 0 := by simp [fiber_cell]
  have a1 : p + ((r : Int) - 1) * s = fiber_cell p s (r - 1) := by
    simp only [fiber_cell]; rw [Nat.cast_sub hr]; push_cast; ring
  have a2 : p + (r : Int) * s = fiber_cell p s r := rfl
  have a3 : p + ((n : Int) - 1) * s = fiber_cell p s (n - 1) := by
    simp only [fiber_cell]; rw [Nat.cast_sub (by omega)]; push_cast; ring
  obtain ⟨f1, g1⟩ := rotate_reverse_loop_segment p s 0 (r - 1) mem (by omega)
    (fun j k hj hk => hinj j k (by omega) (by omega))
  obtain ⟨f2, g2⟩ := rotate_reverse_loop_segment p s r (n - 1)
    (marray_view.rotate_reverse_loop s ((r - 1 + 1 - 0) / 2) (fiber_cell p s 0)
      (fiber_cell p s (r - 1)) mem) (by omega)
    (fun j k hj hk => hinj j k (by omega) (by omega))
  obtain ⟨f3, g3⟩ := rotate_reverse_loop_segment p s 0 (n - 1)
    (marray_view.rotate_reverse_loop s ((n - 1 + 1 - r) / 2) (fiber_cell p s r)
      (fiber_cell p s (n - 1))
      (marray_view.rotate_reverse_loop s ((r - 1 + 1 - 0) / 2) (fiber_cell p s 0)
        (fiber_cell p s (r - 1)) mem)) (by omega)
    (fun j k hj hk => hinj j k (by omega) (by omega))
  have hunfold : marray_view.rotate_fiber p s n (r : Int) mem =
      marray_view.rotate_reverse_loop s ((n - 1 + 1 - 0) / 2) (fiber_cell p s 0)
        (fiber_cell p s (n - 1))
        (marray_view.rotate_reverse_loop s ((n - 1 + 1 - r) / 2) (fiber_cell p s r)
          (fiber_cell p s (n - 1))
          (marray_view.rotate_reverse_loop s ((r - 1 + 1 - 0) / 2) (fiber_cell p s 0)
            (fiber_cell p s (r - 1)) mem)) := by
    simp only [marray_view.rotate_fiber]
    rw [c1, c2, a1, a2, a3, ← c3, ← a0]
  rw [hunfold]
  constructor
  · intro j hj
    rw [f3 j (by omega) (by omega)]
    by_cases hjr : j + r < n
    · rw [Nat.mod_eq_of_lt hjr, f2 _ (by omega) (by omega)]
      have e : r + (n - 1) - (0 + (n - 1) - j) = j + r := by omega
      rw [e]
      exact g1 _ (fun k _ hk => hne _ _ (by omega) (by omega) (by omega))
    · have hmod : (j + r) % n = j + r - n := by
        rw [Nat.mod_eq_sub_mod (by omega), Nat.mod_eq_of_lt (by omega)]
      rw [hmod, g2 _ (fun k hk1 hk2 => hne _ _ (by omega) (by omega) (by omega)),
        f1 _ (by omega) (by omega)]
      congr 2; omega
  · intro x hx
    rw [g3 x (fun j _ hj => hx j (by omega)), g2 x (fun j _ hj => hx j (by omega)),
      g1 x (fun j _ hj => hx j (by omega))]

/-- The normalization of the shift in `rotate_dim` computes the remainder in `[0, n)`. -/
theorem rotate_normalize_eq_emod (shift : Int) (n : Nat) (hn : 0 < n) :
    marray_view.rotate_normalize shift n = shift % (n : Int) := by
  have hnpos : (0 : Int) < n := by exact_mod_cast hn
  have hlow : -(n : Int) < Int.tmod shift n := by
    cases shift with
    | ofNat m =>
      have := Int.tmod_nonneg (n : Int) (Int.ofNat_nonneg m)
      simp only [Int.ofNat_eq_coe] at this ⊢
      omega
    | negSucc m =>
      have h : Int.tmod (Int.negSucc m) (n : Int) = -(((m + 1) % n : Nat) : Int) := rfl
      rw [h]
      have := Nat.mod_lt (m + 1) hn
      omega
  have hhigh := Int.tmod_lt_of_pos shift hnpos
  have hdef := Int.tmod_def shift n
  unfold marray_view.rotate_normalize
  split
  · rename_i hneg
    have e : Int.tmod shift n + n = shift + n * (1 - shift.tdiv n) := by
      rw [hdef]; ring
    have e2 : shift % (n : Int) = (Int.tmod shift n + n) % n := by
      rw [e, Int.add_mul_emod_self_left]
    rw [e2, Int.emod_eq_of_lt (by omega) (by omega)]
  · rename_i hnonneg
    have e : Int.tmod shift n = shift + n * (- shift.tdiv n) := by
      rw [hdef]; ring
    have e2 : shift % (n : Int) = (Int.tmod shift n) % n := by
      rw [e, Int.add_mul_emod_self_left]
    rw [e2]
    exact (Int.emod_eq_of_lt (by omega) hhigh).symm


theorem rotate_reverse_loop_zero_stride {α : Type} :
    ∀ (count : Nat) (a : Int) (mem : Int → α),
      marray_view.rotate_reverse_loop 0 count a a mem = mem := by
  intro count
  induction count with
  | zero => intro a mem; rfl
  | succ count ih =>
    intro a mem
    simp only [marray_view.rotate_reverse_loop, swap_cells_self, add_zero, sub_zero, ih]

theorem rotate_fiber_zero_stride {α : Type} (p : Int) (n : Nat) (shift : Int)
    (mem : Int → α) : marray_view.rotate_fiber p 0 n shift mem = mem := by
  simp only [marray_view.rotate_fiber, mul_zero, add_zero, rotate_reverse_loop_zero_stride]

/-! ## Claims about rotation -/

/-- C16: for a view, a dimension `dim` with `n = len[dim] > 0` and any integer shift `k`,
`rotate_dim(dim, k)` has the same effect as `rotate_dim(dim, k mod n)` with the remainder
taken in `[0, n)`; `rotate_dim(dim, 0)` and `rotate_dim(dim, n)` change nothing. -/
theorem rotate_dim_shift_modulo {α : Type} (v : marray_view) (dim : Nat) (k : Int)
    (mem : Int → α) (hdim : dim < v.ndim) (hn : 0 < v.len_.getD dim 0) :
    marray_view.rotate_dim v dim k mem =
      marray_view.rotate_dim v dim (k % (v.len_.getD dim 0 : Int)) mem ∧
    0 ≤ k % (v.len_.getD dim 0 : Int) ∧
    k % (v.len_.getD dim 0 : Int) < (v.len_.getD dim 0 : Int) ∧
    marray_view.rotate_dim v dim 0 mem = .ok mem ∧
    marray_view.rotate_dim v dim (v.len_.getD dim 0 : Int) mem = .ok mem := by
  have hnpos : (0 : Int) < (v.len_.getD dim 0 : Int) := by exact_mod_cast hn
  have hne : ¬ v.len_.getD dim 0 = 0 := by omega
  refine ⟨?_, Int.emod_nonneg _ (by omega), Int.emod_lt_of_pos _ hnpos, ?_, ?_⟩
  · simp only [marray_view.rotate_dim, rotate_normalize_eq_emod _ _ hn, Int.emod_emod]
  · simp only [marray_view.rotate_dim, hdim, if_true, hne, if_false,
      rotate_normalize_eq_emod _ _ hn, Int.zero_emod]
  · simp only [marray_view.rotate_dim, hdim, if_true, hne, if_false,
      rotate_normalize_eq_emod _ _ hn, Int.emod_self]

/-- Witness for C16: on the rank-1 view `[1,2,3,4,5]`, the shifts `-3`, `2` and `7` give
the same result. -/
theorem rotate_dim_shift_modulo_witness :
    marray_view.rotate_dim ⟨0, [5], [1]⟩ 0 (-3) (memory_of [1, 2, 3, 4, 5]) =
      marray_view.rotate_dim ⟨0, [5], [1]⟩ 0 ((-3) % ((5 : Nat) : Int))
        (memory_of [1, 2, 3, 4, 5]) ∧
    (-3 : Int) % ((5 : Nat) : Int) = 2 ∧
    (marray_view.rotate_dim ⟨0, [5], [1]⟩ 0 (-3) (memory_of [1, 2, 3, 4, 5])).map
      (fun m => const_marray_view.contents ⟨0, [5], [1]⟩ m) = .ok [3, 4, 5, 1, 2] ∧
    (marray_view.rotate_dim ⟨0, [5], [1]⟩ 0 7 (memory_of [1, 2, 3, 4, 5])).map
      (fun m => const_marray_view.contents ⟨0, [5], [1]⟩ m) = .ok [3, 4, 5, 1, 2] :=
  ⟨(rotate_dim_shift_modulo ⟨0, [5], [1]⟩ 0 (-3) (memory_of [1, 2, 3, 4, 5])
      (by decide) (by decide)).1,
    by decide, by decide, by decide⟩

/-- C14 (counterexample): `rotate` on the rank-1 array `[1,2,3,4,5]` with shift `2` leaves
`[3,4,5,1,2]`, not `[4,5,1,2,3]`: the element originally at index `0` ends at index `3`,
not at index `(0 + 2) mod 5`. -/
theorem rotate_shift_two_of_five :
    (marray_view.rotate ⟨0, [5], [1]⟩ [2] (memory_of [1, 2, 3, 4, 5])).map
      (fun m => const_marray_view.contents ⟨0, [5], [1]⟩ m) = .ok [3, 4, 5, 1, 2] ∧
    (marray_view.rotate ⟨0, [5], [1]⟩ [2] (memory_of [1, 2, 3, 4, 5])).map
      (fun m => const_marray_view.contents ⟨0, [5], [1]⟩ m) ≠ .ok [4, 5, 1, 2, 3] := by
  refine ⟨by decide, by decide⟩

/-- C14 (amended): for a rank-1 view of length `n` and `0 <= shift < n`, `rotate`
completes; afterwards the element at index `j` is the one originally at index
`(j + shift) mod n`, that is, the element originally at index `i` ends at index
`(i + n - shift) mod n`; on `[1,2,3,4,5]` with shift `2` the result is `[3,4,5,1,2]`. -/
theorem rotate_rank_one_moves_left {α : Type} (p s : Int) (n shift : Nat) (mem : Int → α)
    (hshift : shift < n) :
    ∃ mem1, marray_view.rotate ⟨p, [n], [s]⟩ [(shift : Int)] mem = .ok mem1 ∧
      (∀ j, j < n → mem1 (fiber_cell p s j) = mem (fiber_cell p s ((j + shift) % n))) ∧
      (∀ i, i < n → mem1 (fiber_cell p s ((i + n - shift) % n)) = mem (fiber_cell p s i)) := by
  have hn : 0 < n := by omega
  have hne : ¬ n = 0 := by omega
  have hnorm : marray_view.rotate_normalize (shift : Int) n = (shift : Int) := by
    rw [rotate_normalize_eq_emod _ _ hn]
    exact Int.emod_eq_of_lt (by omega) (by exact_mod_cast hshift)
  have hback : ∀ i, i < n → ((i + n - shift) % n + shift) % n = i := by
    intro i hi
    by_cases h : i < shift
    · rw [Nat.mod_eq_of_lt (by omega : i + n - shift < n)]
      have : i + n - shift + shift = i + n := by omega
      rw [this, Nat.add_mod_right, Nat.mod_eq_of_lt hi]
    · have e : i + n - shift = (i - shift) + n := by omega
      rw [e, Nat.add_mod_right, Nat.mod_eq_of_lt (by omega : i - shift < n)]
      have : i - shift + shift = i := by omega
      rw [this, Nat.mod_eq_of_lt hi]
  have hforms : ∀ mem1 : Int → α,
      (∀ j, j < n → mem1 (fiber_cell p s j) = mem (fiber_cell p s ((j + shift) % n))) →
      (∀ i, i < n → mem1 (fiber_cell p s ((i + n - shift) % n)) = mem (fiber_cell p s i)) := by
    intro mem1 h i hi
    rw [h _ (Nat.mod_lt _ hn), hback i hi]
  by_cases h0 : shift = 0
  · subst h0
    have hnorm0 : marray_view.rotate_normalize 0 n = 0 := by simpa using hnorm
    refine ⟨mem, ?_, ?_, ?_⟩
    · simp [marray_view.rotate, marray_view.rotate_loop, marray_view.rotate_dim,
        const_marray_view.ndim, hne, hnorm0]
    · intro j hj
      rw [Nat.add_zero, Nat.mod_eq_of_lt hj]
    · intro i hi
      rw [Nat.sub_zero, Nat.add_mod_right, Nat.mod_eq_of_lt hi]
  · have hs0 : ¬ (shift : Int) = 0 := by exact_mod_cast h0
    have hrun : marray_view.rotate ⟨p, [n], [s]⟩ [(shift : Int)] mem =
        .ok (marray_view.rotate_fiber p s n (shift : Int) mem) := by
      simp [marray_view.rotate, marray_view.rotate_loop, marray_view.rotate_dim,
        const_marray_view.ndim, hne, hnorm, hs0, iterator_indices, linear_offset]
    by_cases hs : s = 0
    · subst hs
      rw [rotate_fiber_zero_stride] at hrun
      have hall : ∀ j, j < n → mem (fiber_cell p 0 j) = mem (fiber_cell p 0 ((j + shift) % n)) := by
        intro j _
        simp [fiber_cell]
      exact ⟨mem, hrun, hall, hforms mem hall⟩
    · have hinj : ∀ j k, j < n → k < n → fiber_cell p s j = fiber_cell p s k → j = k := by
        intro j k _ _ h
        simp only [fiber_cell, add_right_inj] at h
        exact_mod_cast mul_right_cancel₀ hs h
      have heff := (rotate_fiber_effect p s n shift mem (by omega) hshift hinj).1
      exact ⟨_, hrun, heff, hforms _ heff⟩

/-- Witness for C14: `[1,2,3,4,5]` rotated with shift `2`. -/
theorem rotate_rank_one_moves_left_witness :
    (marray_view.rotate ⟨0, [5], [1]⟩ [((2 : Nat) : Int)] (memory_of [1, 2, 3, 4, 5])).map
      (fun m => const_marray_view.contents ⟨0, [5], [1]⟩ m) = .ok [3, 4, 5, 1, 2] ∧
    ∃ mem1, marray_view.rotate ⟨0, [5], [1]⟩ [((2 : Nat) : Int)]
        (memory_of [1, 2, 3, 4, 5]) = .ok mem1 ∧
      (∀ j, j < 5 → mem1 (fiber_cell 0 1 j) =
        memory_of [1, 2, 3, 4, 5] (fiber_cell 0 1 ((j + 2) % 5))) ∧
      (∀ i, i < 5 → mem1 (fiber_cell 0 1 ((i + 5 - 2) % 5)) =
        memory_of [1, 2, 3, 4, 5] (fiber_cell 0 1 i)) :=
  ⟨by decide,
    rotate_rank_one_moves_left 0 1 5 2 (memory_of [1, 2, 3, 4, 5]) (by decide)⟩

/-! ## Lemmas on multi-indices and fibers -/

theorem in_range_length (idx : List Nat) :
    ∀ len : List Nat, in_range idx len → idx.length = len.length := by
  induction idx with
  | nil => intro len h; cases len with
    | nil => rfl
    | cons l len => simp [in_range] at h
  | cons i idx ih =>
    intro len h
    cases len with
    | nil => simp [in_range] at h
    | cons l len => simp [ih len h.2]

theorem eraseIdx_insert_at (j : Nat) :
    ∀ (dim : Nat) (idx : List Nat), dim ≤ idx.length →
      (insert_at j dim idx).eraseIdx dim = idx ∧ (insert_at j dim idx).getD dim 0 = j := by
  intro dim
  induction dim with
  | zero => intro idx _; simp [insert_at]
  | succ dim ih =>
    intro idx h
    cases idx with
    | nil => simp at h
    | cons i idx =>
      have := ih idx (by simpa using h)
      simp only [insert_at, List.eraseIdx_cons_succ, this.1, List.getD_cons_succ, this.2,
        and_self]

theorem insert_at_eraseIdx :
    ∀ (dim : Nat) (idx : List Nat), dim < idx.length →
      insert_at (idx.getD dim 0) dim (idx.eraseIdx dim) = idx := by
  intro dim
  induction dim with
  | zero =>
    intro idx h
    cases idx with
    | nil => simp at h
    | cons i idx => simp [insert_at]
  | succ dim ih =>
    intro idx h
    cases idx with
    | nil => simp at h
    | cons i idx =>
      have := ih idx (by simpa using h)
      simp only [List.eraseIdx_cons_succ, List.getD_cons_succ, insert_at, this]

theorem set_eq_insert_at (j : Nat) :
    ∀ (dim : Nat) (idx : List Nat), dim < idx.length →
      idx.set dim j = insert_at j dim (idx.eraseIdx dim) := by
  intro dim
  induction dim with
  | zero =>
    intro idx h
    cases idx with
    | nil => simp at h
    | cons i idx => simp [insert_at]
  | succ dim ih =>
    intro idx h
    cases idx with
    | nil => simp at h
    | cons i idx =>
      have := ih idx (by simpa using h)
      simp only [List.set_cons_succ, List.eraseIdx_cons_succ, insert_at, this]

theorem in_range_insert_at (j : Nat) :
    ∀ (dim : Nat) (sub len : List Nat), dim < len.length →
      in_range sub (len.eraseIdx dim) → j < len.getD dim 0 →
      in_range (insert_at j dim sub) len := by
  intro dim
  induction dim with
  | zero =>
    intro sub len h hsub hj
    cases len with
    | nil => simp at h
    | cons l len =>
      simp only [List.eraseIdx_cons_zero] at hsub
      simp only [List.getD_cons_zero] at hj
      exact ⟨hj, hsub⟩
  | succ dim ih =>
    intro sub len h hsub hj
    cases len with
    | nil => simp at h
    | cons l len =>
      simp only [List.eraseIdx_cons_succ] at hsub
      simp only [List.getD_cons_succ] at hj
      cases sub with
      | nil => simp [in_range] at hsub
      | cons i sub =>
        exact ⟨hsub.1, ih sub len (by simpa using h) hsub.2 hj⟩

theorem in_range_eraseIdx :
    ∀ (dim : Nat) (idx len : List Nat), dim < len.length → in_range idx len →
      in_range (idx.eraseIdx dim) (len.eraseIdx dim) ∧ idx.getD dim 0 < len.getD dim 0 := by
  intro dim
  induction dim with
  | zero =>
    intro idx len h hidx
    cases len with
    | nil => simp at h
    | cons l len =>
      cases idx with
      | nil => simp [in_range] at hidx
      | cons i idx => exact ⟨hidx.2, hidx.1⟩
  | succ dim ih =>
    intro idx len h hidx
    cases len with
    | nil => simp at h
    | cons l len =>
      cases idx with
      | nil => simp [in_range] at hidx
      | cons i idx =>
        have := ih idx len (by simpa using h) hidx.2
        exact ⟨⟨hidx.1, this.1⟩, this.2⟩

theorem linear_offset_eraseIdx :
    ∀ (dim : Nat) (idx : List Nat) (stride : List Int), idx.length = stride.length →
      dim < idx.length →
      linear_offset idx stride =
        linear_offset (idx.eraseIdx dim) (stride.eraseIdx dim) +
          (idx.getD dim 0 : Int) * stride.getD dim 0 := by
  intro dim
  induction dim with
  | zero =>
    intro idx stride hlen h
    cases idx with
    | nil => simp at h
    | cons i idx =>
      cases stride with
      | nil => simp at hlen
      | cons s stride => simp [linear_offset]; ring
  | succ dim ih =>
    intro idx stride hlen h
    cases idx with
    | nil => simp at h
    | cons i idx =>
      cases stride with
      | nil => simp at hlen
      | cons s stride =>
        have := ih idx stride (by simpa using hlen) (by simpa using h)
        simp only [linear_offset, List.eraseIdx_cons_succ, List.getD_cons_succ, this]
        ring

/-- Rotating the fibers of a list one after the other, when all their cells are pairwise
distinct: in every fiber element `j` receives the old element `(j + r) mod n`, and every
address outside the fibers is unchanged. -/
theorem foldl_rotate_fibers {α ι : Type} (base : ι → Int) (s : Int) (n r : Nat)
    (hr : 0 < r) (hrn : r < n) (fibers : List ι) :
    ∀ (mem : Int → α), fibers.Nodup →
      (∀ i ∈ fibers, ∀ i' ∈ fibers, ∀ j k, j < n → k < n →
        fiber_cell (base i) s j = fiber_cell (base i') s k → i = i' ∧ j = k) →
      (∀ i ∈ fibers, ∀ j, j < n →
        (fibers.foldl (fun m i => marray_view.rotate_fiber (base i) s n (r : Int) m) mem)
            (fiber_cell (base i) s j) = mem (fiber_cell (base i) s ((j + r) % n))) ∧
      (∀ x, (∀ i ∈ fibers, ∀ j, j < n → x ≠ fiber_cell (base i) s j) →
        (fibers.foldl (fun m i => marray_view.rotate_fiber (base i) s n (r : Int) m) mem) x =
          mem x) := by
  induction fibers with
  | nil => intro mem _ _; simp
  | cons i0 fibers ih =>
    intro mem hnodup hinj
    have hnd := List.nodup_cons.mp hnodup
    have hn : 0 < n := by omega
    obtain ⟨e1, e2⟩ := rotate_fiber_effect (base i0) s n r mem hr hrn
      (fun j k hj hk h =>
        (hinj i0 (List.mem_cons_self _ _) i0 (List.mem_cons_self _ _) j k hj hk h).2)
    obtain ⟨ih1, ih2⟩ := ih (marray_view.rotate_fiber (base i0) s n (r : Int) mem) hnd.2
      (fun i hi i' hi' => hinj i (List.mem_cons_of_mem _ hi) i' (List.mem_cons_of_mem _ hi'))
    simp only [List.foldl_cons]
    have hother : ∀ i ∈ fibers, ∀ j k, j < n → k < n →
        fiber_cell (base i) s j ≠ fiber_cell (base i0) s k := by
      intro i hi j k hj hk h
      have := (hinj i (List.mem_cons_of_mem _ hi) i0 (List.mem_cons_self _ _) j k hj hk h).1
      exact hnd.1 (this ▸ hi)
    constructor
    · intro i hi j hj
      rcases List.mem_cons.mp hi with h | h
      · subst h
        rw [ih2 _ (fun i' hi' k hk => (hother i' hi' k j hk hj).symm)]
        exact e1 j hj
      · rw [ih1 i h j hj]
        exact e2 _ (fun k hk => hother i h _ k (Nat.mod_lt _ hn) hk)
    · intro x hx
      rw [ih2 x (fun i hi => hx i (List.mem_cons_of_mem _ hi))]
      exact e2 x (hx i0 (List.mem_cons_self _ _))

theorem set_getD_self (dim : Nat) (idx : List Nat) (h : dim < idx.length) :
    idx.set dim (idx.getD dim 0) = idx := by
  rw [set_eq_insert_at _ _ _ h, insert_at_eraseIdx _ _ h]

/-- The address of a multi-index with `j` inserted at position `dim` is cell `j` of the
fiber that starts at the address of the remaining multi-index. -/
theorem address_insert_at (v : const_marray_view) (dim j : Nat) (sub : List Nat)
    (hwf : v.WF) (hdim : dim < v.ndim) (hsub : in_range sub (v.len_.eraseIdx dim))
    (hj : j < v.len_.getD dim 0) :
    v.address (insert_at j dim sub) =
      fiber_cell (v.data_ + linear_offset sub (v.stride_.eraseIdx dim))
        (v.stride_.getD dim 0) j := by
  have hin := in_range_insert_at j dim sub v.len_ hdim hsub hj
  have hlen := in_range_length _ _ hin
  have hsublen := in_range_length _ _ hsub
  have hle : dim ≤ sub.length := by
    rw [hsublen, List.length_eraseIdx]
    simp only [const_marray_view.ndim] at hdim
    simp only [hdim, if_true]; omega
  obtain ⟨h1, h2⟩ := eraseIdx_insert_at j dim sub hle
  simp only [const_marray_view.address, fiber_cell]
  rw [linear_offset_eraseIdx dim (insert_at j dim sub) v.stride_ (by rw [hlen, hwf.2])
    (by rw [hlen]; exact hdim), h1, h2]
  ring

/-- The effect of `rotate_dim` on a view that addresses pairwise distinct locations: the
element with multi-index `idx` receives the old element whose index along `dim` is
`(idx[dim] + shift) mod n`, and every address outside the view is unchanged. -/
theorem rotate_dim_effect {α : Type} (v : marray_view) (dim : Nat) (shift : Int)
    (mem : Int → α) (hwf : v.WF) (hinj : v.injective) (hdim : dim < v.ndim)
    (hn : 0 < v.len_.getD dim 0) :
    ∃ mem1, marray_view.rotate_dim v dim shift mem = .ok mem1 ∧
      (∀ idx, in_range idx v.len_ →
        mem1 (v.address idx) = mem (v.address (idx.set dim
          ((idx.getD dim 0 + (shift % (v.len_.getD dim 0 : Int)).toNat) %
            v.len_.getD dim 0)))) ∧
      (∀ x, (∀ idx, in_range idx v.len_ → x ≠ v.address idx) → mem1 x = mem x) := by
  have hnpos : (0 : Int) < (v.len_.getD dim 0 : Int) := by exact_mod_cast hn
  have hne : ¬ v.len_.getD dim 0 = 0 := by omega
  have hr0 : 0 ≤ shift % (v.len_.getD dim 0 : Int) := Int.emod_nonneg _ (by omega)
  have hr1 : shift % (v.len_.getD dim 0 : Int) < (v.len_.getD dim 0 : Int) :=
    Int.emod_lt_of_pos _ hnpos
  have hcast : ((shift % (v.len_.getD dim 0 : Int)).toNat : Int) =
      shift % (v.len_.getD dim 0 : Int) := Int.toNat_of_nonneg hr0
  have hrn : (shift % (v.len_.getD dim 0 : Int)).toNat < v.len_.getD dim 0 := by omega
  by_cases hzero : (shift % (v.len_.getD dim 0 : Int)).toNat = 0
  · have hz : shift % (v.len_.getD dim 0 : Int) = 0 := by omega
    refine ⟨mem, ?_, ?_, fun x _ => rfl⟩
    · simp only [marray_view.rotate_dim, hdim, if_true, hne, if_false,
        rotate_normalize_eq_emod _ _ hn, hz]
    · intro idx hidx
      have hlen := in_range_length _ _ hidx
      have hi := (in_range_eraseIdx dim idx v.len_ hdim hidx).2
      rw [hzero, Nat.add_zero, Nat.mod_eq_of_lt hi, set_getD_self dim idx (by rw [hlen]; exact hdim)]
  · have hnz : ¬ shift % (v.len_.getD dim 0 : Int) = 0 := by omega
    have hfold := foldl_rotate_fibers
      (fun sub => v.data_ + linear_offset sub (v.stride_.eraseIdx dim))
      (v.stride_.getD dim 0) (v.len_.getD dim 0)
      (shift % (v.len_.getD dim 0 : Int)).toNat (by omega) hrn
      (iterator_indices (v.len_.eraseIdx dim)) mem (nodup_iterator_indices _)
      (by
        intro i hi i' hi' j k hj hk h
        have hi1 := (mem_iterator_indices _ _).mp hi
        have hi2 := (mem_iterator_indices _ _).mp hi'
        rw [← address_insert_at v dim j i hwf hdim hi1 hj,
          ← address_insert_at v dim k i' hwf hdim hi2 hk] at h
        have heq := hinj _ _ (in_range_insert_at j dim i v.len_ hdim hi1 hj)
          (in_range_insert_at k dim i' v.len_ hdim hi2 hk) h
        have hle : ∀ sub, in_range sub (v.len_.eraseIdx dim) → dim ≤ sub.length := by
          intro sub hsub
          rw [in_range_length _ _ hsub, List.length_eraseIdx]
          simp only [const_marray_view.ndim] at hdim
          simp only [hdim, if_true]; omega
        have a1 := eraseIdx_insert_at j dim i (hle i hi1)
        have a2 := eraseIdx_insert_at k dim i' (hle i' hi2)
        rw [heq] at a1
        exact ⟨a1.1.symm.trans a2.1, a1.2.symm.trans a2.2⟩)
    rw [hcast] at hfold
    refine ⟨(iterator_indices (v.len_.eraseIdx dim)).foldl
      (fun m sub => marray_view.rotate_fiber
        (v.data_ + linear_offset sub (v.stride_.eraseIdx dim)) (v.stride_.getD dim 0)
        (v.len_.getD dim 0) (shift % (v.len_.getD dim 0 : Int)) m) mem, ?_, ?_, ?_⟩
    · simp only [marray_view.rotate_dim, hdim, if_true, hne, if_false,
        rotate_normalize_eq_emod _ _ hn, hnz,
        take_drop_succ_eq_eraseIdx v.len_ dim v.ndim rfl,
        take_drop_succ_eq_eraseIdx v.stride_ dim v.ndim hwf.2]
    · intro idx hidx
      have hlen := in_range_length _ _ hidx
      have hdl : dim < idx.length := by rw [hlen]; exact hdim
      obtain ⟨hsub, hi⟩ := in_range_eraseIdx dim idx v.len_ hdim hidx
      have hmem := (mem_iterator_indices _ _).mpr hsub
      have key := hfold.1 _ hmem _ hi
      rw [← address_insert_at v dim _ _ hwf hdim hsub hi,
        ← address_insert_at v dim _ _ hwf hdim hsub (Nat.mod_lt _ hn),
        insert_at_eraseIdx dim idx hdl, ← set_eq_insert_at _ dim idx hdl] at key
      exact key
    · intro x hx
      apply hfold.2
      intro i hi j hj
      have hi1 := (mem_iterator_indices _ _).mp hi
      rw [← address_insert_at v dim j i hwf hdim hi1 hj]
      exact hx _ (in_range_insert_at j dim i v.len_ hdim hi1 hj)

theorem rotate_shifts_cancel (k : Int) (n i : Nat) (hn : 0 < n) (hi : i < n) :
    ((i + ((((n : Int) - k) % (n : Int)) % (n : Int)).toNat) % n +
      (k % (n : Int)).toNat) % n = i := by
  have hnpos : (0 : Int) < (n : Int) := by exact_mod_cast hn
  have h1 : 0 ≤ k % (n : Int) := Int.emod_nonneg _ (by omega)
  have h2 : 0 ≤ ((n : Int) - k) % (n : Int) := Int.emod_nonneg _ (by omega)
  have hsum : (k % (n : Int) + ((n : Int) - k) % (n : Int)) % (n : Int) = 0 := by
    rw [← Int.add_emod]
    have : k + ((n : Int) - k) = (n : Int) := by ring
    rw [this, Int.emod_self]
  rw [Int.emod_emod]
  have hnat : ((k % (n : Int)).toNat + (((n : Int) - k) % (n : Int)).toNat) % n = 0 := by
    have hc : (((k % (n : Int)).toNat + (((n : Int) - k) % (n : Int)).toNat : Nat) : Int) =
        k % (n : Int) + ((n : Int) - k) % (n : Int) := by
      push_cast
      rw [Int.toNat_of_nonneg h1, Int.toNat_of_nonneg h2]
    have : ((((k % (n : Int)).toNat + (((n : Int) - k) % (n : Int)).toNat) % n : Nat) : Int)
        = 0 := by
      rw [Int.natCast_mod, hc, hsum]
    exact_mod_cast this
  rw [Nat.mod_add_mod, Nat.add_assoc, Nat.add_comm (((n : Int) - k) % (n : Int)).toNat,
    Nat.add_mod, hnat, Nat.add_zero, Nat.mod_mod, Nat.mod_eq_of_lt hi]

/-- C15 (counterexample): on the view with lengths `[2,3]` and strides `[1,1]`, whose
elements overlap, over the memory `[1,2,3,4]`, `rotate_dim(0, 1)` followed by
`rotate_dim(0, (2 - 1) mod 2)` leaves the element `(0,0)` equal to `3`, not to its
original value `1`. -/
theorem rotate_dim_round_trip_on_overlap :
    const_marray_view.WF ⟨0, [2, 3], [1, 1]⟩ ∧ in_range [0, 0] [2, 3] ∧
    memory_of [1, 2, 3, 4] (const_marray_view.address ⟨0, [2, 3], [1, 1]⟩ [0, 0]) = 1 ∧
    ((2 : Int) - 1) % 2 = 1 ∧
    ((marray_view.rotate_dim ⟨0, [2, 3], [1, 1]⟩ 0 1 (memory_of [1, 2, 3, 4])).bind
      (fun mem1 =>
        marray_view.rotate_dim ⟨0, [2, 3], [1, 1]⟩ 0 (((2 : Int) - 1) % 2) mem1)).map
      (fun (mem2 : Int → Int) =>
        mem2 (const_marray_view.address ⟨0, [2, 3], [1, 1]⟩ [0, 0])) = .ok 3 := by
  refine ⟨by decide, by simp [in_range], by decide, by decide, by decide⟩

/-- C15 (amended): for a view whose in-bounds multi-indices address pairwise distinct
locations, a dimension `dim` with `n = len[dim] > 0` and any shift `k`, `rotate_dim(dim, k)`
followed by `rotate_dim(dim, (n - k) mod n)` completes and leaves every element of the
view, and every location outside the view, equal to its original value. -/
theorem rotate_dim_round_trip {α : Type} (v : marray_view) (dim : Nat) (k : Int)
    (mem : Int → α) (hwf : v.WF) (hinj : v.injective) (hdim : dim < v.ndim)
    (hn : 0 < v.len_.getD dim 0) :
    ∃ mem1 mem2, marray_view.rotate_dim v dim k mem = .ok mem1 ∧
      marray_view.rotate_dim v dim
        (((v.len_.getD dim 0 : Int) - k) % (v.len_.getD dim 0 : Int)) mem1 = .ok mem2 ∧
      (∀ idx, in_range idx v.len_ → mem2 (v.address idx) = mem (v.address idx)) ∧
      (∀ x, (∀ idx, in_range idx v.len_ → x ≠ v.address idx) → mem2 x = mem x) := by
  obtain ⟨mem1, hrun1, heff1, hout1⟩ := rotate_dim_effect v dim k mem hwf hinj hdim hn
  obtain ⟨mem2, hrun2, heff2, hout2⟩ := rotate_dim_effect v dim
    (((v.len_.getD dim 0 : Int) - k) % (v.len_.getD dim 0 : Int)) mem1 hwf hinj hdim hn
  refine ⟨mem1, mem2, hrun1, hrun2, ?_, fun x hx => (hout2 x hx).trans (hout1 x hx)⟩
  intro idx hidx
  have hlen := in_range_length _ _ hidx
  have hdl : dim < idx.length := by rw [hlen]; exact hdim
  obtain ⟨hsub, hi⟩ := in_range_eraseIdx dim idx v.len_ hdim hidx
  have hin2 : in_range (idx.set dim ((idx.getD dim 0 +
      ((((v.len_.getD dim 0 : Int) - k) % (v.len_.getD dim 0 : Int)) %
        (v.len_.getD dim 0 : Int)).toNat) % v.len_.getD dim 0)) v.len_ := by
    rw [set_eq_insert_at _ dim idx hdl]
    exact in_range_insert_at _ dim _ v.len_ hdim hsub (Nat.mod_lt _ hn)
  rw [heff2 idx hidx, heff1 _ hin2, List.set_set]
  have hget : ∀ j, (idx.set dim j).getD dim 0 = j := by
    intro j
    rw [set_eq_insert_at _ dim idx hdl]
    exact (eraseIdx_insert_at j dim _ (by
      rw [List.length_eraseIdx]; simp only [hdl, if_true]; omega)).2
  rw [hget, rotate_shifts_cancel k _ _ hn hi, set_getD_self dim idx hdl]

/-- Witness for C15: on the row-major `[2,3]` view over `[1,2,3,4,5,6]`, rotating
dimension `1` by `1` and then by `(3 - 1) mod 3` restores the contents. -/
theorem rotate_dim_round_trip_witness :
    ((marray_view.rotate_dim ⟨0, [2, 3], [3, 1]⟩ 1 1 (memory_of [1, 2, 3, 4, 5, 6])).bind
      (fun mem1 =>
        marray_view.rotate_dim ⟨0, [2, 3], [3, 1]⟩ 1 (((3 : Int) - 1) % 3) mem1)).map
      (fun (mem2 : Int → Int) => const_marray_view.contents ⟨0, [2, 3], [3, 1]⟩ mem2) =
        .ok [1, 2, 3, 4, 5, 6] ∧
    ∃ mem1 mem2,
      marray_view.rotate_dim ⟨0, [2, 3], [3, 1]⟩ 1 1 (memory_of [1, 2, 3, 4, 5, 6]) =
        .ok mem1 ∧
      marray_view.rotate_dim ⟨0, [2, 3], [3, 1]⟩ 1
        ((((3 : Nat) : Int) - 1) % ((3 : Nat) : Int)) mem1 = .ok mem2 ∧
      (∀ idx, in_range idx [2, 3] →
        mem2 (const_marray_view.address ⟨0, [2, 3], [3, 1]⟩ idx) =
          memory_of [1, 2, 3, 4, 5, 6] (const_marray_view.address ⟨0, [2, 3], [3, 1]⟩ idx)) ∧
      (∀ x, (∀ idx, in_range idx [2, 3] →
        x ≠ const_marray_view.address ⟨0, [2, 3], [3, 1]⟩ idx) →
        mem2 x = memory_of [1, 2, 3, 4, 5, 6] x) := by
  refine ⟨by decide, ?_⟩
  have hmem : ∀ idx, in_range idx [2, 3] → idx ∈ iterator_indices [2, 3] :=
    fun idx h => (mem_iterator_indices _ _).mpr h
  have key : ∀ i ∈ iterator_indices [2, 3], ∀ j ∈ iterator_indices [2, 3],
      const_marray_view.address ⟨0, [2, 3], [3, 1]⟩ i =
        const_marray_view.address ⟨0, [2, 3], [3, 1]⟩ j → i = j := by decide
  exact rotate_dim_round_trip ⟨0, [2, 3], [3, 1]⟩ 1 1 (memory_of [1, 2, 3, 4, 5, 6])
    (by decide) (fun i j hi hj => key i (hmem i hi) j (hmem j hj)) (by decide) (by decide)

/-! ## Lemmas on row-major storage and on `resize` -/

theorem row_major_strides_length (len : List Nat) :
    (row_major_strides len).length = len.length := by
  induction len with
  | nil => rfl
  | cons l len ih => simp [row_major_strides, ih]

theorem row_major_strides_getD (len : List Nat) :
    ∀ i, i < len.length →
      (row_major_strides len).getD i 0 = (((len.drop (i + 1)).prod : Nat) : Int) := by
  induction len with
  | nil => intro i h; simp at h
  | cons l len ih =>
    intro i h
    cases i with
    | zero => simp [row_major_strides]
    | succ i =>
      simp only [row_major_strides, List.getD_cons_succ, List.drop_succ_cons]
      exact ih i (by simpa using h)

theorem to_stride_type_zero : to_stride_type 0 = 0 := by decide

theorem getD_map_to_stride_type (l : List Int) (i : Nat) :
    (l.map to_stride_type).getD i 0 = to_stride_type (l.getD i 0) := by
  have h : (l.map to_stride_type).getD i (to_stride_type 0) = to_stride_type (l.getD i 0) :=
    List.getD_map l 0 to_stride_type
  rw [to_stride_type_zero] at h
  exact h

theorem default_strides_length (len : List Nat) (layout : Layout) :
    (default_strides len layout).length = len.length := by
  by_cases hN : len.length = 0
  · have : len = [] := List.length_eq_zero.mp hN
    subst this
    cases layout <;> rfl
  · cases layout with
    | ROW_MAJOR =>
      have hset : ((List.replicate len.length (0 : Int)).set (len.length - 1) 1).length =
          len.length := by simp
      have h := (default_strides.row_loop_inv len len.length (len.length - 1) _ hset
        (by omega)).1
      simpa only [default_strides, if_true] using h
    | COLUMN_MAJOR =>
      have hset : ((List.replicate len.length (0 : Int)).set 0 1).length = len.length := by
        simp
      have h := (default_strides.col_loop_inv len len.length (len.length - 1) 1 _ hset
        (le_refl _) (by omega)).1
      have hne : ¬ Layout.COLUMN_MAJOR = Layout.ROW_MAJOR := by decide
      simpa only [default_strides, hne, if_false] using h

/-- The strides that `default_strides` computes for the row-major layout are the products
of the later lengths, converted to `stride_type`. -/
theorem default_strides_row_major_closed (len : List Nat) :
    default_strides len Layout.ROW_MAJOR = (row_major_strides len).map to_stride_type := by
  by_cases hN : len.length = 0
  · have : len = [] := List.length_eq_zero.mp hN
    subst this
    rfl
  · have hset : ((List.replicate len.length (0 : Int)).set (len.length - 1) 1).length =
        len.length := by simp
    obtain ⟨h1, h2, h3⟩ := default_strides.row_loop_inv len len.length (len.length - 1) _ hset
      (by omega)
    have hlast : (default_strides.row_loop len (len.length - 1)
        ((List.replicate len.length (0 : Int)).set (len.length - 1) 1)).getD
          (len.length - 1) 0 = 1 := by
      rw [h2 _ (le_refl _), getD_set_eq _ _ _ _ (by simp; omega)]
    have hd : default_strides len Layout.ROW_MAJOR =
        default_strides.row_loop len (len.length - 1)
          ((List.replicate len.length (0 : Int)).set (len.length - 1) 1) := by
      simp only [default_strides, if_true]
    rw [hd]
    have key : ∀ k, k < len.length →
        (default_strides.row_loop len (len.length - 1)
          ((List.replicate len.length (0 : Int)).set (len.length - 1) 1)).getD
            (len.length - 1 - k) 0 =
        to_stride_type ((row_major_strides len).getD (len.length - 1 - k) 0) := by
      intro k
      induction k with
      | zero =>
        intro _
        rw [Nat.sub_zero, hlast, row_major_strides_getD len _ (by omega)]
        have : len.length - 1 + 1 = len.length := by omega
        rw [this, List.drop_length]
        decide
      | succ k ih =>
        intro hk
        have ih' := ih (by omega)
        have e : len.length - 1 - (k + 1) + 1 = len.length - 1 - k := by omega
        rw [h3 _ (by omega), e, ih', to_stride_type_mul,
          row_major_strides_getD len _ (by omega),
          row_major_strides_getD len _ (by omega), e,
          drop_eq_getD_cons len (len.length - 1 - k) 0 (by omega), List.prod_cons]
        congr 1
        push_cast
        ring
    apply List.ext_getElem (by rw [h1, List.length_map, row_major_strides_length])
    intro i hi1 hi2
    have hi : i < len.length := by rw [h1] at hi1; exact hi1
    have := key (len.length - 1 - i) (by omega)
    have e : len.length - 1 - (len.length - 1 - i) = i := by omega
    rw [e, ← getD_map_to_stride_type, List.getD_eq_getElem _ _ hi1,
      List.getD_eq_getElem _ _ hi2] at this
    exact this

/-- In row-major storage the offset of an in-bounds multi-index lies in `[0, size)`. -/
theorem row_major_offset_bounds (len : List Nat) :
    ∀ idx, in_range idx len →
      0 ≤ linear_offset idx (row_major_strides len) ∧
      linear_offset idx (row_major_strides len) < ((len.prod : Nat) : Int) := by
  induction len with
  | nil =>
    intro idx h
    cases idx with
    | nil => simp [linear_offset, row_major_strides]
    | cons i idx => simp [in_range] at h
  | cons l len ih =>
    intro idx h
    cases idx with
    | nil => simp [in_range] at h
    | cons i idx =>
      obtain ⟨h0, h1⟩ := ih idx h.2
      have hi : (i : Int) + 1 ≤ (l : Int) := by exact_mod_cast h.1
      have hP : (0 : Int) ≤ ((len.prod : Nat) : Int) := Int.ofNat_nonneg _
      simp only [linear_offset, row_major_strides, List.prod_cons, Nat.cast_mul]
      constructor
      · have : (0 : Int) ≤ (i : Int) * (len.prod : Int) :=
          mul_nonneg (Int.ofNat_nonneg _) hP
        linarith
      · have : ((i : Int) + 1) * (len.prod : Int) ≤ (l : Int) * (len.prod : Int) :=
          mul_le_mul_of_nonneg_right hi hP
        linarith

/-- In row-major storage distinct in-bounds multi-indices have distinct offsets. -/
theorem row_major_offset_injective (len : List Nat) :
    ∀ idx1 idx2, in_range idx1 len → in_range idx2 len →
      linear_offset idx1 (row_major_strides len) =
        linear_offset idx2 (row_major_strides len) → idx1 = idx2 := by
  induction len with
  | nil =>
    intro idx1 idx2 h1 h2 _
    cases idx1 with
    | nil => cases idx2 with
      | nil => rfl
      | cons j idx2 => simp [in_range] at h2
    | cons i idx1 => simp [in_range] at h1
  | cons l len ih =>
    intro idx1 idx2 h1 h2 heq
    cases idx1 with
    | nil => simp [in_range] at h1
    | cons i idx1 =>
      cases idx2 with
      | nil => simp [in_range] at h2
      | cons j idx2 =>
        obtain ⟨a0, a1⟩ := row_major_offset_bounds len idx1 h1.2
        obtain ⟨b0, b1⟩ := row_major_offset_bounds len idx2 h2.2
        simp only [linear_offset, row_major_strides] at heq
        have hij : i = j := by
          by_contra hne
          rcases Nat.lt_or_gt_of_ne hne with hlt | hgt
          · have hc : (i : Int) + 1 ≤ (j : Int) := by exact_mod_cast hlt
            have : ((i : Int) + 1) * ((len.prod : Nat) : Int) ≤
                (j : Int) * ((len.prod : Nat) : Int) :=
              mul_le_mul_of_nonneg_right hc (Int.ofNat_nonneg _)
            linarith
          · have hc : (j : Int) + 1 ≤ (i : Int) := by exact_mod_cast hgt
            have : ((j : Int) + 1) * ((len.prod : Nat) : Int) ≤
                (i : Int) * ((len.prod : Nat) : Int) :=
              mul_le_mul_of_nonneg_right hc (Int.ofNat_nonneg _)
            linarith
        subst hij
        have : linear_offset idx1 (row_major_strides len) =
            linear_offset idx2 (row_major_strides len) := by linarith
        rw [ih idx1 idx2 h1.2 h2.2 this]

/-- A multi-index within a shape shows that every length of the shape is positive. -/
theorem in_range_pos : ∀ (idx len : List Nat), in_range idx len → ∀ l ∈ len, 1 ≤ l
  | [], [], _ => by simp
  | [], _ :: _, h => by simp [in_range] at h
  | _ :: _, [], h => by simp [in_range] at h
  | i :: idx, l :: len, h => by
    intro l1 hl1
    rcases List.mem_cons.mp hl1 with rfl | hmem
    · have := h.1
      omega
    · exact in_range_pos idx len h.2 l1 hmem

theorem prod_pos_of_pos (len : List Nat) (h : ∀ l ∈ len, 1 ≤ l) : 1 ≤ len.prod := by
  induction len with
  | nil => simp
  | cons l len ih =>
    rw [List.prod_cons]
    have h1 := h l (List.mem_cons_self _ _)
    have h2 := ih (fun l1 hl1 => h l1 (List.mem_cons_of_mem _ hl1))
    exact Nat.mul_pos h1 h2

/-- For a shape whose element count fits `size_t`, the row-major strides converted to
`stride_type` give every in-bounds multi-index the offset of the exact strides: a stride
that does not fit belongs to a dimension whose only index is `0`. -/
theorem linear_offset_row_major_converted (len : List Nat) :
    ∀ idx, in_range idx len → len.prod < 2 ^ 64 →
      linear_offset idx ((row_major_strides len).map to_stride_type) =
        linear_offset idx (row_major_strides len) := by
  induction len with
  | nil =>
    intro idx h _
    cases idx with
    | nil => rfl
    | cons i idx => simp [in_range] at h
  | cons l len ih =>
    intro idx h hsize
    cases idx with
    | nil => simp [in_range] at h
    | cons i idx =>
      have hpos := prod_pos_of_pos len (in_range_pos idx len h.2)
      have hl : 1 ≤ l := by have := h.1; omega
      rw [List.prod_cons] at hsize
      have htail : len.prod < 2 ^ 64 := by
        have : 1 * len.prod ≤ l * len.prod := Nat.mul_le_mul_right _ hl
        omega
      have hhead : (i : Int) * to_stride_type ((len.prod : Nat) : Int) =
          (i : Int) * ((len.prod : Nat) : Int) := by
        by_cases hfit : len.prod < 2 ^ 63
        · rw [to_stride_type_of_fits _ (by omega) (by exact_mod_cast hfit)]
        · have hl1 : l = 1 := by
            by_contra hne
            have h2 : 2 ≤ l := by omega
            have : 2 * len.prod ≤ l * len.prod := Nat.mul_le_mul_right _ h2
            omega
          have hi0 : i = 0 := by have := h.1; omega
          subst hi0
          simp
      simp only [row_major_strides, List.map_cons, linear_offset]
      rw [ih idx h.2 htail, hhead]

/-- The offset that the strides of `default_strides` for the row-major layout give an
in-bounds multi-index, for a shape whose element count fits `size_t`. -/
theorem default_strides_row_major_offset (len idx : List Nat) (hin : in_range idx len)
    (hsize : len.prod < 2 ^ 64) :
    linear_offset idx (default_strides len Layout.ROW_MAJOR) =
      linear_offset idx (row_major_strides len) := by
  rw [default_strides_row_major_closed]
  exact linear_offset_row_major_converted len idx hin hsize

/-- A list of values of `idx_type` is unchanged by the conversion to `idx_type`. -/
theorem map_idx_type_of_lt (len : List Nat) (h : ∀ l ∈ len, l < 2 ^ 32) :
    len.map (fun l => l % 2 ^ 32) = len := by
  induction len with
  | nil => rfl
  | cons l len ih =>
    rw [List.map_cons, ih (fun l1 hl1 => h l1 (List.mem_cons_of_mem _ hl1)),
      Nat.mod_eq_of_lt (h l (List.mem_cons_self _ _))]

/-- Replacing an entry of a list of values of `idx_type` by such a value gives such a
list. -/
theorem set_idx_type_lt (len : List Nat) (dim v : Nat) (h : ∀ l ∈ len, l < 2 ^ 32)
    (hv : v < 2 ^ 32) : ∀ l ∈ len.set dim v, l < 2 ^ 32 := by
  intro l hl
  rcases List.mem_or_eq_of_mem_set hl with h1 | h1
  · exact h l h1
  · rw [h1]; exact hv

/-- When `n*sizeof(T)` does not wrap around, the block that `allocate(n)` returns holds `n`
elements. -/
theorem aligned_allocator.capacity_eq (sizeof_T n : Nat) (hT : 0 < sizeof_T)
    (h : n * sizeof_T < 2 ^ 64) : aligned_allocator.capacity sizeof_T n = n := by
  unfold aligned_allocator.capacity
  rw [Nat.mod_eq_of_lt h]
  exact Nat.mul_div_cancel _ hT

/-- When `n*sizeof(T)` does not wrap around, neither does `n`. -/
theorem lt_of_bytes_lt (sizeof_T n : Nat) (hT : 0 < sizeof_T) (h : n * sizeof_T < 2 ^ 64) :
    n < 2 ^ 64 := by
  have : n * 1 ≤ n * sizeof_T := Nat.mul_le_mul_left _ hT
  omega

/-- After `std::uninitialized_fill_n(data_, size_, val)` the addresses of the block
`[data_, data_ + size_)` hold `val` and every other address is unchanged. -/
theorem uninitialized_fill_n_effect {α : Type} (data_ : Int) (size_ : Nat) (val : α)
    (mem : Int → α) (x : Int) :
    uninitialized_fill_n data_ size_ val mem x =
      if data_ ≤ x ∧ x < data_ + (size_ : Int) then val else mem x := by
  have h : uninitialized_fill_n data_ size_ val mem =
      ((List.range size_).map (fun k : Nat => data_ + (k : Int))).foldl
        (fun m a_ => Function.update m a_ val) mem := by
    unfold uninitialized_fill_n
    rw [List.foldl_map]
  rw [h, foldl_update_value]
  have hiff : x ∈ (List.range size_).map (fun k : Nat => data_ + (k : Int)) ↔
      data_ ≤ x ∧ x < data_ + (size_ : Int) := by
    simp only [List.mem_map, List.mem_range]
    constructor
    · rintro ⟨k, hk, rfl⟩
      constructor <;> omega
    · intro ⟨h1, h2⟩
      exact ⟨(x - data_).toNat, by omega, by omega⟩
  by_cases hx : data_ ≤ x ∧ x < data_ + (size_ : Int)
  · rw [if_pos (hiff.mpr hx), if_pos hx]
  · rw [if_neg (fun h => hx (hiff.mp h)), if_neg hx]

theorem size_accumulate_mod (len : List Nat) :
    ∀ size : Nat, (len.foldl (fun size l => (size * l) % 2 ^ 64) size) % 2 ^ 64 =
      (size * len.prod) % 2 ^ 64 := by
  induction len with
  | nil => intro size; simp
  | cons l len ih =>
    intro size
    rw [List.foldl_cons, ih, List.prod_cons, Nat.mod_mul_mod, Nat.mul_assoc]

theorem size_accumulate_lt (len : List Nat) :
    ∀ size : Nat, size < 2 ^ 64 →
      len.foldl (fun size l => (size * l) % 2 ^ 64) size < 2 ^ 64 := by
  induction len with
  | nil => intro size h; exact h
  | cons l len ih =>
    intro size _
    rw [List.foldl_cons]
    exact ih _ (Nat.mod_lt _ (by norm_num))

/-- When the product of the lengths fits `size_t`, `size_` is that product. -/
theorem size_accumulate_eq (len : List Nat) (h : len.prod < 2 ^ 64) :
    len.foldl (fun size l => (size * l) % 2 ^ 64) 1 = len.prod := by
  have h1 := size_accumulate_mod len 1
  have h2 := size_accumulate_lt len 1 (by norm_num)
  rw [Nat.mod_eq_of_lt h2, Nat.one_mul, Nat.mod_eq_of_lt h] at h1
  exact h1

/-- A multi-index is within the component-wise minimum of two shapes exactly when it is
within both. -/
theorem in_range_min (idx : List Nat) :
    ∀ (len1 len2 : List Nat), len1.length = len2.length →
      (in_range idx ((List.range len1.length).map (fun i =>
          min (len1.getD i 0) (len2.getD i 0))) ↔
        in_range idx len1 ∧ in_range idx len2) := by
  have hzip : ∀ (len1 len2 : List Nat), len1.length = len2.length →
      (List.range len1.length).map (fun i => min (len1.getD i 0) (len2.getD i 0)) =
        List.zipWith min len1 len2 := by
    intro len1 len2 hlen
    apply List.ext_getElem (by simp [hlen])
    intro i h1 h2
    have hi1 : i < len1.length := by simpa using h1
    have hi2 : i < len2.length := by omega
    rw [List.getElem_map, List.getElem_range, List.getElem_zipWith,
      List.getD_eq_getElem _ _ hi1, List.getD_eq_getElem _ _ hi2]
  intro len1 len2 hlen
  rw [hzip len1 len2 hlen]
  clear hzip
  induction idx generalizing len1 len2 with
  | nil =>
    cases len1 with
    | nil => cases len2 with
      | nil => simp [in_range]
      | cons b len2 => simp at hlen
    | cons a len1 => cases len2 with
      | nil => simp at hlen
      | cons b len2 => simp [in_range]
  | cons i idx ih =>
    cases len1 with
    | nil => cases len2 with
      | nil => simp [in_range]
      | cons b len2 => simp at hlen
    | cons a len1 => cases len2 with
      | nil => simp at hlen
      | cons b len2 =>
        simp only [List.zipWith_cons_cons, in_range, ih len1 len2 (by simpa using hlen)]
        constructor
        · rintro ⟨h1, h2, h3⟩
          exact ⟨⟨by omega, h2⟩, ⟨by omega, h3⟩⟩
        · rintro ⟨⟨h1, h2⟩, ⟨h3, h4⟩⟩
          exact ⟨by omega, h2, h4⟩

/-- The address of an in-bounds element of the row-major array that `reset` leaves, for a
shape whose element count fits `size_t`. -/
theorem marray.reset_uninitialized_address (len : List Nat) (ptr : Int) (idx : List Nat)
    (hin : in_range idx len) (hsize : len.prod < 2 ^ 64) :
    (marray.reset_uninitialized len Layout.ROW_MAJOR ptr).view.address idx =
      ptr + linear_offset idx (row_major_strides len) := by
  show ptr + linear_offset idx (default_strides len Layout.ROW_MAJOR) = _
  rw [default_strides_row_major_offset len idx hin hsize]

/-- The effect of `resize` into a fresh buffer, for a new shape of values of `idx_type`
whose element count fits `size_t`: the array is the row-major array of the new shape at
`ptr`; an element within both shapes has its old value, an element outside the old shape
has the fill value, and every address outside the new buffer is unchanged. -/
theorem marray.resize_effect {α : Type} (this : marray) (len : List Nat)
    (val : α) (ptr : Int) (mem : Int → α)
    (hrank : len.length = this.len_.length) (hnarrow : ∀ l ∈ len, l < 2 ^ 32)
    (hsize : len.prod < 2 ^ 64)
    (hfresh : ∀ idx, in_range idx this.len_ →
      ¬ (ptr ≤ this.view.address idx ∧ this.view.address idx < ptr + ((len.prod : Nat) : Int))) :
    ∃ (mem1 : Int → α),
      marray.resize this len val ptr mem =
        .ok (marray.reset_uninitialized len Layout.ROW_MAJOR ptr, mem1) ∧
      (∀ idx, in_range idx len →
        (in_range idx this.len_ →
          mem1 (ptr + linear_offset idx (row_major_strides len)) =
            mem (this.view.address idx)) ∧
        (¬ in_range idx this.len_ →
          mem1 (ptr + linear_offset idx (row_major_strides len)) = val)) ∧
      (∀ x, ¬ (ptr ≤ x ∧ x < ptr + ((len.prod : Nat) : Int)) → mem1 x = mem x) := by
  have hmin := fun idx => in_range_min idx this.len_ len hrank.symm
  have hmap := map_idx_type_of_lt len hnarrow
  have hS : ∀ idx, in_range idx len →
      linear_offset idx (default_strides len Layout.ROW_MAJOR) =
        linear_offset idx (row_major_strides len) :=
    fun idx hin => default_strides_row_major_offset len idx hin hsize
  have hold : ∀ idx, in_range idx this.len_ →
      ¬ (ptr ≤ this.data_ + linear_offset idx this.stride_ ∧
        this.data_ + linear_offset idx this.stride_ < ptr + ((len.prod : Nat) : Int)) :=
    hfresh
  have hfill := uninitialized_fill_n_effect ptr len.prod val mem
  have hdst : ∀ idx, in_range idx len →
      ptr ≤ ptr + linear_offset idx (row_major_strides len) ∧
      ptr + linear_offset idx (row_major_strides len) < ptr + ((len.prod : Nat) : Int) := by
    intro idx hidx
    obtain ⟨h0, h1⟩ := row_major_offset_bounds len idx hidx
    constructor <;> omega
  have hfold := foldl_update_copy
    (fun idx => this.data_ + linear_offset idx this.stride_)
    (fun idx => ptr + linear_offset idx (default_strides len Layout.ROW_MAJOR))
    (iterator_indices ((List.range this.len_.length).map (fun i =>
      min (this.len_.getD i 0) (len.getD i 0))))
    (uninitialized_fill_n ptr len.prod val mem) (nodup_iterator_indices _)
    (by
      intro i hi j hj h
      have hi1 := ((hmin i).mp ((mem_iterator_indices _ _).mp hi)).2
      have hj1 := ((hmin j).mp ((mem_iterator_indices _ _).mp hj)).2
      have h1 : ptr + linear_offset i (default_strides len Layout.ROW_MAJOR) =
          ptr + linear_offset j (default_strides len Layout.ROW_MAJOR) := h
      rw [hS i hi1, hS j hj1] at h1
      exact row_major_offset_injective len i j hi1 hj1 (by omega))
    (by
      intro i hi j hj h
      have hi1 := ((hmin i).mp ((mem_iterator_indices _ _).mp hi)).1
      have hj1 := ((hmin j).mp ((mem_iterator_indices _ _).mp hj)).2
      have h1 : this.data_ + linear_offset i this.stride_ =
          ptr + linear_offset j (default_strides len Layout.ROW_MAJOR) := h
      rw [hS j hj1] at h1
      apply hold i hi1
      rw [h1]
      exact hdst j hj1)
  refine ⟨(iterator_indices ((List.range this.len_.length).map (fun i =>
      min (this.len_.getD i 0) (len.getD i 0)))).foldl
      (fun m idx => Function.update m
        (ptr + linear_offset idx (default_strides len Layout.ROW_MAJOR))
        (m (this.data_ + linear_offset idx this.stride_)))
      (uninitialized_fill_n ptr len.prod val mem), ?_, ?_, ?_⟩
  · have hne : ¬ len.length ≠ this.len_.length := by simp [hrank]
    simp only [marray.resize, hne, if_false, marray.reset_value, marray.empty, Layout.DEFAULT,
      marray.reset_uninitialized, marray.view, copy, if_true, const_marray_view.address,
      hmap, size_accumulate_eq len hsize]
  · intro idx hidx
    rw [← hS idx hidx]
    constructor
    · intro hin
      have hmem := (mem_iterator_indices _ _).mpr ((hmin idx).mpr ⟨hin, hidx⟩)
      have h1 := hfold.1 idx hmem
      simp only [] at h1
      rw [h1, hfill, if_neg (hold idx hin)]
      rfl
    · intro hnew
      rw [hfold.2 _ (by
        intro j hj h
        have hj0 := (hmin j).mp ((mem_iterator_indices _ _).mp hj)
        have h1 : ptr + linear_offset idx (default_strides len Layout.ROW_MAJOR) =
            ptr + linear_offset j (default_strides len Layout.ROW_MAJOR) := h
        rw [hS idx hidx, hS j hj0.2] at h1
        have hij := row_major_offset_injective len idx j hidx hj0.2 (by omega)
        exact hnew (hij ▸ hj0.1)), hfill, if_pos (by rw [hS idx hidx]; exact hdst idx hidx)]
  · intro x hx
    rw [hfold.2 _ (by
      intro j hj h
      have hj0 := (hmin j).mp ((mem_iterator_indices _ _).mp hj)
      apply hx
      have h1 : x = ptr + linear_offset j (default_strides len Layout.ROW_MAJOR) := h
      rw [h1, hS j hj0.2]
      exact hdst j hj0.2), hfill, if_neg hx]

/-! ## Claims about `resize` -/

/-- C23: after `a.swap(b)` the array `a` holds the data pointer, lengths, strides, element
count and layout that `b` had and `b` holds those of `a`; the memory, and with it every
element of either buffer, is unchanged; a second swap restores both arrays. -/
theorem swap_exchanges_members {α : Type} (a b : marray) (mem : Int → α) :
    ((marray.swap a b mem).1.1.data_ = b.data_ ∧ (marray.swap a b mem).1.1.len_ = b.len_ ∧
      (marray.swap a b mem).1.1.stride_ = b.stride_ ∧
      (marray.swap a b mem).1.1.size_ = b.size_ ∧
      (marray.swap a b mem).1.1.layout_ = b.layout_) ∧
    ((marray.swap a b mem).1.2.data_ = a.data_ ∧ (marray.swap a b mem).1.2.len_ = a.len_ ∧
      (marray.swap a b mem).1.2.stride_ = a.stride_ ∧
      (marray.swap a b mem).1.2.size_ = a.size_ ∧
      (marray.swap a b mem).1.2.layout_ = a.layout_) ∧
    (marray.swap a b mem).2 = mem ∧
    marray.swap (marray.swap a b mem).1.1 (marray.swap a b mem).1.2 (marray.swap a b mem).2 =
      ((a, b), mem) := by
  refine ⟨⟨rfl, rfl, rfl, rfl, rfl⟩, ⟨rfl, rfl, rfl, rfl, rfl⟩, rfl, rfl⟩

/-- C24: `reset()` leaves an owning array in the empty state: null data pointer, every
length zero, every stride zero, element count zero, default layout (the rank is kept).  It
releases the buffer exactly when the data pointer is not null, and `reset()` applied to the
state it leaves returns that state and releases nothing. -/
theorem reset_empties_and_is_idempotent (a : marray) :
    (marray.reset a).1.data_ = 0 ∧
    (marray.reset a).1.len_ = List.replicate a.len_.length 0 ∧
    (marray.reset a).1.stride_ = List.replicate a.stride_.length 0 ∧
    (marray.reset a).1.size_ = 0 ∧
    (marray.reset a).1.layout_ = Layout.DEFAULT ∧
    ((marray.reset a).2 = if a.data_ ≠ 0 then some (a.data_, a.size_) else none) ∧
    marray.reset (marray.reset a).1 = ((marray.reset a).1, none) := by
  refine ⟨rfl, rfl, rfl, rfl, rfl, rfl, ?_⟩
  simp [marray.reset, const_marray_view.reset, marray.view]

/-! ## Claims about transposition and `gemm` -/

/-- C26: for a rank-2 view `m`, `m^T` is a view on the same data pointer with lengths
`(len[1], len[0])` and strides `(stride[1], stride[0])`; the element `(i, j)` of the
transpose lies at the address of the element `(j, i)` of `m`, and transposing twice gives
back the lengths and strides of `m`. -/
theorem transpose_swaps_dimensions (m : marray_view) (hrank : m.ndim = 2)
    (hstride : m.stride_.length = 2) :
    ∃ t : marray_view, marray_view.transpose m = .ok t ∧ t.data_ = m.data_ ∧
      t.len_ = [m.len_.getD 1 0, m.len_.getD 0 0] ∧
      t.stride_ = [m.stride_.getD 1 0, m.stride_.getD 0 0] ∧
      (∀ i j : Nat, t.address [i, j] = m.address [j, i]) ∧
      ∃ tt : marray_view, marray_view.transpose t = .ok tt ∧ tt.data_ = m.data_ ∧
        tt.len_ = m.len_ ∧ tt.stride_ = m.stride_ := by
  obtain ⟨data_, len_, stride_⟩ := m
  simp only [const_marray_view.ndim] at hrank
  simp only at hstride
  match len_, hrank with
  | [l0, l1], _ =>
    match stride_, hstride with
    | [s0, s1], _ =>
      refine ⟨⟨data_, [l1, l0], [s1, s0]⟩, by simp [marray_view.transpose, const_marray_view.ndim],
        rfl, rfl, rfl, ?_, ⟨data_, [l0, l1], [s0, s1]⟩,
        by simp [marray_view.transpose, const_marray_view.ndim], rfl, rfl, rfl⟩
      intro i j
      simp only [const_marray_view.address, linear_offset]
      ring

/-- Witness for C26: the transpose of a row-major `2 x 3` view. -/
theorem transpose_swaps_dimensions_witness :
    ∃ t : marray_view, marray_view.transpose ⟨7, [2, 3], [3, 1]⟩ = .ok t ∧ t.data_ = 7 ∧
      t.len_ = [3, 2] ∧ t.stride_ = [1, 3] ∧
      (∀ i j : Nat, t.address [i, j] = const_marray_view.address ⟨7, [2, 3], [3, 1]⟩ [j, i]) ∧
      ∃ tt : marray_view, marray_view.transpose t = .ok tt ∧ tt.data_ = 7 ∧
        tt.len_ = [2, 3] ∧ tt.stride_ = [3, 1] :=
  transpose_swaps_dimensions ⟨7, [2, 3], [3, 1]⟩ rfl rfl

/-- C27: with the kernel carried out by the reference column-major multiply, `gemm` on the
row-major operands `A = [[1,2],[3,4]]`, `B = [[5,6],[7,8]]`, `alpha = 1`, `beta = 0`
leaves `C = [[17,28],[20,33]]`, not `A*B = [[19,22],[43,50]]`: the kernel is called with
the leading dimensions `lda = ldb = 1`.  On the same matrices stored column-major the
result is `[[19,22],[43,50]]`. -/
theorem gemm_row_major_operands :
    (gemm_effect (1 : Int) ⟨0, [2, 2], [2, 1]⟩ ⟨4, [2, 2], [2, 1]⟩ 0 ⟨8, [2, 2], [2, 1]⟩
        (memory_of [1, 2, 3, 4, 5, 6, 7, 8, 0, 0, 0, 0])).map
      (fun mem1 => const_marray_view.contents ⟨8, [2, 2], [2, 1]⟩ mem1) =
        .ok [17, 28, 20, 33] ∧
    (gemm (1 : Int) ⟨0, [2, 2], [2, 1]⟩ ⟨4, [2, 2], [2, 1]⟩ 0 ⟨8, [2, 2], [2, 1]⟩).map
      (fun call => (call.lda, call.ldb, call.ldc)) = .ok (1, 1, 2) ∧
    (gemm_effect (1 : Int) ⟨0, [2, 2], [1, 2]⟩ ⟨4, [2, 2], [1, 2]⟩ 0 ⟨8, [2, 2], [1, 2]⟩
        (memory_of [1, 3, 2, 4, 5, 7, 6, 8, 0, 0, 0, 0])).map
      (fun mem1 => const_marray_view.contents ⟨8, [2, 2], [1, 2]⟩ mem1) =
        .ok [19, 22, 43, 50] := by
  refine ⟨by decide, by decide, by decide⟩

/-- C28: the row-major operands `A` (`2 x 3`), `B` (`3 x 4`) and `C` (`2 x 4`) each have
stride 1 along dimension 1 and are conformable as passed, yet `gemm` stops at an assertion:
its asserts compare the lengths of `A` and `B` with those of the transpose of `C`. -/
theorem gemm_rejects_conformable_row_major :
    gemm (1 : Int) ⟨0, [2, 3], [3, 1]⟩ ⟨6, [3, 4], [4, 1]⟩ 0 ⟨18, [2, 4], [4, 1]⟩ =
      .error .assertion ∧
    (([2, 3] : List Nat).getD 0 0 = ([2, 4] : List Nat).getD 0 0 ∧
      ([3, 4] : List Nat).getD 1 0 = ([2, 4] : List Nat).getD 1 0 ∧
      ([2, 3] : List Nat).getD 1 0 = ([3, 4] : List Nat).getD 0 0) := by
  refine ⟨by decide, by decide⟩

/-- C29: for the row-major operands `A` (`3 x 5`), `B` (`5 x 2`) and `C` (`2 x 3`) the
checks of `gemm` pass and the kernel is called with `m = 3`, `n = 2`, `k = 5`, the lengths
of the transpose of `C`, whereas `C` as passed has 2 rows and 3 columns. -/
theorem gemm_row_major_kernel_dimensions :
    (gemm (1 : Int) ⟨0, [3, 5], [5, 1]⟩ ⟨15, [5, 2], [2, 1]⟩ 0 ⟨25, [2, 3], [3, 1]⟩).map
      (fun call => (call.m, call.n, call.k)) = .ok (3, 2, 5) ∧
    const_marray_view.len_ ⟨25, [2, 3], [3, 1]⟩ = [2, 3] := by
  refine ⟨by decide, rfl⟩

/-! ## Lemmas on `resize`, `push_back` and `pop_back` -/

/-- Whenever `resize` completes, the array is the one that `reset(len, val, DEFAULT)`
leaves, and the rank is unchanged. -/
theorem marray.resize_state {α : Type} (this : marray) (len : List Nat) (val : α) (ptr : Int)
    (mem : Int → α) (a1 : marray) (mem1 : Int → α)
    (h : marray.resize this len val ptr mem = .ok (a1, mem1)) :
    a1 = marray.reset_uninitialized len Layout.DEFAULT ptr ∧ len.length = this.len_.length := by
  unfold marray.resize at h
  split_ifs at h with hlen
  simp only [marray.reset_value, marray.empty] at h
  split at h
  · simp only [Except.ok.injEq, Prod.mk.injEq] at h
    exact ⟨h.1.symm, by simpa using hlen⟩
  · simp at h

/-- The element count that `reset(len, uninitialized, layout)` stores is the product of the
lengths modulo `2^64`. -/
theorem marray.reset_uninitialized_size (len : List Nat) (layout : Layout) (ptr : Int) :
    (marray.reset_uninitialized len layout ptr).size_ = len.prod % 2 ^ 64 := by
  have h1 := size_accumulate_mod len 1
  have h2 := size_accumulate_lt len 1 (by norm_num)
  rw [Nat.mod_eq_of_lt h2, Nat.one_mul] at h1
  exact h1

/-- Invariant of the loop of asserts of `push_back(dim, x)`. -/
theorem marray.push_back_asserts_inv (len_ xlen : List Nat) (dim : Nat) :
    ∀ (todo i j : Nat), i + todo = len_.length → j = (if i ≤ dim then i else i - 1) →
      (marray.push_back_asserts len_ xlen dim todo i j = true ↔
        ∀ k, i ≤ k → k < len_.length → k ≠ dim →
          len_.getD k 0 = xlen.getD (if k < dim then k else k - 1) 0) := by
  intro todo
  induction todo with
  | zero =>
    intro i j hi _
    simp only [marray.push_back_asserts, true_iff]
    intro k h1 h2
    omega
  | succ todo ih =>
    intro i j hi hj
    unfold marray.push_back_asserts
    by_cases hid : i = dim
    · rw [if_neg (by simpa using hid), ih (i + 1) j (by omega) (by
        rw [hj]; subst hid; simp)]
      constructor
      · intro h k h1 h2 h3
        exact h k (by omega) h2 h3
      · intro h k h1 h2 h3
        exact h k (by omega) h2 h3
    · rw [if_pos hid]
      have hj2 : j = if i < dim then i else i - 1 := by
        rw [hj]
        by_cases h : i < dim
        · rw [if_pos h, if_pos (by omega)]
        · rw [if_neg h, if_neg (by omega)]
      by_cases heq : len_.getD i 0 = xlen.getD j 0
      · rw [if_pos heq, ih (i + 1) (j + 1) (by omega) (by
          rw [hj]
          by_cases h : i ≤ dim
          · rw [if_pos h, if_pos (by omega)]
          · rw [if_neg h, if_neg (by omega)]; omega)]
        constructor
        · intro h k h1 h2 h3
          by_cases hki : k = i
          · subst hki; rw [← hj2]; exact heq
          · exact h k (by omega) h2 h3
        · intro h k h1 h2 h3
          exact h k (by omega) h2 h3
      · rw [if_neg heq]
        simp only [Bool.false_eq_true, false_iff]
        intro h
        apply heq
        rw [hj2]
        exact h i (le_refl _) (by omega) hid

/-- The asserts of `push_back(dim, x)` on the lengths hold exactly when the lengths of `x`
are the lengths of the array with position `dim` removed. -/
theorem marray.push_back_asserts_iff (len_ xlen : List Nat) (dim : Nat)
    (hdim : dim < len_.length) (hx : xlen.length + 1 = len_.length) :
    marray.push_back_asserts len_ xlen dim len_.length 0 0 = true ↔
      xlen = len_.eraseIdx dim := by
  rw [marray.push_back_asserts_inv len_ xlen dim len_.length 0 0 (by omega) (by simp)]
  have hlen : (len_.eraseIdx dim).length = xlen.length := by
    rw [List.length_eraseIdx, if_pos hdim]; omega
  constructor
  · intro h
    apply List.ext_getElem hlen.symm
    intro k h1 h2
    rw [List.getElem_eraseIdx]
    by_cases hk : k < dim
    · rw [dif_pos hk]
      have := h k (Nat.zero_le _) (by omega) (by omega)
      rw [if_pos hk, List.getD_eq_getElem _ _ (by omega), List.getD_eq_getElem _ _ h1] at this
      exact this.symm
    · rw [dif_neg hk]
      have := h (k + 1) (Nat.zero_le _) (by omega) (by omega)
      rw [if_neg (by omega), List.getD_eq_getElem _ _ (by omega), Nat.add_sub_cancel,
        List.getD_eq_getElem _ _ h1] at this
      exact this.symm
  · intro h k _ h2 h3
    subst h
    by_cases hk : k < dim
    · rw [if_pos hk, List.getD_eq_getElem _ _ h2,
        List.getD_eq_getElem _ _ (by rw [hlen]; omega), List.getElem_eraseIdx, dif_pos hk]
    · have hk1 : k - 1 + 1 = k := by omega
      rw [if_neg hk, List.getD_eq_getElem _ _ h2,
        List.getD_eq_getElem _ _ (by rw [hlen]; omega), List.getElem_eraseIdx,
        dif_neg (by omega)]
      simp only [hk1]

/-- When the rank-1 `push_back` completes, its array is the one its `resize` left. -/
theorem marray.push_back_state {α : Type} (T_default : α) (this : marray) (x : Int) (ptr : Int)
    (mem : Int → α) (a1 : marray) (mem1 : Int → α)
    (h : marray.push_back T_default this x ptr mem = .ok (a1, mem1)) :
    ∃ mem0, marray.resize this [(this.len_.getD 0 0 + 1) % 2 ^ 32] T_default ptr mem =
      .ok (a1, mem0) := by
  unfold marray.push_back at h
  by_cases hlen : this.len_.length ≠ 1
  · rw [if_pos hlen] at h
    simp at h
  · rw [if_neg hlen] at h
    split at h
    · simp at h
    · rename_i this1 mem0 hres
      split at h
      · by_cases hr : released_contains (marray.resize_released this) x
        · rw [if_pos hr] at h
          simp at h
        · rw [if_neg hr] at h
          simp only [Except.ok.injEq, Prod.mk.injEq] at h
          exact ⟨mem0, by rw [hres, h.1]⟩
      · simp at h
      · simp at h

/-- When `push_back(dim, x)` completes, its array is the one its `resize` left. -/
theorem marray.push_back_dim_state {α : Type} (T_default : α) (this : marray) (dim : Nat)
    (x : marray_view) (ptr : Int) (mem : Int → α) (a1 : marray) (mem1 : Int → α)
    (h : marray.push_back_dim T_default this dim x ptr mem = .ok (a1, mem1)) :
    ∃ mem0, marray.resize this (this.len_.set dim ((this.len_.getD dim 0 + 1) % 2 ^ 32))
      T_default ptr mem = .ok (a1, mem0) := by
  unfold marray.push_back_dim at h
  by_cases h1 : this.len_.length = 1 ∨ x.len_.length + 1 ≠ this.len_.length
  · rw [if_pos h1] at h
    simp at h
  · rw [if_neg h1] at h
    by_cases h2 : ¬ dim < this.len_.length
    · rw [if_pos h2] at h
      simp at h
    · rw [if_neg h2] at h
      by_cases h3 : ¬ marray.push_back_asserts this.len_ x.len_ dim this.len_.length 0 0 = true
      · rw [if_pos h3] at h
        simp at h
      · rw [if_neg h3] at h
        split at h
        · simp at h
        · rename_i this1 mem0 hres
          split at h
          · rename_i slice _
            by_cases hr : x.len_ = slice.len_ ∧
                ∃ p ∈ x.addresses, released_contains (marray.resize_released this) p
            · rw [if_pos hr] at h
              simp at h
            · rw [if_neg hr] at h
              split at h
              · simp only [Except.ok.injEq, Prod.mk.injEq] at h
                exact ⟨mem0, by rw [hres, h.1]⟩
              · simp at h
          · simp at h
          · simp at h

/-- When `pop_back(dim)` completes, its array is the one its `resize` left. -/
theorem marray.pop_back_dim_state {α : Type} (T_default : α) (this : marray) (dim : Nat)
    (ptr : Int) (mem : Int → α) (a1 : marray) (mem1 : Int → α)
    (h : marray.pop_back_dim T_default this dim ptr mem = .ok (a1, mem1)) :
    ∃ len, (∀ l ∈ this.len_, l < 2 ^ 32) → (∀ l ∈ len, l < 2 ^ 32) ∧
      marray.resize this len T_default ptr mem = .ok (a1, mem1) := by
  unfold marray.pop_back_dim at h
  split_ifs at h
  · unfold marray.pop_back at h
    split_ifs at h
    split at h
    · simp at h
    · rename_i state hres
      simp only [Except.ok.injEq] at h
      refine ⟨_, fun _ => ⟨?_, by rw [hres, h]⟩⟩
      intro l hl
      rw [List.mem_singleton] at hl
      rw [hl]
      exact Nat.mod_lt _ (by norm_num)
  · split at h
    · simp at h
    · rename_i state hres
      simp only [Except.ok.injEq] at h
      refine ⟨_, fun h32 => ⟨?_, by rw [hres, h]⟩⟩
      exact set_idx_type_lt _ _ _ h32 (Nat.mod_lt _ (by norm_num))

/-- The array that `reset(len, uninitialized, layout)` leaves for a shape of values of
`idx_type`: its lengths are the shape and its element count is the product of the lengths
modulo `2^64`. -/
theorem marray.reset_uninitialized_shape (len : List Nat) (layout : Layout) (ptr : Int)
    (h : ∀ l ∈ len, l < 2 ^ 32) :
    (marray.reset_uninitialized len layout ptr).len_ = len ∧
    (marray.reset_uninitialized len layout ptr).size_ = len.prod % 2 ^ 64 :=
  ⟨map_idx_type_of_lt len h, marray.reset_uninitialized_size len layout ptr⟩

/-- The row-major array that `reset` leaves for a shape of values of `idx_type`, seen as a
view. -/
theorem marray.reset_uninitialized_view (len : List Nat) (ptr : Int)
    (h : ∀ l ∈ len, l < 2 ^ 32) :
    (marray.reset_uninitialized len Layout.ROW_MAJOR ptr).view =
      ⟨ptr, len, default_strides len Layout.ROW_MAJOR⟩ := by
  simp only [marray.reset_uninitialized, marray.view, map_idx_type_of_lt len h]

/-! ## Claims about failed preconditions and about the element count -/

/-- C30: a mutating operation whose precondition is violated stops at its assertion in the
state in which it was called: `copy` and view assignment with unequal shapes and
`rotate_dim` with `dim >= ndim` leave the memory as it is; `push_back(dim, x)` of rank
`N != 1` with `dim >= N` or with a slice whose lengths are not those of the array with
`dim` removed, and `pop_back(dim)` of rank `N != 1` with `dim >= N` or `len[dim] == 0`,
leave the array and the memory as they are. -/
theorem failed_precondition_leaves_state {α : Type} (T_default : α) :
    (∀ (a b : const_marray_view) (mem : Int → α), a.len_ ≠ b.len_ →
      copy.run a b mem = .error (.assertion, mem) ∧
      marray_view.assign_view.run b a mem = .error (.assertion, mem)) ∧
    (∀ (v : marray_view) (dim : Nat) (shift : Int) (mem : Int → α), ¬ dim < v.ndim →
      marray_view.rotate_dim.run v dim shift mem = .error (.assertion, mem)) ∧
    (∀ (this : marray) (dim : Nat) (x : marray_view) (ptr : Int) (mem : Int → α),
      this.len_.length ≠ 1 → x.len_.length + 1 = this.len_.length →
      (¬ dim < this.len_.length ∨ x.len_ ≠ this.len_.eraseIdx dim) →
      marray.push_back_dim T_default this dim x ptr mem = .error (.assertion, (this, mem))) ∧
    (∀ (this : marray) (dim : Nat) (ptr : Int) (mem : Int → α),
      this.len_.length ≠ 1 → (¬ dim < this.len_.length ∨ this.len_.getD dim 0 = 0) →
      marray.pop_back_dim T_default this dim ptr mem = .error (.assertion, (this, mem))) := by
  refine ⟨?_, ?_, ?_, ?_⟩
  · intro a b mem h
    simp only [marray_view.assign_view.run, copy.run, if_neg h, and_self]
  · intro v dim shift mem h
    simp only [marray_view.rotate_dim.run, if_neg h]
  · intro this dim x ptr mem hrank hx h
    unfold marray.push_back_dim
    rw [if_neg (by
      intro hc
      rcases hc with hc | hc
      · exact hrank hc
      · exact hc hx)]
    by_cases hdim : dim < this.len_.length
    · rw [if_neg (not_not.mpr hdim)]
      have hne : x.len_ ≠ this.len_.eraseIdx dim := by
        rcases h with h | h
        · exact absurd hdim h
        · exact h
      have hass : ¬ marray.push_back_asserts this.len_ x.len_ dim this.len_.length 0 0 = true :=
        fun hc => hne ((marray.push_back_asserts_iff _ _ _ hdim hx).mp hc)
      rw [if_pos hass]
    · rw [if_pos hdim]
  · intro this dim ptr mem hrank h
    unfold marray.pop_back_dim
    rw [if_neg hrank]
    by_cases hdim : dim < this.len_.length
    · rw [if_neg (not_not.mpr hdim)]
      have h0 : this.len_.getD dim 0 = 0 := by
        rcases h with h | h
        · exact absurd hdim h
        · exact h
      rw [if_pos (by omega)]
    · rw [if_pos hdim]

/-- Witness for C30: a copy between shapes `[2]` and `[3]`, a rotation along dimension 1
of a rank-1 view, a `push_back` of a slice of length 3 onto a `2 x 2` array and a
`pop_back` along an empty dimension. -/
theorem failed_precondition_leaves_state_witness :
    copy.run ⟨0, [2], [1]⟩ ⟨5, [3], [1]⟩ (memory_of [1, 2, 3]) =
      .error (.assertion, memory_of [1, 2, 3]) ∧
    marray_view.rotate_dim.run ⟨0, [3], [1]⟩ 1 1 (memory_of [1, 2, 3]) =
      .error (.assertion, memory_of [1, 2, 3]) ∧
    marray.push_back_dim (0 : Int) ⟨0, [2, 2], [2, 1], 4, Layout.ROW_MAJOR⟩ 1 ⟨10, [3], [1]⟩
        100 (memory_of [1, 2, 3, 4]) =
      .error (.assertion, (⟨0, [2, 2], [2, 1], 4, Layout.ROW_MAJOR⟩, memory_of [1, 2, 3, 4])) ∧
    marray.pop_back_dim (0 : Int) ⟨0, [2, 0], [0, 1], 0, Layout.ROW_MAJOR⟩ 1 100
        (memory_of [1, 2, 3, 4]) =
      .error (.assertion, (⟨0, [2, 0], [0, 1], 0, Layout.ROW_MAJOR⟩, memory_of [1, 2, 3, 4])) :=
  ⟨((failed_precondition_leaves_state (0 : Int)).1 ⟨0, [2], [1]⟩ ⟨5, [3], [1]⟩ _
      (by decide)).1,
    (failed_precondition_leaves_state (0 : Int)).2.1 ⟨0, [3], [1]⟩ 1 1 _ (by decide),
    (failed_precondition_leaves_state (0 : Int)).2.2.1 _ 1 ⟨10, [3], [1]⟩ 100 _ (by decide)
      (by decide) (Or.inr (by decide)),
    (failed_precondition_leaves_state (0 : Int)).2.2.2 _ 1 100 _ (by decide)
      (Or.inr (by decide))⟩

/-- Counterexample for C25: an array of rank 4 constructed from the shape
`(65536, 65536, 65536, 65536)` stores the element count `0`, whereas the product of its
lengths is `2^64`: `size_` is accumulated in `size_t`.  An array of rank 1 constructed from
the length `4294967296`, passed as a `std::array<size_t, 1>`, stores the element count
`4294967296` and the length `0`: the length is converted to `idx_type`.  An array of rank 1
and length 3 on which `resize(4294967295)` fails to allocate is left with the element count
`4294967295` and the length `0`: `size_` is assigned before the allocation. -/
theorem element_count_wraps_around :
    (marray.reachable 4 false false (marray.reset_uninitialized [65536, 65536, 65536, 65536]
        Layout.DEFAULT 0) ∧
      (marray.reset_uninitialized [65536, 65536, 65536, 65536] Layout.DEFAULT 0).size_ = 0 ∧
      (marray.reset_uninitialized [65536, 65536, 65536, 65536] Layout.DEFAULT 0).len_.prod =
        2 ^ 64) ∧
    (marray.reachable 1 true false (marray.reset_uninitialized [4294967296] Layout.DEFAULT 0) ∧
      (marray.reset_uninitialized [4294967296] Layout.DEFAULT 0).size_ = 4294967296 ∧
      (marray.reset_uninitialized [4294967296] Layout.DEFAULT 0).len_ = [0]) ∧
    (marray.reachable 1 false true
        (marray.resize_throws (marray.reset_uninitialized [3] Layout.DEFAULT 64)
          [4294967295]) ∧
      (marray.resize_throws (marray.reset_uninitialized [3] Layout.DEFAULT 64)
        [4294967295]).size_ = 4294967295 ∧
      (marray.resize_throws (marray.reset_uninitialized [3] Layout.DEFAULT 64)
        [4294967295]).len_ = [0]) := by
  refine ⟨⟨marray.reachable.from_shape _ _ _ rfl (fun _ => by decide), by decide, by decide⟩,
    ⟨marray.reachable.from_shape _ _ _ rfl (fun h => absurd h (by decide)), by decide,
      by decide⟩,
    ⟨marray.reachable.resize_throws _ _ rfl
      (marray.reachable.from_shape [3] Layout.DEFAULT 64 rfl (fun _ => by decide)) rfl
      (fun _ => by decide), by decide, by decide⟩⟩

/-- C25 (amended): every state of an owning array of rank `ndim > 0` reachable from default
construction or construction from a shape by `resize`, `push_back`, `pop_back` on a
dimension of non-zero length, `swap` and `reset`, where every length passed is a value of
`idx_type` (below `2^32`) and no allocation fails, has its stored element count equal to the
product of its lengths modulo `2^64`, hence equal to the product when that is below
`2^64`. -/
theorem reachable_size_is_product (ndim : Nat) (hndim : 0 < ndim) (a : marray)
    (h : marray.reachable ndim false false a) :
    a.size_ = a.len_.prod % 2 ^ 64 ∧ (a.len_.prod < 2 ^ 64 → a.size_ = a.len_.prod) := by
  have key : a.len_.length = ndim ∧ (∀ l ∈ a.len_, l < 2 ^ 32) ∧
      a.size_ = a.len_.prod % 2 ^ 64 := by
    induction h with
    | default_constructed =>
      refine ⟨by simp [marray.empty], ?_, ?_⟩
      · intro l hl
        simp only [marray.empty] at hl
        rw [List.eq_of_mem_replicate hl]
        norm_num
      · obtain ⟨n, rfl⟩ : ∃ n, ndim = n + 1 := ⟨ndim - 1, by omega⟩
        simp [marray.empty, List.replicate_succ]
    | from_shape len layout ptr hlen hn =>
      obtain ⟨h1, h2⟩ := marray.reset_uninitialized_shape len layout ptr (hn rfl)
      rw [h1]
      exact ⟨hlen, hn rfl, h2⟩
    | resize a len val ptr mem a1 mem1 _ hn hres ih =>
      obtain ⟨rfl, hl⟩ := marray.resize_state a len val ptr mem a1 mem1 hres
      obtain ⟨h1, h2⟩ := marray.reset_uninitialized_shape len Layout.DEFAULT ptr (hn rfl)
      rw [h1]
      exact ⟨by rw [hl, ih.1], hn rfl, h2⟩
    | resize_throws a len ht _ _ _ _ => exact absurd ht (by decide)
    | push_back T_default a x ptr mem a1 mem1 _ hres ih =>
      obtain ⟨mem0, hr⟩ := marray.push_back_state T_default a x ptr mem a1 mem1 hres
      obtain ⟨rfl, hl⟩ := marray.resize_state a _ T_default ptr mem a1 mem0 hr
      have hn : ∀ l ∈ [(a.len_.getD 0 0 + 1) % 2 ^ 32], l < 2 ^ 32 := by
        intro l hl1
        rw [List.mem_singleton] at hl1
        rw [hl1]
        exact Nat.mod_lt _ (by norm_num)
      obtain ⟨h1, h2⟩ := marray.reset_uninitialized_shape _ Layout.DEFAULT ptr hn
      rw [h1]
      exact ⟨by rw [hl, ih.1], hn, h2⟩
    | push_back_throws a ht _ _ _ => exact absurd ht (by decide)
    | push_back_dim T_default a dim x ptr mem a1 mem1 _ hres ih =>
      obtain ⟨mem0, hr⟩ := marray.push_back_dim_state T_default a dim x ptr mem a1 mem1 hres
      obtain ⟨rfl, hl⟩ := marray.resize_state a _ T_default ptr mem a1 mem0 hr
      have hn := set_idx_type_lt a.len_ dim ((a.len_.getD dim 0 + 1) % 2 ^ 32) ih.2.1
        (Nat.mod_lt _ (by norm_num))
      obtain ⟨h1, h2⟩ := marray.reset_uninitialized_shape _ Layout.DEFAULT ptr hn
      rw [h1]
      exact ⟨by rw [hl, ih.1], hn, h2⟩
    | push_back_dim_throws a dim x ht _ _ _ _ _ _ => exact absurd ht (by decide)
    | pop_back_dim T_default a dim ptr mem a1 mem1 _ _ hres ih =>
      obtain ⟨len, hlen⟩ := marray.pop_back_dim_state T_default a dim ptr mem a1 mem1 hres
      obtain ⟨hn, hr⟩ := hlen ih.2.1
      obtain ⟨rfl, hl⟩ := marray.resize_state a len T_default ptr mem a1 mem1 hr
      obtain ⟨h1, h2⟩ := marray.reset_uninitialized_shape len Layout.DEFAULT ptr hn
      rw [h1]
      exact ⟨by rw [hl, ih.1], hn, h2⟩
    | pop_back_dim_throws a dim ht _ _ _ _ => exact absurd ht (by decide)
    | swap_this a b mem _ _ _ ihb => exact ihb
    | swap_other a b mem _ _ iha _ => exact iha
    | reset a _ ih =>
      refine ⟨by simp [marray.reset, const_marray_view.reset, marray.view, ih.1], ?_, ?_⟩
      · intro l hl
        simp only [marray.reset, const_marray_view.reset, marray.view] at hl
        rw [List.eq_of_mem_replicate hl]
        norm_num
      · obtain ⟨n, hn⟩ : ∃ n, a.len_.length = n + 1 := ⟨a.len_.length - 1, by omega⟩
        simp [marray.reset, const_marray_view.reset, marray.view, hn, List.replicate_succ]
  exact ⟨key.2.2, fun hlt => by rw [key.2.2, Nat.mod_eq_of_lt hlt]⟩

/-- Witness for C25: the array that `reset()` leaves after a `3 x 4` array was constructed
has element count `0`, the product of its lengths `(0, 0)`; the `3 x 4` array itself has
element count `12`. -/
theorem reachable_size_is_product_witness :
    ((marray.reset (marray.reset_uninitialized [3, 4] Layout.DEFAULT 64)).1.size_ =
        (marray.reset (marray.reset_uninitialized [3, 4] Layout.DEFAULT 64)).1.len_.prod %
          2 ^ 64 ∧
      ((marray.reset (marray.reset_uninitialized [3, 4] Layout.DEFAULT 64)).1.len_.prod <
          2 ^ 64 →
        (marray.reset (marray.reset_uninitialized [3, 4] Layout.DEFAULT 64)).1.size_ =
          (marray.reset (marray.reset_uninitialized [3, 4] Layout.DEFAULT 64)).1.len_.prod)) ∧
    (marray.reset_uninitialized [3, 4] Layout.DEFAULT 64).size_ = 12 :=
  ⟨reachable_size_is_product 2 (by decide) _
      (marray.reachable.reset _
        (marray.reachable.from_shape [3, 4] Layout.DEFAULT 64 rfl (fun _ => by decide))),
    by decide⟩

theorem eraseIdx_set_self (l dim : Nat) (len : List Nat) (h : dim < len.length) :
    (len.set dim l).eraseIdx dim = len.eraseIdx dim ∧ (len.set dim l).getD dim 0 = l := by
  rw [set_eq_insert_at l dim len h]
  exact eraseIdx_insert_at l dim (len.eraseIdx dim)
    (by rw [List.length_eraseIdx, if_pos h]; omega)

/-- A multi-index within a shape stays within it when the length along `dim` is replaced
by one above its index along `dim`. -/
theorem in_range_set (idx len : List Nat) (l dim : Nat) (hdim : dim < len.length)
    (h : in_range idx len) (hl : idx.getD dim 0 < l) : in_range idx (len.set dim l) := by
  have hlen := in_range_length idx len h
  obtain ⟨h1, _⟩ := in_range_eraseIdx dim idx len hdim h
  have e := eraseIdx_set_self l dim len hdim
  have h2 := in_range_insert_at (idx.getD dim 0) dim (idx.eraseIdx dim) (len.set dim l)
    (by simpa using hdim) (by rw [e.1]; exact h1) (by rw [e.2]; exact hl)
  rwa [insert_at_eraseIdx dim idx (by omega)] at h2

/-- A view none of whose elements lies in a released block has no address in it. -/
theorem not_reads_released (x : const_marray_view) (block : Option (Int × Nat))
    (h : ∀ sub, in_range sub x.len_ → ¬ released_contains block (x.address sub)) :
    ¬ ∃ p ∈ x.addresses, released_contains block p := by
  rintro ⟨p, hp, hrel⟩
  simp only [const_marray_view.addresses, List.mem_map] at hp
  obtain ⟨sub, hsub, rfl⟩ := hp
  exact h sub ((mem_iterator_indices _ _).mp hsub) hrel

/-- The effect of `push_back(dim, x)` on an array of rank `N != 1` into a fresh buffer, for
a slice `x` that lies outside the buffer which `resize` releases. -/
theorem marray.push_back_dim_effect {α : Type} (T_default : α) (this : marray) (dim : Nat)
    (x : marray_view) (ptr : Int) (mem : Int → α)
    (hrank : this.len_.length ≠ 1) (hdim : dim < this.len_.length)
    (hx : x.len_ = this.len_.eraseIdx dim)
    (hlen32 : ∀ l ∈ this.len_, l < 2 ^ 32)
    (hidx : this.len_.getD dim 0 + 1 < 2 ^ 32)
    (hsize : (this.len_.set dim (this.len_.getD dim 0 + 1)).prod < 2 ^ 64)
    (hfresh : ∀ idx, in_range idx this.len_ →
      ¬ (ptr ≤ this.view.address idx ∧ this.view.address idx <
        ptr + (((this.len_.set dim (this.len_.getD dim 0 + 1)).prod : Nat) : Int)))
    (hxfresh : ∀ sub, in_range sub x.len_ →
      ¬ (ptr ≤ x.address sub ∧ x.address sub <
        ptr + (((this.len_.set dim (this.len_.getD dim 0 + 1)).prod : Nat) : Int)))
    (hxlive : ∀ sub, in_range sub x.len_ →
      ¬ released_contains (marray.resize_released this) (x.address sub)) :
    ∃ (mem1 : Int → α),
      marray.push_back_dim T_default this dim x ptr mem =
        .ok (marray.reset_uninitialized (this.len_.set dim (this.len_.getD dim 0 + 1))
          Layout.ROW_MAJOR ptr, mem1) ∧
      (∀ idx, in_range idx this.len_ →
        mem1 (ptr + linear_offset idx
          (row_major_strides (this.len_.set dim (this.len_.getD dim 0 + 1)))) =
            mem (this.view.address idx)) ∧
      (∀ sub, in_range sub x.len_ →
        mem1 (ptr + linear_offset (insert_at (this.len_.getD dim 0) dim sub)
          (row_major_strides (this.len_.set dim (this.len_.getD dim 0 + 1)))) =
            mem (x.address sub)) ∧
      (∀ y, ¬ (ptr ≤ y ∧ y < ptr +
          (((this.len_.set dim (this.len_.getD dim 0 + 1)).prod : Nat) : Int)) →
        mem1 y = mem y) := by
  have hnr := not_reads_released x (marray.resize_released this) hxlive
  have hn' := set_idx_type_lt this.len_ dim (this.len_.getD dim 0 + 1) hlen32 hidx
  generalize hL : this.len_.getD dim 0 = L at *
  generalize hlen' : this.len_.set dim (L + 1) = len' at *
  have hlen'len : len'.length = this.len_.length := by rw [← hlen']; simp
  have hes := eraseIdx_set_self (L + 1) dim this.len_ hdim
  rw [hlen'] at hes
  obtain ⟨mem1, hres, helem, hout⟩ := marray.resize_effect this len' T_default ptr mem
    hlen'len hn' hsize hfresh
  have hxlen : x.len_.length + 1 = this.len_.length := by
    rw [hx, List.length_eraseIdx, if_pos hdim]; omega
  have hS : ∀ idx, in_range idx len' →
      linear_offset idx (default_strides len' Layout.ROW_MAJOR) =
        linear_offset idx (row_major_strides len') :=
    fun idx hin => default_strides_row_major_offset len' idx hin hsize
  have hSlen : (default_strides len' Layout.ROW_MAJOR).length = len'.length :=
    default_strides_length len' Layout.ROW_MAJOR
  -- the view of the new array and its last slice
  let v1 : const_marray_view := ⟨ptr, len', default_strides len' Layout.ROW_MAJOR⟩
  have hv1wf : v1.WF := ⟨by show 0 < len'.length; omega, hSlen⟩
  have hv1dim : dim < v1.ndim := by show dim < len'.length; omega
  have hslice : ∀ sub, in_range sub x.len_ →
      ptr + ((L : Nat) : Int) * (default_strides len' Layout.ROW_MAJOR).getD dim 0 +
          linear_offset sub ((default_strides len' Layout.ROW_MAJOR).eraseIdx dim) =
        ptr + linear_offset (insert_at L dim sub) (row_major_strides len') ∧
      in_range (insert_at L dim sub) len' := by
    intro sub hsub
    have hsub' : in_range sub (v1.len_.eraseIdx dim) := by
      show in_range sub (len'.eraseIdx dim)
      rw [hes.1, ← hx]; exact hsub
    have hj : L < v1.len_.getD dim 0 := by
      show L < len'.getD dim 0
      rw [hes.2]; omega
    have h1 := address_insert_at v1 dim L sub hv1wf hv1dim hsub' hj
    have h2 := in_range_insert_at L dim sub len' (by omega) hsub' hj
    refine ⟨?_, h2⟩
    have h3 : v1.address (insert_at L dim sub) =
        ptr + linear_offset (insert_at L dim sub) (row_major_strides len') := by
      show ptr + linear_offset (insert_at L dim sub)
        (default_strides len' Layout.ROW_MAJOR) = _
      rw [hS _ h2]
    rw [← h3, h1]
    simp only [fiber_cell]
    show _ = ptr + _ + _
    ring
  have hblock : ∀ idx, in_range idx len' →
      ptr ≤ ptr + linear_offset idx (row_major_strides len') ∧
      ptr + linear_offset idx (row_major_strides len') < ptr + ((len'.prod : Nat) : Int) := by
    intro idx hidx'
    obtain ⟨h0, h1⟩ := row_major_offset_bounds len' idx hidx'
    constructor <;> omega
  have hfold := foldl_update_copy (fun sub => x.data_ + linear_offset sub x.stride_)
    (fun sub => ptr + ((L : Nat) : Int) * (default_strides len' Layout.ROW_MAJOR).getD dim 0 +
      linear_offset sub ((default_strides len' Layout.ROW_MAJOR).eraseIdx dim))
    (iterator_indices x.len_) mem1 (nodup_iterator_indices _)
    (by
      intro i hi j hj h
      have hi1 := hslice i ((mem_iterator_indices _ _).mp hi)
      have hj1 := hslice j ((mem_iterator_indices _ _).mp hj)
      have h' : ptr + ((L : Nat) : Int) * (default_strides len' Layout.ROW_MAJOR).getD dim 0 +
          linear_offset i ((default_strides len' Layout.ROW_MAJOR).eraseIdx dim) =
        ptr + ((L : Nat) : Int) * (default_strides len' Layout.ROW_MAJOR).getD dim 0 +
          linear_offset j ((default_strides len' Layout.ROW_MAJOR).eraseIdx dim) := h
      rw [hi1.1, hj1.1] at h'
      have heq := row_major_offset_injective len' _ _ hi1.2 hj1.2 (by omega)
      have hle : ∀ sub, in_range sub x.len_ → dim ≤ sub.length := by
        intro sub hsub
        rw [in_range_length _ _ hsub]; omega
      have e1 := (eraseIdx_insert_at L dim i (hle i ((mem_iterator_indices _ _).mp hi))).1
      have e2 := (eraseIdx_insert_at L dim j (hle j ((mem_iterator_indices _ _).mp hj))).1
      rw [← e1, ← e2, heq])
    (by
      intro i hi j hj h
      have hj1 := hslice j ((mem_iterator_indices _ _).mp hj)
      have h' : x.data_ + linear_offset i x.stride_ =
        ptr + ((L : Nat) : Int) * (default_strides len' Layout.ROW_MAJOR).getD dim 0 +
          linear_offset j ((default_strides len' Layout.ROW_MAJOR).eraseIdx dim) := h
      rw [hj1.1] at h'
      apply hxfresh i ((mem_iterator_indices _ _).mp hi)
      have hxa : x.address i = x.data_ + linear_offset i x.stride_ := rfl
      rw [hxa, h']
      exact hblock _ hj1.2)
  refine ⟨(iterator_indices x.len_).foldl
      (fun m sub => Function.update m
        (ptr + ((L : Nat) : Int) * (default_strides len' Layout.ROW_MAJOR).getD dim 0 +
          linear_offset sub ((default_strides len' Layout.ROW_MAJOR).eraseIdx dim))
        (m (x.data_ + linear_offset sub x.stride_))) mem1, ?_, ?_, ?_, ?_⟩
  · have hback : const_marray_view.back_dim
          ⟨ptr, len', default_strides len' Layout.ROW_MAJOR⟩ dim =
        .ok (.view ⟨ptr + ((L : Nat) : Int) *
            (default_strides len' Layout.ROW_MAJOR).getD dim 0, x.len_,
          (default_strides len' Layout.ROW_MAJOR).eraseIdx dim⟩) := by
      have h1 : ¬ len'.length = 1 := by omega
      have h2 : dim < len'.length := by omega
      have h3 : 0 < len'.getD dim 0 := by rw [hes.2]; omega
      have h4 : len'.getD dim 0 - 1 = L := by rw [hes.2]; omega
      simp only [const_marray_view.back_dim, const_marray_view.front_dim,
        const_marray_view.ndim, if_neg h1, if_pos h2, if_pos h3,
        take_drop_succ_eq_eraseIdx len' dim len'.length rfl,
        take_drop_succ_eq_eraseIdx (default_strides len' Layout.ROW_MAJOR) dim len'.length
          hSlen, h4, hes.1, ← hx]
    have hass : marray.push_back_asserts this.len_ x.len_ dim this.len_.length 0 0 = true :=
      (marray.push_back_asserts_iff _ _ _ hdim hxlen).mpr hx
    unfold marray.push_back_dim
    rw [if_neg (by
      intro hc
      rcases hc with hc | hc
      · exact hrank hc
      · exact hc hxlen), if_neg (not_not.mpr hdim), if_neg (not_not.mpr hass),
      hL, Nat.mod_eq_of_lt hidx, hlen', hres]
    simp only [marray.reset_uninitialized_view len' ptr hn', hback, true_and, if_neg hnr, copy,
      if_true, const_marray_view.address]
  · intro idx hin
    have hin' : in_range idx len' := by
      rw [← hlen']
      have hlt := (in_range_eraseIdx dim idx this.len_ hdim hin).2
      exact in_range_set idx this.len_ (L + 1) dim hdim hin (by omega)
    rw [hfold.2 _ (by
      intro j hj h
      have hj1 := hslice j ((mem_iterator_indices _ _).mp hj)
      have h' : ptr + linear_offset idx (row_major_strides len') =
          ptr + ((L : Nat) : Int) * (default_strides len' Layout.ROW_MAJOR).getD dim 0 +
            linear_offset j ((default_strides len' Layout.ROW_MAJOR).eraseIdx dim) := h
      rw [hj1.1] at h'
      have heq := row_major_offset_injective len' _ _ hin' hj1.2 (by omega)
      have hlt := (in_range_eraseIdx dim idx this.len_ hdim hin).2
      have hle : dim ≤ j.length := by
        rw [in_range_length _ _ ((mem_iterator_indices _ _).mp hj)]; omega
      rw [heq, (eraseIdx_insert_at L dim j hle).2] at hlt
      omega)]
    exact (helem idx hin').1 hin
  · intro sub hsub
    have h1 := hfold.1 sub ((mem_iterator_indices _ _).mpr hsub)
    simp only [] at h1
    rw [← (hslice sub hsub).1, h1]
    exact hout _ (hxfresh sub hsub)
  · intro y hy
    rw [hfold.2 _ (by
      intro j hj h
      have hj1 := hslice j ((mem_iterator_indices _ _).mp hj)
      have h' : y = ptr + ((L : Nat) : Int) *
            (default_strides len' Layout.ROW_MAJOR).getD dim 0 +
            linear_offset j ((default_strides len' Layout.ROW_MAJOR).eraseIdx dim) := h
      rw [hj1.1] at h'
      apply hy
      rw [h']
      exact hblock _ hj1.2)]
    exact hout y hy

theorem prod_insert_at (j : Nat) :
    ∀ (dim : Nat) (sub : List Nat), dim ≤ sub.length →
      (insert_at j dim sub).prod = j * sub.prod := by
  intro dim
  induction dim with
  | zero => intro sub _; simp [insert_at]
  | succ dim ih =>
    intro sub h
    cases sub with
    | nil => simp at h
    | cons i sub =>
      simp only [insert_at, List.prod_cons, ih sub (by simpa using h)]
      ring

/-- The product of a shape whose length along `dim` is replaced by `l`. -/
theorem prod_set (l dim : Nat) (len : List Nat) (h : dim < len.length) :
    (len.set dim l).prod = l * (len.eraseIdx dim).prod := by
  rw [set_eq_insert_at l dim len h]
  exact prod_insert_at l dim _ (by rw [List.length_eraseIdx, if_pos h]; omega)

/-- The effect of the rank-1 `push_back(x)` into a fresh buffer, for an element `x` that
lies outside the buffer which `resize` releases. -/
theorem marray.push_back_effect {α : Type} (T_default : α) (this : marray) (x : Int)
    (ptr : Int) (mem : Int → α) (n : Nat) (hlen : this.len_ = [n]) (hidx : n + 1 < 2 ^ 32)
    (hfresh : ∀ i, i < n →
      ¬ (ptr ≤ this.view.address [i] ∧ this.view.address [i] < ptr + ((n : Int) + 1)))
    (hxfresh : ¬ (ptr ≤ x ∧ x < ptr + ((n : Int) + 1)))
    (hxlive : ¬ released_contains (marray.resize_released this) x) :
    ∃ (mem1 : Int → α),
      marray.push_back T_default this x ptr mem =
        .ok (marray.reset_uninitialized [n + 1] Layout.ROW_MAJOR ptr, mem1) ∧
      (∀ i, i < n → mem1 (ptr + (i : Int)) = mem (this.view.address [i])) ∧
      mem1 (ptr + (n : Int)) = mem x ∧
      (∀ y, ¬ (ptr ≤ y ∧ y < ptr + ((n : Int) + 1)) → mem1 y = mem y) := by
  have hprod : (([n + 1] : List Nat).prod : Int) = (n : Int) + 1 := by simp
  have hn' : ∀ l ∈ ([n + 1] : List Nat), l < 2 ^ 32 := by
    intro l hl
    rw [List.mem_singleton] at hl
    rw [hl]; exact hidx
  obtain ⟨mem1, hres, helem, hout⟩ := marray.resize_effect this [n + 1] T_default ptr mem
    (by rw [hlen]; rfl) hn' (by simp; omega)
    (by
      intro idx hin
      rw [hlen] at hin
      match idx, hin with
      | [i], hin =>
        rw [hprod]
        exact hfresh i hin.1)
  have hoff : ∀ i : Nat, ptr + linear_offset [i] (row_major_strides [n + 1]) =
      ptr + (i : Int) := by
    intro i
    simp [linear_offset, row_major_strides]
  have hstr : default_strides [n + 1] Layout.ROW_MAJOR = [1] := rfl
  refine ⟨Function.update mem1 (ptr + (n : Int)) (mem1 x), ?_, ?_, ?_, ?_⟩
  · have hback : const_marray_view.back ⟨ptr, [n + 1], [1]⟩ =
        .ok (.scalar (ptr + (n : Int))) := by
      simp [const_marray_view.back, const_marray_view.ndim]
    unfold marray.push_back
    rw [if_neg (by rw [hlen]; simp)]
    simp only [hlen, List.getD_cons_zero, Nat.mod_eq_of_lt hidx]
    rw [hres]
    simp only [marray.reset_uninitialized_view [n + 1] ptr hn', hstr, hback, if_neg hxlive]
  · intro i hi
    rw [Function.update_noteq (by omega)]
    have h1 := (helem [i] (by simp [in_range]; omega)).1 (by rw [hlen]; simp [in_range, hi])
    rw [hoff] at h1
    exact h1
  · rw [Function.update_same]
    exact hout x (by rw [hprod]; exact hxfresh)
  · intro y hy
    rw [Function.update_noteq (by omega)]
    exact hout y (by rw [hprod]; exact hy)

/-- The effect of `pop_back(dim)` into a fresh buffer. -/
theorem marray.pop_back_dim_effect {α : Type} (T_default : α) (this : marray) (dim : Nat)
    (ptr : Int) (mem : Int → α)
    (hdim : dim < this.len_.length) (hpos : 0 < this.len_.getD dim 0)
    (hlen32 : ∀ l ∈ this.len_, l < 2 ^ 32)
    (hsize : (this.len_.set dim (this.len_.getD dim 0 - 1)).prod < 2 ^ 64)
    (hfresh : ∀ idx, in_range idx this.len_ →
      ¬ (ptr ≤ this.view.address idx ∧ this.view.address idx <
        ptr + (((this.len_.set dim (this.len_.getD dim 0 - 1)).prod : Nat) : Int))) :
    ∃ (mem1 : Int → α),
      marray.pop_back_dim T_default this dim ptr mem =
        .ok (marray.reset_uninitialized (this.len_.set dim (this.len_.getD dim 0 - 1))
          Layout.ROW_MAJOR ptr, mem1) ∧
      (∀ idx, in_range idx this.len_ → idx.getD dim 0 < this.len_.getD dim 0 - 1 →
        mem1 (ptr + linear_offset idx
          (row_major_strides (this.len_.set dim (this.len_.getD dim 0 - 1)))) =
            mem (this.view.address idx)) ∧
      (∀ y, ¬ (ptr ≤ y ∧ y < ptr +
          (((this.len_.set dim (this.len_.getD dim 0 - 1)).prod : Nat) : Int)) →
        mem1 y = mem y) := by
  have hidx : this.len_.getD dim 0 < 2 ^ 32 := by
    apply hlen32
    rw [List.getD_eq_getElem _ _ hdim]
    exact List.getElem_mem _
  have hmod : (this.len_.getD dim 0 + (2 ^ 32 - 1)) % 2 ^ 32 = this.len_.getD dim 0 - 1 := by
    omega
  obtain ⟨mem1, hres, helem, hout⟩ := marray.resize_effect this
    (this.len_.set dim (this.len_.getD dim 0 - 1)) T_default ptr mem (by simp)
    (set_idx_type_lt this.len_ dim _ hlen32 (by omega)) hsize hfresh
  refine ⟨mem1, ?_, ?_, hout⟩
  · unfold marray.pop_back_dim
    by_cases h1 : this.len_.length = 1
    · have hd0 : dim = 0 := by omega
      subst hd0
      rw [if_pos h1, if_pos rfl]
      unfold marray.pop_back
      rw [if_neg (not_not.mpr h1), hmod]
      have hset : this.len_.set 0 (this.len_.getD 0 0 - 1) = [this.len_.getD 0 0 - 1] := by
        match hl : this.len_, h1 with
        | [l], _ => simp
      rw [← hset, hres]
    · rw [if_neg h1, if_neg (not_not.mpr hdim), if_neg (not_not.mpr hpos), hmod, hres]
  · intro idx hin hlt
    exact (helem idx (in_range_set idx this.len_ _ dim hdim hin hlt)).1 hin

/-! ## Claims about `push_back` and `pop_back` -/

/-- The array that `reset(len, uninitialized, layout)` leaves for a shape of values of
`idx_type` whose element count times `sizeof(T)` fits `size_t`: its lengths are the shape and
the block allocated for it holds as many elements as the shape has. -/
theorem marray.reset_uninitialized_capacity (len : List Nat) (layout : Layout) (ptr : Int)
    (sizeof_T : Nat) (hn : ∀ l ∈ len, l < 2 ^ 32) (hT : 0 < sizeof_T)
    (hbytes : len.prod * sizeof_T < 2 ^ 64) :
    (marray.reset_uninitialized len layout ptr).len_ = len ∧
    aligned_allocator.capacity sizeof_T (marray.reset_uninitialized len layout ptr).size_ =
      (marray.reset_uninitialized len layout ptr).len_.prod := by
  have hsize := lt_of_bytes_lt sizeof_T len.prod hT hbytes
  obtain ⟨h1, h2⟩ := marray.reset_uninitialized_shape len layout ptr hn
  rw [h1, h2, Nat.mod_eq_of_lt hsize]
  exact ⟨rfl, aligned_allocator.capacity_eq sizeof_T len.prod hT hbytes⟩

/-- Counterexample for C21: a `4294967295 x 0` array and a slice of length `0` pass the
asserts of `push_back(0, x)`; the increment of the length wraps around to `0`, the array is
resized to `0 x 0`, and `back(0)` stops at its assertion.  On a `2 x 2` array `push_back(0, x)`
with `x` the first row of the array itself, and on a rank-1 array of length 3 `push_back(x)`
with `x` its first element, read `x` from the buffer that `resize` has released. -/
theorem push_back_length_wraps :
    Run.outcome (marray.push_back_dim (0 : Int)
      (marray.reset_uninitialized [4294967295, 0] Layout.DEFAULT 64) 0 ⟨0, [0], [1]⟩ 128
      (memory_of [])) =
      .error (.assertion, ⟨128, [0, 0], [0, 1], 0, Layout.ROW_MAJOR⟩) ∧
    (marray.reset_uninitialized [4294967295, 0] Layout.DEFAULT 64).len_ = [4294967295, 0] ∧
    Run.outcome (marray.push_back_dim (0 : Int) ⟨16, [2, 2], [2, 1], 4, Layout.ROW_MAJOR⟩ 0
      ⟨16, [2], [1]⟩ 128 (memory_of [])) =
      .error (.undefined, ⟨128, [3, 2], [2, 1], 6, Layout.ROW_MAJOR⟩) ∧
    Run.outcome (marray.push_back (0 : Int) ⟨16, [3], [1], 3, Layout.ROW_MAJOR⟩ 16 128
      (memory_of [])) =
      .error (.undefined, ⟨128, [4], [1], 4, Layout.ROW_MAJOR⟩) := by
  refine ⟨by decide, by decide, by decide, by decide⟩

/-- C21 (amended): let the lengths of an owning array be values of `idx_type`, let its
length `L` along `dim` satisfy `L + 1 < 2^32`, let the element count of the grown shape times
`sizeof(T)` be below `2^64`, let the new buffer contain no element of the array or of `x`,
and let `x` lie outside the buffer of the array, which `resize` releases before `x` is read.
For rank `N >= 2`, `dim < N` and a view `x` whose lengths are those of the array with `dim`
removed, `push_back(dim, x)` completes; the length along `dim` is then `L + 1`, the other
lengths are unchanged, the new buffer holds as many elements as the grown shape has, every
element present before has its value at the same multi-index, and the slice at index `L`
along `dim` equals `x` element-wise.  For rank 1, `push_back(x)` completes with length
`n + 1`, the elements `0 .. n-1` unchanged and the element `n` equal to `x`. -/
theorem push_back_appends_slice {α : Type} (T_default : α) (this : marray) (ptr : Int)
    (mem : Int → α) (sizeof_T : Nat) (hT : 0 < sizeof_T) :
    (∀ (dim : Nat) (x : marray_view), 2 ≤ this.len_.length → dim < this.len_.length →
      x.len_ = this.len_.eraseIdx dim → (∀ l ∈ this.len_, l < 2 ^ 32) →
      this.len_.getD dim 0 + 1 < 2 ^ 32 →
      (this.len_.set dim (this.len_.getD dim 0 + 1)).prod * sizeof_T < 2 ^ 64 →
      (∀ idx, in_range idx this.len_ →
        ¬ (ptr ≤ this.view.address idx ∧ this.view.address idx <
          ptr + (((this.len_.set dim (this.len_.getD dim 0 + 1)).prod : Nat) : Int))) →
      (∀ sub, in_range sub x.len_ →
        ¬ (ptr ≤ x.address sub ∧ x.address sub <
          ptr + (((this.len_.set dim (this.len_.getD dim 0 + 1)).prod : Nat) : Int))) →
      (∀ sub, in_range sub x.len_ →
        ¬ released_contains (marray.resize_released this) (x.address sub)) →
      ∃ (arr : marray) (mem1 : Int → α),
        marray.push_back_dim T_default this dim x ptr mem = .ok (arr, mem1) ∧
        arr.len_ = this.len_.set dim (this.len_.getD dim 0 + 1) ∧
        aligned_allocator.capacity sizeof_T arr.size_ = arr.len_.prod ∧
        (∀ idx, in_range idx this.len_ →
          mem1 (arr.view.address idx) = mem (this.view.address idx)) ∧
        (∀ sub, in_range sub x.len_ →
          mem1 (arr.view.address (insert_at (this.len_.getD dim 0) dim sub)) =
            mem (x.address sub))) ∧
    (∀ (n : Nat) (x : Int), this.len_ = [n] → n + 1 < 2 ^ 32 → (n + 1) * sizeof_T < 2 ^ 64 →
      (∀ i, i < n →
        ¬ (ptr ≤ this.view.address [i] ∧ this.view.address [i] < ptr + ((n : Int) + 1))) →
      ¬ (ptr ≤ x ∧ x < ptr + ((n : Int) + 1)) →
      ¬ released_contains (marray.resize_released this) x →
      ∃ (arr : marray) (mem1 : Int → α),
        marray.push_back T_default this x ptr mem = .ok (arr, mem1) ∧
        arr.len_ = [n + 1] ∧
        aligned_allocator.capacity sizeof_T arr.size_ = arr.len_.prod ∧
        (∀ i, i < n → mem1 (arr.view.address [i]) = mem (this.view.address [i])) ∧
        mem1 (arr.view.address [n]) = mem x) := by
  constructor
  · intro dim x hrank hdim hx hlen32 hidx hbytes hfresh hxfresh hxlive
    have hsize := lt_of_bytes_lt sizeof_T _ hT hbytes
    have hn' := set_idx_type_lt this.len_ dim (this.len_.getD dim 0 + 1) hlen32 hidx
    obtain ⟨mem1, hres, hold, hnew, _⟩ := marray.push_back_dim_effect T_default this dim x ptr
      mem (by omega) hdim hx hlen32 hidx hsize hfresh hxfresh hxlive
    obtain ⟨hl, hcap⟩ := marray.reset_uninitialized_capacity _ Layout.ROW_MAJOR ptr sizeof_T
      hn' hT hbytes
    refine ⟨_, mem1, hres, hl, hcap, ?_, ?_⟩
    · intro idx hin
      have hin' := in_range_set idx this.len_ (this.len_.getD dim 0 + 1) dim hdim hin
        (by have := (in_range_eraseIdx dim idx this.len_ hdim hin).2; omega)
      rw [marray.reset_uninitialized_address _ ptr idx hin' hsize]
      exact hold idx hin
    · intro sub hsub
      have hes := eraseIdx_set_self (this.len_.getD dim 0 + 1) dim this.len_ hdim
      have hin' := in_range_insert_at (this.len_.getD dim 0) dim sub
        (this.len_.set dim (this.len_.getD dim 0 + 1)) (by simpa using hdim)
        (by rw [hes.1, ← hx]; exact hsub) (by rw [hes.2]; omega)
      rw [marray.reset_uninitialized_address _ ptr _ hin' hsize]
      exact hnew sub hsub
  · intro n x hlen hidx hbytes hfresh hxfresh hxlive
    obtain ⟨mem1, hres, hold, hnew, _⟩ := marray.push_back_effect T_default this x ptr mem n
      hlen hidx hfresh hxfresh hxlive
    have hn' : ∀ l ∈ ([n + 1] : List Nat), l < 2 ^ 32 := by
      intro l hl
      rw [List.mem_singleton] at hl
      rw [hl]; exact hidx
    have hbytes' : ([n + 1] : List Nat).prod * sizeof_T < 2 ^ 64 := by simpa using hbytes
    have hsize := lt_of_bytes_lt sizeof_T _ hT hbytes'
    obtain ⟨hl, hcap⟩ := marray.reset_uninitialized_capacity [n + 1] Layout.ROW_MAJOR ptr
      sizeof_T hn' hT hbytes'
    have hoff : ∀ i : Nat, i < n + 1 →
        (marray.reset_uninitialized [n + 1] Layout.ROW_MAJOR ptr).view.address [i] =
          ptr + (i : Int) := by
      intro i hi
      rw [marray.reset_uninitialized_address [n + 1] ptr [i] ⟨hi, trivial⟩ hsize]
      simp [linear_offset, row_major_strides]
    refine ⟨_, mem1, hres, hl, hcap, ?_, ?_⟩
    · intro i hi
      rw [hoff i (by omega)]
      exact hold i hi
    · rw [hoff n (by omega)]
      exact hnew

/-- Witness for C21: the row `(7, 8)` appended along dimension 0 to the `2 x 2` array
`[[1,2],[3,4]]` at address 8, and the value `7` appended to the rank-1 array `[1,2,3]` at
address 8. -/
theorem push_back_appends_slice_witness :
    (∃ (arr : marray) (mem1 : Int → Int),
      marray.push_back_dim (0 : Int) ⟨8, [2, 2], [2, 1], 4, Layout.ROW_MAJOR⟩ 0
        ⟨12, [2], [1]⟩ 100 (memory_of [0, 0, 0, 0, 0, 0, 0, 0, 1, 2, 3, 4, 7, 8]) =
          .ok (arr, mem1) ∧
      arr.len_ = [3, 2] ∧
      aligned_allocator.capacity 8 arr.size_ = arr.len_.prod ∧
      (∀ idx, in_range idx [2, 2] →
        mem1 (arr.view.address idx) =
          memory_of [0, 0, 0, 0, 0, 0, 0, 0, 1, 2, 3, 4, 7, 8]
            (const_marray_view.address ⟨8, [2, 2], [2, 1]⟩ idx)) ∧
      (∀ sub, in_range sub [2] →
        mem1 (arr.view.address (insert_at 2 0 sub)) =
          memory_of [0, 0, 0, 0, 0, 0, 0, 0, 1, 2, 3, 4, 7, 8]
            (const_marray_view.address ⟨12, [2], [1]⟩ sub))) ∧
    (∃ (arr : marray) (mem1 : Int → Int),
      marray.push_back (0 : Int) ⟨8, [3], [1], 3, Layout.ROW_MAJOR⟩ 11 100
        (memory_of [0, 0, 0, 0, 0, 0, 0, 0, 1, 2, 3, 7]) = .ok (arr, mem1) ∧
      arr.len_ = [4] ∧
      aligned_allocator.capacity 8 arr.size_ = arr.len_.prod ∧
      (∀ i, i < 3 → mem1 (arr.view.address [i]) =
        memory_of [0, 0, 0, 0, 0, 0, 0, 0, 1, 2, 3, 7]
          (const_marray_view.address ⟨8, [3], [1]⟩ [i])) ∧
      mem1 (arr.view.address [3]) = memory_of [0, 0, 0, 0, 0, 0, 0, 0, 1, 2, 3, 7] 11) ∧
    (marray.push_back_dim (0 : Int) ⟨8, [2, 2], [2, 1], 4, Layout.ROW_MAJOR⟩ 0
        ⟨12, [2], [1]⟩ 100 (memory_of [0, 0, 0, 0, 0, 0, 0, 0, 1, 2, 3, 4, 7, 8])).toOption.map
      (fun r => (r.1.len_, const_marray_view.contents r.1.view r.2)) =
        some ([3, 2], [1, 2, 3, 4, 7, 8]) ∧
    (marray.push_back (0 : Int) ⟨8, [3], [1], 3, Layout.ROW_MAJOR⟩ 11 100
        (memory_of [0, 0, 0, 0, 0, 0, 0, 0, 1, 2, 3, 7])).toOption.map
      (fun r => (r.1.len_, const_marray_view.contents r.1.view r.2)) =
        some ([4], [1, 2, 3, 7]) := by
  have key1 : ∀ idx ∈ iterator_indices [2, 2],
      ¬ ((100 : Int) ≤ const_marray_view.address ⟨8, [2, 2], [2, 1]⟩ idx ∧
        const_marray_view.address ⟨8, [2, 2], [2, 1]⟩ idx <
          100 + (((([3, 2] : List Nat).prod : Nat)) : Int)) := by decide
  have key2 : ∀ sub ∈ iterator_indices [2],
      ¬ ((100 : Int) ≤ const_marray_view.address ⟨12, [2], [1]⟩ sub ∧
        const_marray_view.address ⟨12, [2], [1]⟩ sub <
          100 + (((([3, 2] : List Nat).prod : Nat)) : Int)) := by decide
  have key3 : ∀ i ∈ List.range 3,
      ¬ ((100 : Int) ≤ const_marray_view.address ⟨8, [3], [1]⟩ [i] ∧
        const_marray_view.address ⟨8, [3], [1]⟩ [i] < 100 + (((3 : Nat) : Int) + 1)) := by
    decide
  have key4 : ∀ sub ∈ iterator_indices [2],
      ¬ released_contains (marray.resize_released ⟨8, [2, 2], [2, 1], 4, Layout.ROW_MAJOR⟩)
        (const_marray_view.address ⟨12, [2], [1]⟩ sub) := by decide
  refine ⟨?_, ?_, by decide, by decide⟩
  · exact (push_back_appends_slice (0 : Int) ⟨8, [2, 2], [2, 1], 4, Layout.ROW_MAJOR⟩ 100
      (memory_of [0, 0, 0, 0, 0, 0, 0, 0, 1, 2, 3, 4, 7, 8]) 8 (by decide)).1 0
      ⟨12, [2], [1]⟩ (by decide) (by decide) rfl (by decide) (by decide) (by decide)
      (fun idx h => key1 idx ((mem_iterator_indices _ _).mpr h))
      (fun sub h => key2 sub ((mem_iterator_indices _ _).mpr h))
      (fun sub h => key4 sub ((mem_iterator_indices _ _).mpr h))
  · exact (push_back_appends_slice (0 : Int) ⟨8, [3], [1], 3, Layout.ROW_MAJOR⟩ 100
      (memory_of [0, 0, 0, 0, 0, 0, 0, 0, 1, 2, 3, 7]) 8 (by decide)).2 3 11 rfl (by decide)
      (by decide) (fun i h => key3 i (List.mem_range.mpr h)) (by decide) (by decide)

/-- Counterexample for C22: on a `0 x 4294967295` array `push_back(1, x)` with a slice of
length `0` stops at an assertion after resizing the array to `0 x 0`, and `pop_back(1)` on
that array stops at its assertion: the shape is not restored.  On a `2 x 2` array
`push_back(1, x)` with `x` the first column of the array itself reads `x` from the buffer
that `resize` has released. -/
theorem push_back_pop_back_at_full_length :
    Run.outcome (marray.push_back_dim (0 : Int)
      (marray.reset_uninitialized [0, 4294967295] Layout.DEFAULT 64) 1 ⟨0, [0], [1]⟩ 128
      (memory_of [])) =
      .error (.assertion, ⟨128, [0, 0], [0, 1], 0, Layout.ROW_MAJOR⟩) ∧
    Run.outcome (marray.pop_back_dim (0 : Int) ⟨128, [0, 0], [0, 1], 0, Layout.ROW_MAJOR⟩ 1
      256 (memory_of [])) =
      .error (.assertion, ⟨128, [0, 0], [0, 1], 0, Layout.ROW_MAJOR⟩) ∧
    (marray.reset_uninitialized [0, 4294967295] Layout.DEFAULT 64).len_ =
      [0, 4294967295] ∧
    Run.outcome (marray.push_back_dim (0 : Int) ⟨16, [2, 2], [2, 1], 4, Layout.ROW_MAJOR⟩ 1
      ⟨16, [2], [2]⟩ 128 (memory_of [])) =
      .error (.undefined, ⟨128, [2, 3], [3, 1], 6, Layout.ROW_MAJOR⟩) := by
  refine ⟨by decide, by decide, by decide, by decide⟩

/-- C22 (amended): for an owning array whose lengths are values of `idx_type`, a dimension
`dim` whose length `L` is positive, and a fresh buffer for the shrunk shape, whose element
count times `sizeof(T)` is below `2^64`, `pop_back(dim)` completes; the length along `dim` is
then `L - 1`, the other lengths are unchanged, the new buffer holds as many elements as the
shrunk shape has, and every element whose index along `dim` is below `L - 1` has its value
at the same multi-index.  When `L + 1 < 2^32`, the element count of the grown shape times
`sizeof(T)` is below `2^64` and `x` lies outside the buffer of the array, `push_back(dim, x)`
followed by `pop_back(dim)`, each into a fresh buffer, gives back the lengths of the array
and every element at its multi-index; so does the rank-1 `push_back(x)` followed by
`pop_back(0)`. -/
theorem pop_back_removes_last_slice {α : Type} (T_default : α) (this : marray) (dim : Nat)
    (mem : Int → α) (sizeof_T : Nat) (hT : 0 < sizeof_T) (hdim : dim < this.len_.length)
    (hlen32 : ∀ l ∈ this.len_, l < 2 ^ 32) :
    (∀ (ptr : Int), 0 < this.len_.getD dim 0 →
      (this.len_.set dim (this.len_.getD dim 0 - 1)).prod * sizeof_T < 2 ^ 64 →
      (∀ idx, in_range idx this.len_ →
        ¬ (ptr ≤ this.view.address idx ∧ this.view.address idx <
          ptr + (((this.len_.set dim (this.len_.getD dim 0 - 1)).prod : Nat) : Int))) →
      ∃ (arr : marray) (mem1 : Int → α),
        marray.pop_back_dim T_default this dim ptr mem = .ok (arr, mem1) ∧
        arr.len_ = this.len_.set dim (this.len_.getD dim 0 - 1) ∧
        aligned_allocator.capacity sizeof_T arr.size_ = arr.len_.prod ∧
        (∀ idx, in_range idx this.len_ → idx.getD dim 0 < this.len_.getD dim 0 - 1 →
          mem1 (arr.view.address idx) = mem (this.view.address idx))) ∧
    (∀ (x : marray_view) (ptr1 ptr2 : Int), 2 ≤ this.len_.length →
      x.len_ = this.len_.eraseIdx dim → this.len_.getD dim 0 + 1 < 2 ^ 32 →
      (this.len_.set dim (this.len_.getD dim 0 + 1)).prod * sizeof_T < 2 ^ 64 →
      (∀ idx, in_range idx this.len_ →
        ¬ (ptr1 ≤ this.view.address idx ∧ this.view.address idx <
          ptr1 + (((this.len_.set dim (this.len_.getD dim 0 + 1)).prod : Nat) : Int))) →
      (∀ sub, in_range sub x.len_ →
        ¬ (ptr1 ≤ x.address sub ∧ x.address sub <
          ptr1 + (((this.len_.set dim (this.len_.getD dim 0 + 1)).prod : Nat) : Int))) →
      (∀ sub, in_range sub x.len_ →
        ¬ released_contains (marray.resize_released this) (x.address sub)) →
      (∀ y, (ptr1 ≤ y ∧ y <
          ptr1 + (((this.len_.set dim (this.len_.getD dim 0 + 1)).prod : Nat) : Int)) →
        ¬ (ptr2 ≤ y ∧ y < ptr2 + ((this.len_.prod : Nat) : Int))) →
      ∃ (arr1 : marray) (mem1 : Int → α) (arr2 : marray) (mem2 : Int → α),
        marray.push_back_dim T_default this dim x ptr1 mem = .ok (arr1, mem1) ∧
        marray.pop_back_dim T_default arr1 dim ptr2 mem1 = .ok (arr2, mem2) ∧
        arr2.len_ = this.len_ ∧
        aligned_allocator.capacity sizeof_T arr1.size_ = arr1.len_.prod ∧
        aligned_allocator.capacity sizeof_T arr2.size_ = arr2.len_.prod ∧
        (∀ idx, in_range idx this.len_ →
          mem2 (arr2.view.address idx) = mem (this.view.address idx))) ∧
    (∀ (n : Nat) (x : Int) (ptr1 ptr2 : Int), this.len_ = [n] → n + 1 < 2 ^ 32 →
      (n + 1) * sizeof_T < 2 ^ 64 →
      (∀ i, i < n →
        ¬ (ptr1 ≤ this.view.address [i] ∧ this.view.address [i] < ptr1 + ((n : Int) + 1))) →
      ¬ (ptr1 ≤ x ∧ x < ptr1 + ((n : Int) + 1)) →
      ¬ released_contains (marray.resize_released this) x →
      (∀ y, (ptr1 ≤ y ∧ y < ptr1 + ((n : Int) + 1)) →
        ¬ (ptr2 ≤ y ∧ y < ptr2 + (n : Int))) →
      ∃ (arr1 : marray) (mem1 : Int → α) (arr2 : marray) (mem2 : Int → α),
        marray.push_back T_default this x ptr1 mem = .ok (arr1, mem1) ∧
        marray.pop_back_dim T_default arr1 0 ptr2 mem1 = .ok (arr2, mem2) ∧
        arr2.len_ = [n] ∧
        aligned_allocator.capacity sizeof_T arr1.size_ = arr1.len_.prod ∧
        aligned_allocator.capacity sizeof_T arr2.size_ = arr2.len_.prod ∧
        (∀ i, i < n → mem2 (arr2.view.address [i]) = mem (this.view.address [i]))) := by
  have hLlt : this.len_.getD dim 0 < 2 ^ 32 := by
    apply hlen32
    rw [List.getD_eq_getElem _ _ hdim]
    exact List.getElem_mem _
  refine ⟨?_, ?_, ?_⟩
  · intro ptr hpos hbytes hfresh
    have hsize := lt_of_bytes_lt sizeof_T _ hT hbytes
    have hn' := set_idx_type_lt this.len_ dim (this.len_.getD dim 0 - 1) hlen32 (by omega)
    obtain ⟨mem1, hres, hold, _⟩ := marray.pop_back_dim_effect T_default this dim ptr mem hdim
      hpos hlen32 hsize hfresh
    obtain ⟨hl, hcap⟩ := marray.reset_uninitialized_capacity _ Layout.ROW_MAJOR ptr sizeof_T
      hn' hT hbytes
    refine ⟨_, mem1, hres, hl, hcap, ?_⟩
    intro idx hin hlt
    rw [marray.reset_uninitialized_address _ ptr idx
      (in_range_set idx this.len_ _ dim hdim hin hlt) hsize]
    exact hold idx hin hlt
  · intro x ptr1 ptr2 hrank hx hidx hbytes hfresh hxfresh hxlive hdisj
    have hsize := lt_of_bytes_lt sizeof_T _ hT hbytes
    have hn' := set_idx_type_lt this.len_ dim (this.len_.getD dim 0 + 1) hlen32 hidx
    obtain ⟨mem1, hres, hold, _, _⟩ := marray.push_back_dim_effect T_default this dim x ptr1
      mem (by omega) hdim hx hlen32 hidx hsize hfresh hxfresh hxlive
    obtain ⟨hl1, hcap1⟩ := marray.reset_uninitialized_capacity _ Layout.ROW_MAJOR ptr1
      sizeof_T hn' hT hbytes
    generalize hL : this.len_.getD dim 0 = L at *
    generalize hlen' : this.len_.set dim (L + 1) = len' at *
    have hes := eraseIdx_set_self (L + 1) dim this.len_ hdim
    rw [hlen'] at hes
    have hlen'len : len'.length = this.len_.length := by rw [← hlen']; simp
    have hback : len'.set dim (len'.getD dim 0 - 1) = this.len_ := by
      rw [hes.2, Nat.add_sub_cancel, ← hlen', List.set_set, ← hL,
        set_getD_self dim this.len_ hdim]
    have hblock : ∀ idx, in_range idx len' →
        ptr1 ≤ ptr1 + linear_offset idx (row_major_strides len') ∧
        ptr1 + linear_offset idx (row_major_strides len') <
          ptr1 + ((len'.prod : Nat) : Int) := by
      intro idx hidx'
      obtain ⟨h0, h1⟩ := row_major_offset_bounds len' idx hidx'
      constructor <;> omega
    have hprod_le : this.len_.prod ≤ len'.prod := by
      have h1 := prod_set (L + 1) dim this.len_ hdim
      have h2 := prod_set L dim this.len_ hdim
      rw [← hL, set_getD_self dim this.len_ hdim, hL] at h2
      rw [hlen'] at h1
      have h3 : L * (this.len_.eraseIdx dim).prod ≤ (L + 1) * (this.len_.eraseIdx dim).prod :=
        Nat.mul_le_mul_right _ (Nat.le_succ L)
      omega
    have hbytes2 : this.len_.prod * sizeof_T < 2 ^ 64 := by
      have : this.len_.prod * sizeof_T ≤ len'.prod * sizeof_T :=
        Nat.mul_le_mul_right _ hprod_le
      omega
    have hsize2 : this.len_.prod < 2 ^ 64 := by omega
    have haddr1 : ∀ idx, in_range idx len' →
        (marray.reset_uninitialized len' Layout.ROW_MAJOR ptr1).view.address idx =
          ptr1 + linear_offset idx (row_major_strides len') :=
      fun idx hin => marray.reset_uninitialized_address len' ptr1 idx hin hsize
    have eff := marray.pop_back_dim_effect T_default
      (marray.reset_uninitialized len' Layout.ROW_MAJOR ptr1) dim ptr2 mem1
      (by rw [hl1]; omega)
      (by rw [hl1, hes.2]; omega)
      (by rw [hl1]; exact hn')
      (by rw [hl1, hback]; exact hsize2)
      (by
        intro idx hin
        rw [hl1] at hin
        rw [hl1, hback, haddr1 idx hin]
        exact hdisj _ (hblock idx hin))
    rw [hl1, hback] at eff
    obtain ⟨mem2, hres2, hold2, _⟩ := eff
    obtain ⟨hl2, hcap2⟩ := marray.reset_uninitialized_capacity this.len_ Layout.ROW_MAJOR ptr2
      sizeof_T hlen32 hT hbytes2
    refine ⟨_, mem1, _, mem2, hres, hres2, hl2, hcap1, hcap2, ?_⟩
    intro idx hin
    have hlt := (in_range_eraseIdx dim idx this.len_ hdim hin).2
    have hin' : in_range idx len' := by
      rw [← hlen']
      exact in_range_set idx this.len_ (L + 1) dim hdim hin (by omega)
    have h2 := hold2 idx hin' (by rw [hes.2]; omega)
    rw [haddr1 idx hin'] at h2
    rw [marray.reset_uninitialized_address this.len_ ptr2 idx hin hsize2, h2]
    exact hold idx hin
  · intro n x ptr1 ptr2 hlen hidx hbytes hfresh hxfresh hxlive hdisj
    obtain ⟨mem1, hres, hold, _, _⟩ := marray.push_back_effect T_default this x ptr1 mem n
      hlen hidx hfresh hxfresh hxlive
    have hn1 : ∀ l ∈ ([n + 1] : List Nat), l < 2 ^ 32 := by
      intro l hl
      rw [List.mem_singleton] at hl
      rw [hl]; exact hidx
    have hn2 : ∀ l ∈ ([n] : List Nat), l < 2 ^ 32 := by
      intro l hl
      rw [List.mem_singleton] at hl
      rw [hl]; omega
    have hbytes1 : ([n + 1] : List Nat).prod * sizeof_T < 2 ^ 64 := by simpa using hbytes
    have hbytes2 : ([n] : List Nat).prod * sizeof_T < 2 ^ 64 := by
      have : n * sizeof_T ≤ (n + 1) * sizeof_T := Nat.mul_le_mul_right _ (Nat.le_succ n)
      simp only [List.prod_cons, List.prod_nil, Nat.mul_one]
      omega
    have hsize1 := lt_of_bytes_lt sizeof_T _ hT hbytes1
    have hsize2 := lt_of_bytes_lt sizeof_T _ hT hbytes2
    obtain ⟨hl1, hcap1⟩ := marray.reset_uninitialized_capacity [n + 1] Layout.ROW_MAJOR ptr1
      sizeof_T hn1 hT hbytes1
    obtain ⟨hl2, hcap2⟩ := marray.reset_uninitialized_capacity [n] Layout.ROW_MAJOR ptr2
      sizeof_T hn2 hT hbytes2
    have haddr1 : ∀ i : Nat, i < n + 1 →
        (marray.reset_uninitialized [n + 1] Layout.ROW_MAJOR ptr1).view.address [i] =
          ptr1 + (i : Int) := by
      intro i hi
      rw [marray.reset_uninitialized_address [n + 1] ptr1 [i] ⟨hi, trivial⟩ hsize1]
      simp [linear_offset, row_major_strides]
    have haddr2 : ∀ i : Nat, i < n →
        (marray.reset_uninitialized [n] Layout.ROW_MAJOR ptr2).view.address [i] =
          ptr2 + (i : Int) := by
      intro i hi
      rw [marray.reset_uninitialized_address [n] ptr2 [i] ⟨hi, trivial⟩ hsize2]
      simp [linear_offset, row_major_strides]
    have hset : ([n + 1] : List Nat).set 0 (([n + 1] : List Nat).getD 0 0 - 1) = [n] := by
      simp
    have eff := marray.pop_back_dim_effect T_default
      (marray.reset_uninitialized [n + 1] Layout.ROW_MAJOR ptr1) 0 ptr2 mem1
      (by rw [hl1]; simp)
      (by rw [hl1]; simp)
      (by rw [hl1]; exact hn1)
      (by rw [hl1, hset]; exact hsize2)
      (by
        intro idx hin
        rw [hl1] at hin
        rw [hl1, hset]
        match idx, hin with
        | [i], hin =>
          have hi : i < n + 1 := hin.1
          rw [haddr1 i hi]
          have := hdisj (ptr1 + (i : Int)) ⟨by omega, by omega⟩
          simpa using this)
    rw [hl1, hset] at eff
    obtain ⟨mem2, hres2, hold2, _⟩ := eff
    refine ⟨_, mem1, _, mem2, hres, hres2, hl2, hcap1, hcap2, ?_⟩
    intro i hi
    have h2 := hold2 [i] (by show in_range [i] [n + 1]; simp [in_range]; omega)
      (by show ([i] : List Nat).getD 0 0 < ([n + 1] : List Nat).getD 0 0 - 1; simpa using hi)
    rw [haddr1 i (by omega)] at h2
    have h3 : linear_offset [i] (row_major_strides [n]) = (i : Int) := by
      simp [linear_offset, row_major_strides]
    rw [h3] at h2
    rw [haddr2 i hi, h2]
    exact hold i hi

/-- Witness for C22: `pop_back(1)` on the `2 x 2` array `[[1,2],[3,4]]` at address 8 leaves
`[[1],[3]]`; `push_back(1, (7, 8))` followed by `pop_back(1)` gives back `[[1,2],[3,4]]`;
the rank-1 array `[1,2,3]` after `push_back(7)` and `pop_back(0)` is `[1,2,3]`. -/
theorem pop_back_removes_last_slice_witness :
    (∃ (arr : marray) (mem1 : Int → Int),
      marray.pop_back_dim (0 : Int) ⟨8, [2, 2], [2, 1], 4, Layout.ROW_MAJOR⟩ 1 100
        (memory_of [0, 0, 0, 0, 0, 0, 0, 0, 1, 2, 3, 4, 7, 8]) = .ok (arr, mem1) ∧
      arr.len_ = [2, 1] ∧
      aligned_allocator.capacity 8 arr.size_ = arr.len_.prod ∧
      (∀ idx, in_range idx [2, 2] → idx.getD 1 0 < 1 →
        mem1 (arr.view.address idx) =
          memory_of [0, 0, 0, 0, 0, 0, 0, 0, 1, 2, 3, 4, 7, 8]
            (const_marray_view.address ⟨8, [2, 2], [2, 1]⟩ idx))) ∧
    (∃ (arr1 : marray) (mem1 : Int → Int) (arr2 : marray) (mem2 : Int → Int),
      marray.push_back_dim (0 : Int) ⟨8, [2, 2], [2, 1], 4, Layout.ROW_MAJOR⟩ 1
        ⟨12, [2], [1]⟩ 100 (memory_of [0, 0, 0, 0, 0, 0, 0, 0, 1, 2, 3, 4, 7, 8]) =
          .ok (arr1, mem1) ∧
      marray.pop_back_dim (0 : Int) arr1 1 200 mem1 = .ok (arr2, mem2) ∧
      arr2.len_ = [2, 2] ∧
      aligned_allocator.capacity 8 arr1.size_ = arr1.len_.prod ∧
      aligned_allocator.capacity 8 arr2.size_ = arr2.len_.prod ∧
      (∀ idx, in_range idx [2, 2] →
        mem2 (arr2.view.address idx) =
          memory_of [0, 0, 0, 0, 0, 0, 0, 0, 1, 2, 3, 4, 7, 8]
            (const_marray_view.address ⟨8, [2, 2], [2, 1]⟩ idx))) ∧
    (∃ (arr1 : marray) (mem1 : Int → Int) (arr2 : marray) (mem2 : Int → Int),
      marray.push_back (0 : Int) ⟨8, [3], [1], 3, Layout.ROW_MAJOR⟩ 11 100
        (memory_of [0, 0, 0, 0, 0, 0, 0, 0, 1, 2, 3, 7]) = .ok (arr1, mem1) ∧
      marray.pop_back_dim (0 : Int) arr1 0 200 mem1 = .ok (arr2, mem2) ∧
      arr2.len_ = [3] ∧
      aligned_allocator.capacity 8 arr1.size_ = arr1.len_.prod ∧
      aligned_allocator.capacity 8 arr2.size_ = arr2.len_.prod ∧
      (∀ i, i < 3 → mem2 (arr2.view.address [i]) =
        memory_of [0, 0, 0, 0, 0, 0, 0, 0, 1, 2, 3, 7]
          (const_marray_view.address ⟨8, [3], [1]⟩ [i]))) ∧
    (marray.pop_back_dim (0 : Int) ⟨8, [2, 2], [2, 1], 4, Layout.ROW_MAJOR⟩ 1 100
        (memory_of [0, 0, 0, 0, 0, 0, 0, 0, 1, 2, 3, 4, 7, 8])).toOption.map
      (fun r => (r.1.len_, const_marray_view.contents r.1.view r.2)) =
        some ([2, 1], [1, 3]) := by
  have key4 : ∀ i ∈ List.range 3,
      ¬ ((100 : Int) ≤ const_marray_view.address ⟨8, [3], [1]⟩ [i] ∧
        const_marray_view.address ⟨8, [3], [1]⟩ [i] < 100 + (((3 : Nat) : Int) + 1)) := by
    decide
  have key1 : ∀ idx ∈ iterator_indices [2, 2],
      ¬ ((100 : Int) ≤ const_marray_view.address ⟨8, [2, 2], [2, 1]⟩ idx ∧
        const_marray_view.address ⟨8, [2, 2], [2, 1]⟩ idx <
          100 + (((([2, 1] : List Nat).prod : Nat)) : Int)) := by decide
  have key2 : ∀ idx ∈ iterator_indices [2, 2],
      ¬ ((100 : Int) ≤ const_marray_view.address ⟨8, [2, 2], [2, 1]⟩ idx ∧
        const_marray_view.address ⟨8, [2, 2], [2, 1]⟩ idx <
          100 + (((([2, 3] : List Nat).prod : Nat)) : Int)) := by decide
  have key3 : ∀ sub ∈ iterator_indices [2],
      ¬ ((100 : Int) ≤ const_marray_view.address ⟨12, [2], [1]⟩ sub ∧
        const_marray_view.address ⟨12, [2], [1]⟩ sub <
          100 + (((([2, 3] : List Nat).prod : Nat)) : Int)) := by decide
  have key5 : ∀ sub ∈ iterator_indices [2],
      ¬ released_contains (marray.resize_released ⟨8, [2, 2], [2, 1], 4, Layout.ROW_MAJOR⟩)
        (const_marray_view.address ⟨12, [2], [1]⟩ sub) := by decide
  refine ⟨?_, ?_, ?_, by decide⟩
  · exact (pop_back_removes_last_slice (0 : Int) ⟨8, [2, 2], [2, 1], 4, Layout.ROW_MAJOR⟩ 1
      (memory_of [0, 0, 0, 0, 0, 0, 0, 0, 1, 2, 3, 4, 7, 8]) 8 (by decide) (by decide)
      (by decide)).1 100 (by decide) (by decide)
      (fun idx h => key1 idx ((mem_iterator_indices _ _).mpr h))
  rotate_left
  · exact (pop_back_removes_last_slice (0 : Int) ⟨8, [3], [1], 3, Layout.ROW_MAJOR⟩ 0
      (memory_of [0, 0, 0, 0, 0, 0, 0, 0, 1, 2, 3, 7]) 8 (by decide) (by decide)
      (by decide)).2.2 3 11 100 200 rfl (by decide) (by decide)
      (fun i h => key4 i (List.mem_range.mpr h)) (by decide) (by decide)
      (fun y h1 h2 => by
        have h1' : (100 : Int) ≤ y ∧ y < 100 + (((3 : Nat) : Int) + 1) := h1
        have h2' : (200 : Int) ≤ y ∧ y < 200 + ((3 : Nat) : Int) := h2
        omega)
  · exact (pop_back_removes_last_slice (0 : Int) ⟨8, [2, 2], [2, 1], 4, Layout.ROW_MAJOR⟩ 1
      (memory_of [0, 0, 0, 0, 0, 0, 0, 0, 1, 2, 3, 4, 7, 8]) 8 (by decide) (by decide)
      (by decide)).2.1 ⟨12, [2], [1]⟩ 100 200 (by decide) rfl
      (by decide) (by decide)
      (fun idx h => key2 idx ((mem_iterator_indices _ _).mpr h))
      (fun sub h => key3 sub ((mem_iterator_indices _ _).mpr h))
      (fun sub h => key5 sub ((mem_iterator_indices _ _).mpr h))
      (fun y h1 h2 => by
        have e1 : ((((([2, 2] : List Nat).set 1 (([2, 2] : List Nat).getD 1 0 + 1)).prod :
          Nat)) : Int) = 6 := by decide
        have e2 : ((((([2, 2] : List Nat).prod : Nat)) : Int)) = 4 := by decide
        have h1' : (100 : Int) ≤ y ∧ y < 100 + ((((([2, 2] : List Nat).set 1
          (([2, 2] : List Nat).getD 1 0 + 1)).prod : Nat)) : Int) := h1
        have h2' : (200 : Int) ≤ y ∧ y < 200 + ((((([2, 2] : List Nat).prod : Nat)) : Int)) :=
          h2
        rw [e1] at h1'
        omega)

/-! ## Claims about the `all` marker and the conversion of chain objects -/

/-- C32: at every step of a chain (on a view, on a chain object after indices, on a chain
object after ranges, on the last open dimension or before it) the `all` marker yields the
same value, with the same lengths, strides and data pointer, as the range `[0, len)` of the
current dimension. -/
theorem all_same_as_full_range (c : Chain) (hc : c.admissible) :
    c.bracket .all = c.bracket (.range (MArray.range 0 c.current_length)) := by
  cases c with
  | scalar p => rfl
  | view v =>
    obtain ⟨data_, len_, stride_⟩ := v
    obtain ⟨h1, h2⟩ := hc
    simp only at h1 h2
    by_cases hn : len_.length = 1
    · match len_, stride_, hn, h2 with
      | [l], [s], _, _ =>
        simp [Chain.bracket, const_marray_view.all, const_marray_view.range,
          const_marray_view.ndim, MArray.range, range_t.size, Chain.current_length]
    · simp [Chain.bracket, const_marray_view.all, const_marray_view.range,
        const_marray_view.ndim, hn, MArray.range, range_to, Chain.current_length,
        -List.getD_eq_getElem?_getD]
  | ref r =>
    obtain ⟨⟨h1, h2⟩, h3, h4⟩ := hc
    simp only [const_marray_view.ndim] at h4
    by_cases hn : r.array.ndim = r.dim
    · simp only [const_marray_view.ndim] at hn
      have e1 : r.array.len_.length - r.dim + 1 = 1 := by omega
      have hl : (r.array.len_.drop (r.dim - 1)).take 1 =
          [r.array.len_.getD (r.dim - 1) 0] := by
        rw [drop_eq_getD_cons r.array.len_ (r.dim - 1) 0 (by omega)]
        simp
      have hs : (r.array.stride_.drop (r.dim - 1)).take 1 =
          [r.array.stride_.getD (r.dim - 1) 0] := by
        rw [drop_eq_getD_cons r.array.stride_ (r.dim - 1) 0 (by omega)]
        simp
      simp [Chain.bracket, const_marray_ref.all, const_marray_ref.range,
        const_marray_view.ndim, hn, const_marray_ref.toView, MArray.range, range_t.size,
        Chain.current_length, hl, hs, -List.getD_eq_getElem?_getD]
    · simp [Chain.bracket, const_marray_ref.all, const_marray_ref.range, hn,
        Chain.current_length, -List.getD_eq_getElem?_getD]
  | slice s =>
    obtain ⟨⟨h1, h2⟩, h3, h4⟩ := hc
    simp only [const_marray_view.ndim] at h4
    by_cases hn : s.array.ndim = s.dim
    · simp only [const_marray_view.ndim] at hn
      have hl : (s.array.len_.drop (s.dim - 1)).take 1 =
          [s.array.len_.getD (s.dim - 1) 0] := by
        rw [drop_eq_getD_cons s.array.len_ (s.dim - 1) 0 (by omega)]
        simp
      have hs : (s.array.stride_.drop (s.dim - 1)).take 1 =
          [s.array.stride_.getD (s.dim - 1) 0] := by
        rw [drop_eq_getD_cons s.array.stride_ (s.dim - 1) 0 (by omega)]
        simp
      simp [Chain.bracket, const_marray_slice.all, const_marray_slice.range,
        const_marray_view.ndim, hn, const_marray_slice.toView, MArray.range, range_t.size,
        Chain.current_length, hl, hs, -List.getD_eq_getElem?_getD]
    · simp [Chain.bracket, const_marray_slice.all, const_marray_slice.range, hn,
        Chain.current_length, MArray.range, -List.getD_eq_getElem?_getD]

/-- Witness for C32: on the row-major `[3,4]` view, `all` and the full range agree at the
first step, after an index on the last dimension, and after a range on the last
dimension. -/
theorem all_same_as_full_range_witness :
    (Chain.view ⟨0, [3, 4], [4, 1]⟩).bracket .all =
      (Chain.view ⟨0, [3, 4], [4, 1]⟩).bracket (.range (MArray.range 0 3)) ∧
    (Chain.ref ⟨⟨0, [3, 4], [4, 1]⟩, 2, 4⟩).bracket .all =
      (Chain.ref ⟨⟨0, [3, 4], [4, 1]⟩, 2, 4⟩).bracket (.range (MArray.range 0 4)) ∧
    (Chain.slice ⟨⟨0, [3, 4], [4, 1]⟩, 2, 4, [0], [2]⟩).bracket .all =
      (Chain.slice ⟨⟨0, [3, 4], [4, 1]⟩, 2, 4, [0], [2]⟩).bracket
        (.range (MArray.range 0 4)) ∧
    (Chain.slice ⟨⟨0, [3, 4], [4, 1]⟩, 2, 4, [0], [2]⟩).bracket .all =
      .ok (.view ⟨4, [2, 4], [4, 1]⟩) :=
  ⟨all_same_as_full_range (Chain.view ⟨0, [3, 4], [4, 1]⟩)
      (by simp [Chain.admissible, const_marray_view.WF]),
    all_same_as_full_range (Chain.ref ⟨⟨0, [3, 4], [4, 1]⟩, 2, 4⟩)
      (by simp [Chain.admissible, const_marray_view.WF, const_marray_view.ndim]),
    all_same_as_full_range (Chain.slice ⟨⟨0, [3, 4], [4, 1]⟩, 2, 4, [0], [2]⟩)
      (by simp [Chain.admissible, const_marray_view.WF, const_marray_view.ndim]),
    by decide⟩

theorem chain_valid_replicate_all :
    ∀ lens : List Nat, chain_valid (List.replicate lens.length Arg.all) lens := by
  intro lens
  induction lens with
  | nil => simp [chain_valid]
  | cons l lens ih => simp [List.replicate_succ, chain_valid, Arg.valid, ih]

theorem chain_offset_replicate_all :
    ∀ (k : Nat) (strides : List Int), chain_offset (List.replicate k Arg.all) strides = 0 := by
  intro k
  induction k with
  | zero => intro strides; cases strides <;> simp [chain_offset]
  | succ k ih =>
    intro strides
    cases strides with
    | nil => simp [List.replicate_succ, chain_offset]
    | cons s strides => simp [List.replicate_succ, chain_offset, Arg.start, ih]

theorem kept_lens_replicate_all :
    ∀ lens : List Nat, kept_lens (List.replicate lens.length Arg.all) lens = lens := by
  intro lens
  induction lens with
  | nil => simp [kept_lens]
  | cons l lens ih => simp [List.replicate_succ, kept_lens, ih]

theorem kept_strides_replicate_all :
    ∀ strides : List Int,
      kept_strides (List.replicate strides.length Arg.all) strides = strides := by
  intro strides
  induction strides with
  | nil => simp [kept_strides]
  | cons s strides ih => simp [List.replicate_succ, kept_strides, ih]

/-- A step on a dimension that is not the last one leads from a chain value with `d`
dimensions resolved to a chain object with `d + 1` dimensions resolved. -/
theorem Chain.resolved_step (v : const_marray_view) (d : Nat) (c c1 : Chain) (a : Arg)
    (hc : c.resolved v d) (hd : d + 1 < v.ndim) (hstep : c.bracket a = .ok c1) :
    c1.resolved v (d + 1) := by
  cases c with
  | scalar p => exact absurd hc (by simp [Chain.resolved])
  | view w =>
    obtain ⟨h0, rfl⟩ := hc
    subst h0
    have hn : ¬ w.ndim = 1 := by omega
    cases a with
    | index i =>
      simp only [Chain.bracket, const_marray_view.index, if_neg hn] at hstep
      split_ifs at hstep
      simp only [Except.ok.injEq] at hstep
      subst hstep
      simp [Chain.resolved, const_marray_ref.ctor]
    | range x =>
      simp only [Chain.bracket, const_marray_view.range, if_neg hn] at hstep
      split_ifs at hstep
      simp only [Except.ok.injEq] at hstep
      subst hstep
      simp [Chain.resolved, const_marray_slice.ctor_range]
    | all =>
      simp only [Chain.bracket, const_marray_view.all, if_neg hn, Except.ok.injEq] at hstep
      subst hstep
      simp [Chain.resolved, const_marray_slice.ctor_range]
  | ref r =>
    obtain ⟨rfl, h1, h2⟩ := hc
    have hn : ¬ r.array.ndim = r.dim := by omega
    cases a with
    | index i =>
      simp only [Chain.bracket, const_marray_ref.index, if_neg hn] at hstep
      split_ifs at hstep
      simp only [Except.ok.injEq] at hstep
      subst hstep
      simp [Chain.resolved, const_marray_ref.ctor, h1]
    | range x =>
      simp only [Chain.bracket, const_marray_ref.range, if_neg hn, Except.ok.injEq] at hstep
      subst hstep
      simp [Chain.resolved, const_marray_slice.ctor_range, h1]
    | all =>
      simp only [Chain.bracket, const_marray_ref.all, if_neg hn, Except.ok.injEq] at hstep
      subst hstep
      simp [Chain.resolved, const_marray_slice.ctor_range, h1]
  | slice s =>
    obtain ⟨rfl, h1, h2⟩ := hc
    have hn : ¬ s.array.ndim = s.dim := by omega
    cases a with
    | index i =>
      simp only [Chain.bracket, const_marray_slice.index, if_neg hn] at hstep
      split_ifs at hstep
      simp only [Except.ok.injEq] at hstep
      subst hstep
      simp [Chain.resolved, const_marray_slice.ctor_index, h1]
    | range x =>
      simp only [Chain.bracket, const_marray_slice.range, if_neg hn] at hstep
      split_ifs at hstep
      simp only [Except.ok.injEq] at hstep
      subst hstep
      simp [Chain.resolved, const_marray_slice.ctor_range, h1]
    | all =>
      simp only [Chain.bracket, const_marray_slice.all, if_neg hn, Except.ok.injEq] at hstep
      subst hstep
      simp [Chain.resolved, const_marray_slice.ctor_range, h1]

/-- Steps that leave at least one dimension open lead to a chain value with as many more
dimensions resolved. -/
theorem Chain.resolved_steps (v : const_marray_view) (args : List Arg) :
    ∀ (d : Nat) (c c1 : Chain), c.resolved v d → d + args.length < v.ndim →
      c.brackets args = .ok c1 → c1.resolved v (d + args.length) := by
  induction args with
  | nil =>
    intro d c c1 hc _ h
    simp only [Chain.brackets, Except.ok.injEq] at h
    subst h
    simpa using hc
  | cons a args ih =>
    intro d c c1 hc hd h
    simp only [List.length_cons] at hd
    simp only [Chain.brackets] at h
    split at h
    · rename_i c2 hstep
      have h2 := Chain.resolved_step v d c c2 a hc (by omega) hstep
      have h3 := ih (d + 1) c2 c1 h2 (by omega) h
      rw [List.length_cons]
      have e : d + (args.length + 1) = d + 1 + args.length := by omega
      rw [e]
      exact h3
    · simp at h

/-- Completing a chain value with the `all` marker for every open dimension gives the view
it converts to. -/
theorem Chain.all_completion (v : const_marray_view) (d : Nat) (c : Chain)
    (hwf : v.WF) (hc : c.resolved v d) (hd : d < v.ndim) :
    ∃ w, c.toView = some w ∧
      c.brackets (List.replicate (v.ndim - d) Arg.all) = .ok (.view w) := by
  obtain ⟨hpos, hlen⟩ := hwf
  have hvalid : chain_valid (List.replicate (v.ndim - d) Arg.all) (v.len_.drop d) := by
    have := chain_valid_replicate_all (v.len_.drop d)
    rwa [List.length_drop] at this
  have hkl : kept_lens (List.replicate (v.ndim - d) Arg.all) (v.len_.drop d) =
      v.len_.drop d := by
    have := kept_lens_replicate_all (v.len_.drop d)
    rwa [List.length_drop] at this
  have hks : kept_strides (List.replicate (v.ndim - d) Arg.all) (v.stride_.drop d) =
      v.stride_.drop d := by
    have := kept_strides_replicate_all (v.stride_.drop d)
    rwa [List.length_drop, hlen] at this
  have hkept : ∃ a ∈ List.replicate (v.ndim - d) Arg.all, a.kept = true :=
    ⟨Arg.all, by simp; omega, rfl⟩
  have htl : (v.len_.drop d).take (v.ndim - (d + 1) + 1) = v.len_.drop d :=
    List.take_of_length_le (by rw [List.length_drop]; simp only [const_marray_view.ndim]; omega)
  have hts : (v.stride_.drop d).take (v.ndim - (d + 1) + 1) = v.stride_.drop d :=
    List.take_of_length_le (by rw [List.length_drop]; simp only [const_marray_view.ndim]; omega)
  cases c with
  | scalar p => exact absurd hc (by simp [Chain.resolved])
  | view w =>
    obtain ⟨h0, rfl⟩ := hc
    subst h0
    refine ⟨w, rfl, ?_⟩
    have h := view_steps_valid w (List.replicate (w.ndim - 0) Arg.all) hlen hkept
      (by simpa using hvalid)
    rw [h]
    simp only [List.drop_zero] at hkl hks
    rw [hkl, hks, chain_offset_replicate_all, add_zero]
  | ref r =>
    obtain ⟨rfl, h1, h2⟩ := hc
    refine ⟨r.toView, rfl, ?_⟩
    rw [ref_steps_valid _ r d h1 hlen hkept hvalid, hkl, hks, chain_offset_replicate_all,
      add_zero]
    simp only [const_marray_ref.toView, const_marray_ref.data, h1, Nat.add_sub_cancel, htl,
      hts]
  | slice s =>
    obtain ⟨rfl, h1, h2⟩ := hc
    refine ⟨s.toView, rfl, ?_⟩
    rw [slice_steps_valid _ s d h1 hlen (by
      intro h
      have := congrArg List.length h
      simp at this
      omega) hvalid, hkl, hks, chain_offset_replicate_all, add_zero]
    simp only [const_marray_slice.toView, const_marray_slice.data, h1, Nat.add_sub_cancel,
      htl, hts]

/-- C40: for a view of rank `N` and a chain of `j < N` steps that evaluates, the chain
value converts to a view, and completing the chain with the `all` marker for each of the
`N - j` open dimensions yields that view: same lengths, strides and data pointer. -/
theorem conversion_same_as_all_completion (v : const_marray_view) (args : List Arg)
    (c : Chain) (hwf : v.WF) (hj : args.length < v.ndim)
    (hsteps : (Chain.view v).brackets args = .ok c) :
    ∃ w, c.toView = some w ∧
      c.brackets (List.replicate (v.ndim - args.length) Arg.all) = .ok (.view w) := by
  have hres := Chain.resolved_steps v args 0 (Chain.view v) c ⟨rfl, rfl⟩ (by omega) hsteps
  rw [Nat.zero_add] at hres
  exact Chain.all_completion v args.length c hwf hres hj

/-- Witness for C40: on the row-major `[2,3,4]` view, after the index `1` the chain object
converts to the `[3,4]` view at offset `12`, as `[all][all]` gives; after the index `1` and
the range `[1,3)` it converts to the `[2,4]` view at offset `16`, as `[all]` gives. -/
theorem conversion_same_as_all_completion_witness :
    (∃ w, Chain.toView (Chain.ref ⟨⟨0, [2, 3, 4], [12, 4, 1]⟩, 2, 12⟩) = some w ∧
      (Chain.ref ⟨⟨0, [2, 3, 4], [12, 4, 1]⟩, 2, 12⟩).brackets
        (List.replicate (3 - 1) Arg.all) = .ok (.view w)) ∧
    Chain.toView (Chain.ref ⟨⟨0, [2, 3, 4], [12, 4, 1]⟩, 2, 12⟩) =
      some ⟨12, [3, 4], [4, 1]⟩ ∧
    ((Chain.view ⟨0, [2, 3, 4], [12, 4, 1]⟩).brackets [.index 1, .range ⟨1, 3⟩]).map
      Chain.toView = .ok (some ⟨16, [2, 4], [4, 1]⟩) ∧
    (Chain.view ⟨0, [2, 3, 4], [12, 4, 1]⟩).brackets [.index 1, .range ⟨1, 3⟩, .all] =
      .ok (.view ⟨16, [2, 4], [4, 1]⟩) :=
  ⟨conversion_same_as_all_completion ⟨0, [2, 3, 4], [12, 4, 1]⟩ [.index 1]
      (Chain.ref ⟨⟨0, [2, 3, 4], [12, 4, 1]⟩, 2, 12⟩) (by decide) (by decide) (by decide),
    by decide, by decide, by decide⟩

/-! ## Claims about the three reversals of `rotate_dim` -/

/-- Counterexample for C31: on the view with lengths `[2,2]` and strides `[1,1]`, whose two
fibers along dimension 1 share the address `1`, over the memory `[1,2,3]`,
`rotate_dim(1, 1)` leaves the element `(0,1)` equal to `3`, not to the old element `(0,0)`,
which is `1`. -/
theorem rotate_dim_on_overlapping_fibers :
    const_marray_view.WF ⟨0, [2, 2], [1, 1]⟩ ∧ in_range [0, 1] [2, 2] ∧
    memory_of [1, 2, 3] (const_marray_view.address ⟨0, [2, 2], [1, 1]⟩ [0, (1 + 1) % 2]) = 1 ∧
    (marray_view.rotate_dim ⟨0, [2, 2], [1, 1]⟩ 1 1 (memory_of [1, 2, 3])).map
      (fun (mem1 : Int → Int) =>
        mem1 (const_marray_view.address ⟨0, [2, 2], [1, 1]⟩ [0, 1])) = .ok 3 := by
  refine ⟨by decide, by simp [in_range], by decide, by decide⟩

/-- C31 (amended): for a fiber of `n` elements with any stride and a shift `s` with
`0 < s < n`, the three reversals of `rotate_dim` (the first `s` elements, the remaining
`n - s`, all `n`) leave element `i` of the fiber equal to the old element `(i + s) mod n`;
and for a view whose in-bounds multi-indices address pairwise distinct locations,
`rotate_dim(dim, s)` completes and transforms every fiber along `dim` this way: the element
with multi-index `idx` becomes the old element whose index along `dim` is
`(idx[dim] + s) mod n`. -/
theorem three_reversals_rotate_fiber {α : Type} (n s : Nat) (hs : 0 < s) (hsn : s < n)
    (mem : Int → α) :
    (∀ (p stride : Int) (i : Nat), i < n →
      marray_view.rotate_fiber p stride n (s : Int) mem (fiber_cell p stride i) =
        mem (fiber_cell p stride ((i + s) % n))) ∧
    (∀ (v : marray_view) (dim : Nat), v.WF → v.injective → dim < v.ndim →
      v.len_.getD dim 0 = n →
      ∃ mem1, marray_view.rotate_dim v dim (s : Int) mem = .ok mem1 ∧
        ∀ idx, in_range idx v.len_ →
          mem1 (v.address idx) =
            mem (v.address (idx.set dim ((idx.getD dim 0 + s) % n)))) := by
  constructor
  · intro p stride i hi
    by_cases h0 : stride = 0
    · subst h0
      rw [rotate_fiber_zero_stride]
      simp [fiber_cell]
    · exact (rotate_fiber_effect p stride n s mem hs hsn (by
        intro j k _ _ h
        simp only [fiber_cell] at h
        have h1 : (j : Int) * stride = (k : Int) * stride := by omega
        have h2 := mul_right_cancel₀ h0 h1
        exact_mod_cast h2)).1 i hi
  · intro v dim hwf hinj hdim hn
    obtain ⟨mem1, hrun, heff, _⟩ := rotate_dim_effect v dim (s : Int) mem hwf hinj hdim
      (by omega)
    refine ⟨mem1, hrun, ?_⟩
    intro idx hidx
    have hmod : ((s : Int) % (v.len_.getD dim 0 : Int)).toNat = s := by
      rw [hn, Int.emod_eq_of_lt (by omega) (by exact_mod_cast hsn)]
      simp
    have h := heff idx hidx
    rw [hmod, hn] at h
    exact h

/-- Witness for C31: the fiber `[1,2,3,4,5]` with shift `2` becomes `[3,4,5,1,2]`, and on
the row-major `[2,3]` view over `[1,2,3,4,5,6]` rotation of dimension 1 by 1 gives
`[2,3,1,5,6,4]`. -/
theorem three_reversals_rotate_fiber_witness :
    (∀ i, i < 5 →
      marray_view.rotate_fiber 0 1 5 ((2 : Nat) : Int) (memory_of [1, 2, 3, 4, 5])
        (fiber_cell 0 1 i) = memory_of [1, 2, 3, 4, 5] (fiber_cell 0 1 ((i + 2) % 5))) ∧
    (∃ mem1, marray_view.rotate_dim ⟨0, [2, 3], [3, 1]⟩ 1 ((1 : Nat) : Int)
        (memory_of [1, 2, 3, 4, 5, 6]) = .ok mem1 ∧
      ∀ idx, in_range idx [2, 3] →
        mem1 (const_marray_view.address ⟨0, [2, 3], [3, 1]⟩ idx) =
          memory_of [1, 2, 3, 4, 5, 6] (const_marray_view.address ⟨0, [2, 3], [3, 1]⟩
            (idx.set 1 ((idx.getD 1 0 + 1) % 3)))) ∧
    (marray_view.rotate_dim ⟨0, [2, 3], [3, 1]⟩ 1 1 (memory_of [1, 2, 3, 4, 5, 6])).map
      (fun m => const_marray_view.contents ⟨0, [2, 3], [3, 1]⟩ m) =
        .ok [2, 3, 1, 5, 6, 4] := by
  have hinj : const_marray_view.injective ⟨0, [2, 3], [3, 1]⟩ := by
    intro idx1 idx2 h1 h2
    have key : ∀ i ∈ iterator_indices [2, 3], ∀ j ∈ iterator_indices [2, 3],
        const_marray_view.address ⟨0, [2, 3], [3, 1]⟩ i =
          const_marray_view.address ⟨0, [2, 3], [3, 1]⟩ j → i = j := by decide
    exact key idx1 ((mem_iterator_indices _ _).mpr h1) idx2 ((mem_iterator_indices _ _).mpr h2)
  refine ⟨fun i hi => (three_reversals_rotate_fiber 5 2 (by decide) (by decide)
      (memory_of [1, 2, 3, 4, 5])).1 0 1 i hi,
    (three_reversals_rotate_fiber 3 1 (by decide) (by decide)
      (memory_of [1, 2, 3, 4, 5, 6])).2 ⟨0, [2, 3], [3, 1]⟩ 1 (by decide) hinj (by decide)
      rfl, by decide⟩

/-! ## Claims about the normalized views of `gemm` -/

/-- The kernel call of `gemm` is made with the data pointers of the views `at`, `bt`, `ct`
and with their strides along dimension 1, converted to `int`, as leading dimensions. -/
theorem gemm_call_of_views {α : Type} (alpha beta : α) (a b : const_marray_view)
    (c : marray_view) (call : kernel_call α) (h : gemm alpha a b beta c = .ok call) :
    ∃ a_t b_t c_t, gemm_views a b c = .ok (a_t, b_t, c_t) ∧
      call.a = a_t.data_ ∧ call.lda = to_int (a_t.stride_.getD 1 0) ∧
      call.b = b_t.data_ ∧ call.ldb = to_int (b_t.stride_.getD 1 0) ∧
      call.c = c_t.data_ ∧ call.ldc = to_int (c_t.stride_.getD 1 0) := by
  unfold gemm at h
  split_ifs at h with h1 h2 h3 h4
  have hv : gemm_views a b c =
      (match (if (decide (a.stride_.getD 1 0 = 1) != decide (c.stride_.getD 1 0 = 1)) = true
            then marray_view.transpose a else .ok a),
          (if (decide (b.stride_.getD 1 0 = 1) != decide (c.stride_.getD 1 0 = 1)) = true
            then marray_view.transpose b else .ok b),
          (if decide (c.stride_.getD 1 0 = 1) = true
            then marray_view.transpose c else .ok c) with
        | .ok a_t, .ok b_t, .ok c_t => .ok (a_t, b_t, c_t)
        | _, _, _ => .error .noOverload) := by
    unfold gemm_views
    rw [if_neg h1, if_neg (not_not.mpr h2), if_neg (not_not.mpr h3), if_neg (not_not.mpr h4)]
  rw [hv]
  simp only [] at h
  split at h
  · rename_i a_t b_t c_t ha hb hc
    split_ifs at h
    simp only [Except.ok.injEq] at h
    subst h
    exact ⟨a_t, b_t, c_t, rfl, rfl, rfl, rfl, rfl, rfl, rfl⟩
  · simp at h

/-- C33: for the row-major operands `A`, `B`, `C` (`2 x 2`, strides `[2,1]`), which pass
the contiguity checks, the views of `gemm` are `at = A` and `bt = B`, with stride `2` along
dimension 0 and stride `1` along dimension 1, and `ct = C^T`, with stride `1` along
dimension 0: the three views are not contiguous along the same axis, and the leading
dimensions passed for `at` and `bt` are `1`. -/
theorem gemm_views_of_row_major_operands :
    gemm_views ⟨0, [2, 2], [2, 1]⟩ ⟨4, [2, 2], [2, 1]⟩ ⟨8, [2, 2], [2, 1]⟩ =
      .ok (⟨0, [2, 2], [2, 1]⟩, ⟨4, [2, 2], [2, 1]⟩, ⟨8, [2, 2], [1, 2]⟩) ∧
    (gemm (1 : Int) ⟨0, [2, 2], [2, 1]⟩ ⟨4, [2, 2], [2, 1]⟩ 0 ⟨8, [2, 2], [2, 1]⟩).map
      (fun call => (call.lda, call.ldb, call.ldc)) = .ok (1, 1, 2) := by
  refine ⟨by decide, by decide⟩

/-! ## Claims about the layout after `resize` and after construction from a view -/

/-- C36: a `2 x 3` array constructed with the column-major layout has, after
`resize(3, 3)`, the layout field `ROW_MAJOR` and the strides `[3, 1]`, not `COLUMN_MAJOR`
and `default_strides((3, 3), COLUMN_MAJOR) = [1, 3]`: `reset(len, val, layout_)` runs
after the array was moved from, when `layout_` is `DEFAULT`. -/
theorem resize_resets_layout :
    (marray.reset_uninitialized [2, 3] Layout.COLUMN_MAJOR 0).layout_ = Layout.COLUMN_MAJOR ∧
    (marray.resize (marray.reset_uninitialized [2, 3] Layout.COLUMN_MAJOR 0) [3, 3] (0 : Int)
        100 (memory_of [1, 2, 3, 4, 5, 6])).map
      (fun r => (r.1.layout_, r.1.stride_)) = .ok (Layout.ROW_MAJOR, [3, 1]) ∧
    default_strides [3, 3] Layout.COLUMN_MAJOR = [1, 3] := by
  refine ⟨rfl, by decide, by decide⟩

/-- C37: the array constructed as `marray(v, COLUMN_MAJOR)` from the `2 x 2` view `v` over
`[1,2,3,4]` has the lengths and the elements of `v`, but the layout field `ROW_MAJOR` and
the strides `[2, 1]`, not `COLUMN_MAJOR` and
`default_strides((2, 2), COLUMN_MAJOR) = [1, 2]`: the constructor calls `reset(other)`
without its `layout` argument. -/
theorem ctor_view_drops_layout :
    (marray.ctor_view true (0 : Int) ⟨0, [2, 2], [2, 1]⟩ Layout.COLUMN_MAJOR 100
        (memory_of [1, 2, 3, 4])).map
      (fun r => (r.1.len_, r.1.layout_, r.1.stride_,
        const_marray_view.contents r.1.view r.2)) =
      .ok ([2, 2], Layout.ROW_MAJOR, [2, 1], [1, 2, 3, 4]) ∧
    default_strides [2, 2] Layout.COLUMN_MAJOR = [1, 2] := by
  refine ⟨by decide, by decide⟩

/-! ## Claims about `pop_back` and `rotate_dim` on an empty dimension -/

/-- C38: on a default-constructed rank-1 array, whose length is `0`, `pop_back()` and
`pop_back(0)` are not rejected: they resize the array to the length `4294967295`, the
value of `0 - 1` in 32-bit unsigned arithmetic.  On the rank-2 path `pop_back(1)` on a
`2 x 0` array stops at its assertion with the array unchanged. -/
theorem pop_back_rank_one_wraps_below_zero :
    (marray.empty 1).len_ = [0] ∧
    Run.outcome (marray.pop_back (0 : Int) (marray.empty 1) 64 (memory_of [])) =
      .ok ⟨64, [4294967295], [1], 4294967295, Layout.ROW_MAJOR⟩ ∧
    Run.outcome (marray.pop_back_dim (0 : Int) (marray.empty 1) 0 64 (memory_of [])) =
      .ok ⟨64, [4294967295], [1], 4294967295, Layout.ROW_MAJOR⟩ ∧
    Run.outcome (marray.pop_back_dim (0 : Int) ⟨0, [2, 0], [0, 1], 0, Layout.ROW_MAJOR⟩ 1 64
        (memory_of [])) =
      .error (.assertion, ⟨0, [2, 0], [0, 1], 0, Layout.ROW_MAJOR⟩) := by
  refine ⟨rfl, by decide, by decide, by decide⟩

/-- C39: on a rank-1 view of length `0`, `rotate_dim(0, 1)` reaches the statement
`shift = shift%n` with `n == 0`, a division by zero, before the test `shift == 0`; so does
`rotate` on that view. -/
theorem rotate_dim_divides_by_zero :
    (marray_view.rotate_dim ⟨0, [0], [1]⟩ 0 1 (memory_of [])).map (fun _ => ()) =
      .error .undefined ∧
    (marray_view.rotate ⟨0, [0], [1]⟩ [1] (memory_of [])).map (fun _ => ()) =
      .error .undefined := by
  refine ⟨by decide, by decide⟩

/-! ## Claims about the runs of `lower` at the last split point -/

/-- C34: on the row-major `[2,3,4]` view, `lower` with the single split point `0` does not
skip its first iteration: `end` is `ndim-1 = 2` at `i == newdim-1 == 0`, so the run is
`[0, 2]`, not the empty run `[0, -1]`, and the iteration stores the length `24` and the
stride `1`.  With the split points `[1, 1]` the iteration `i = 1` between the two equal
split points has the run `[1, 2]`, not an empty one, and stores the length `12` and the
stride `1`.  In both cases the next iteration reads `split[newdim]`, outside the bounds of
`split`, and no view is returned. -/
theorem lower_last_split_point_run_not_empty :
    const_marray_view.lower_begin [0] 0 = 0 ∧
    const_marray_view.lower_end 3 [0] 0 = .ok 2 ∧
    const_marray_view.lower_loop ⟨0, [2, 3, 4], [12, 4, 1]⟩ [0] 1 0 [0] [0] = .ok ([24], [1]) ∧
    const_marray_view.lower ⟨0, [2, 3, 4], [12, 4, 1]⟩ [0] = .error .undefined ∧
    const_marray_view.lower_begin [1, 1] 1 = 1 ∧
    const_marray_view.lower_end 3 [1, 1] 1 = .ok 2 ∧
    const_marray_view.lower_loop ⟨0, [2, 3, 4], [12, 4, 1]⟩ [1, 1] 1 1 [2, 0] [12, 0] =
      .ok ([2, 12], [12, 1]) ∧
    const_marray_view.lower ⟨0, [2, 3, 4], [12, 4, 1]⟩ [1, 1] = .error .undefined := by
  refine ⟨by decide, by decide, by decide, by decide, by decide, by decide, by decide,
    by decide⟩

/-! ## Lemmas on column-major storage and on offsets onto the buffer -/

theorem col_major_strides_from_length (len : List Nat) :
    ∀ first : Int, (col_major_strides_from first len).length = len.length := by
  induction len with
  | nil => intro first; rfl
  | cons l len ih => intro first; simp [col_major_strides_from, ih]

theorem col_major_strides_from_getD (len : List Nat) :
    ∀ (first : Int) (k : Nat), k < len.length →
      (col_major_strides_from first len).getD k 0 =
        first * (((len.take k).prod : Nat) : Int) := by
  induction len with
  | nil => intro first k h; simp at h
  | cons l len ih =>
    intro first k h
    cases k with
    | zero => simp [col_major_strides_from]
    | succ k =>
      simp only [col_major_strides_from, List.getD_cons_succ, List.take_succ_cons,
        List.prod_cons, Nat.cast_mul]
      rw [ih (first * (l : Int)) k (by simpa using h)]
      ring

/-- Column-major offsets scale with the first stride. -/
theorem linear_offset_col_major_scale (len : List Nat) :
    ∀ (idx : List Nat) (first : Int),
      linear_offset idx (col_major_strides_from first len) =
        first * linear_offset idx (col_major_strides_from 1 len) := by
  induction len with
  | nil =>
    intro idx first
    cases idx <;> simp [col_major_strides_from, linear_offset]
  | cons l len ih =>
    intro idx first
    cases idx with
    | nil => simp [col_major_strides_from, linear_offset]
    | cons i idx =>
      simp only [col_major_strides_from, linear_offset]
      rw [ih idx (first * (l : Int)), ih idx (1 * (l : Int))]
      ring

/-- The offset of `i :: idx` in column-major storage of the shape `l :: len`. -/
theorem linear_offset_col_major_cons (l : Nat) (len : List Nat) (i : Nat) (idx : List Nat) :
    linear_offset (i :: idx) (col_major_strides (l :: len)) =
      (i : Int) + (l : Int) * linear_offset idx (col_major_strides len) := by
  simp only [col_major_strides, col_major_strides_from, linear_offset]
  rw [linear_offset_col_major_scale len idx (1 * (l : Int))]
  ring

/-- In column-major storage the offset of an in-bounds multi-index lies in `[0, size)`. -/
theorem col_major_offset_bounds (len : List Nat) :
    ∀ idx, in_range idx len →
      0 ≤ linear_offset idx (col_major_strides len) ∧
      linear_offset idx (col_major_strides len) < ((len.prod : Nat) : Int) := by
  induction len with
  | nil =>
    intro idx h
    cases idx with
    | nil => simp [linear_offset, col_major_strides, col_major_strides_from]
    | cons i idx => simp [in_range] at h
  | cons l len ih =>
    intro idx h
    cases idx with
    | nil => simp [in_range] at h
    | cons i idx =>
      obtain ⟨h0, h1⟩ := ih idx h.2
      have hi : (i : Int) + 1 ≤ (l : Int) := by exact_mod_cast h.1
      rw [linear_offset_col_major_cons]
      simp only [List.prod_cons, Nat.cast_mul]
      have hl : (0 : Int) ≤ (l : Int) := Int.ofNat_nonneg _
      constructor
      · have : (0 : Int) ≤ (l : Int) * linear_offset idx (col_major_strides len) :=
          mul_nonneg hl h0
        linarith
      · have : (l : Int) * (linear_offset idx (col_major_strides len) + 1) ≤
            (l : Int) * ((len.prod : Nat) : Int) :=
          mul_le_mul_of_nonneg_left (by linarith) hl
        linarith

/-- In column-major storage distinct in-bounds multi-indices have distinct offsets. -/
theorem col_major_offset_injective (len : List Nat) :
    ∀ idx1 idx2, in_range idx1 len → in_range idx2 len →
      linear_offset idx1 (col_major_strides len) =
        linear_offset idx2 (col_major_strides len) → idx1 = idx2 := by
  induction len with
  | nil =>
    intro idx1 idx2 h1 h2 _
    cases idx1 with
    | nil => cases idx2 with
      | nil => rfl
      | cons j idx2 => simp [in_range] at h2
    | cons i idx1 => simp [in_range] at h1
  | cons l len ih =>
    intro idx1 idx2 h1 h2 heq
    cases idx1 with
    | nil => simp [in_range] at h1
    | cons i idx1 =>
      cases idx2 with
      | nil => simp [in_range] at h2
      | cons j idx2 =>
        rw [linear_offset_col_major_cons, linear_offset_col_major_cons] at heq
        have hi : (i : Int) < (l : Int) := by exact_mod_cast h1.1
        have hj : (j : Int) < (l : Int) := by exact_mod_cast h2.1
        have hfg : linear_offset idx1 (col_major_strides len) =
            linear_offset idx2 (col_major_strides len) := by
          by_contra hne
          rcases lt_or_gt_of_ne hne with hlt | hgt
          · have : (l : Int) * (linear_offset idx1 (col_major_strides len) + 1) ≤
                (l : Int) * linear_offset idx2 (col_major_strides len) :=
              mul_le_mul_of_nonneg_left (by linarith) (Int.ofNat_nonneg _)
            have h0 : (0 : Int) ≤ (i : Int) := Int.ofNat_nonneg _
            linarith
          · have : (l : Int) * (linear_offset idx2 (col_major_strides len) + 1) ≤
                (l : Int) * linear_offset idx1 (col_major_strides len) :=
              mul_le_mul_of_nonneg_left (by linarith) (Int.ofNat_nonneg _)
            have h0 : (0 : Int) ≤ (j : Int) := Int.ofNat_nonneg _
            linarith
        rw [hfg] at heq
        have hij : i = j := by
          have : (i : Int) = (j : Int) := by linarith
          exact_mod_cast this
        rw [hij, ih idx1 idx2 h1.2 h2.2 hfg]

/-- In column-major storage every offset below the size is the offset of an in-bounds
multi-index. -/
theorem col_major_offset_surjective (len : List Nat) :
    ∀ o : Nat, o < len.prod →
      ∃ idx, in_range idx len ∧ linear_offset idx (col_major_strides len) = (o : Int) := by
  induction len with
  | nil =>
    intro o h
    simp only [List.prod_nil] at h
    have : o = 0 := by omega
    subst this
    exact ⟨[], by simp [in_range], by simp [linear_offset, col_major_strides,
      col_major_strides_from]⟩
  | cons l len ih =>
    intro o h
    rw [List.prod_cons] at h
    have hl : 0 < l := by
      rcases Nat.eq_zero_or_pos l with h0 | h0
      · rw [h0] at h; simp at h
      · exact h0
    have hq : o / l < len.prod := Nat.div_lt_of_lt_mul h
    obtain ⟨idx, hin, hoff⟩ := ih (o / l) hq
    refine ⟨(o % l) :: idx, ⟨Nat.mod_lt _ hl, hin⟩, ?_⟩
    rw [linear_offset_col_major_cons, hoff]
    have := Nat.mod_add_div o l
    exact_mod_cast this

/-- In row-major storage every offset below the size is the offset of an in-bounds
multi-index. -/
theorem row_major_offset_surjective (len : List Nat) :
    ∀ o : Nat, o < len.prod →
      ∃ idx, in_range idx len ∧ linear_offset idx (row_major_strides len) = (o : Int) := by
  induction len with
  | nil =>
    intro o h
    simp only [List.prod_nil] at h
    have : o = 0 := by omega
    subst this
    exact ⟨[], by simp [in_range], by simp [linear_offset, row_major_strides]⟩
  | cons l len ih =>
    intro o h
    rw [List.prod_cons] at h
    have hP : 0 < len.prod := by
      rcases Nat.eq_zero_or_pos len.prod with h0 | h0
      · rw [h0] at h; simp at h
      · exact h0
    have hq : o / len.prod < l := Nat.div_lt_of_lt_mul (by rw [Nat.mul_comm]; exact h)
    obtain ⟨idx, hin, hoff⟩ := ih (o % len.prod) (Nat.mod_lt _ hP)
    refine ⟨(o / len.prod) :: idx, ⟨hq, hin⟩, ?_⟩
    simp only [linear_offset, row_major_strides, hoff]
    have := Nat.div_add_mod o len.prod
    have h2 : o / len.prod * len.prod + o % len.prod = o := by
      rw [Nat.mul_comm]; exact this
    exact_mod_cast h2

/-- The strides that `default_strides` computes for the column-major layout are the
products of the earlier lengths, converted to `stride_type`. -/
theorem default_strides_col_major_closed (len : List Nat) :
    default_strides len Layout.COLUMN_MAJOR = (col_major_strides len).map to_stride_type := by
  by_cases hN : len.length = 0
  · have : len = [] := List.length_eq_zero.mp hN
    subst this
    rfl
  · have hset : ((List.replicate len.length (0 : Int)).set 0 1).length = len.length := by
      simp
    obtain ⟨h1, h2, h3⟩ := default_strides.col_loop_inv len len.length (len.length - 1) 1 _
      hset (le_refl _) (by omega)
    have hd : default_strides len Layout.COLUMN_MAJOR =
        default_strides.col_loop len (len.length - 1) 1
          ((List.replicate len.length (0 : Int)).set 0 1) := by
      simp [default_strides]
    rw [hd]
    have hfirst : (default_strides.col_loop len (len.length - 1) 1
        ((List.replicate len.length (0 : Int)).set 0 1)).getD 0 0 = 1 := by
      rw [h2 0 (by omega), getD_set_eq _ _ _ _ (by simp; omega)]
    have key : ∀ k, k < len.length →
        (default_strides.col_loop len (len.length - 1) 1
          ((List.replicate len.length (0 : Int)).set 0 1)).getD k 0 =
        to_stride_type (((len.take k).prod : Nat) : Int) := by
      intro k
      induction k with
      | zero =>
        intro _
        rw [hfirst]
        simp only [List.take_zero, List.prod_nil, Nat.cast_one]
        decide
      | succ k ih =>
        intro hk
        rw [h3 (k + 1) (by omega) hk, Nat.add_sub_cancel, ih (by omega), to_stride_type_mul,
          List.take_succ, List.prod_append]
        have hg : len[k]? = some (len.getD k 0) := by
          rw [List.getD_eq_getElem _ _ (by omega), List.getElem?_eq_getElem (by omega)]
        rw [hg]
        simp
    apply List.ext_getElem
      (by rw [h1, List.length_map]; exact (col_major_strides_from_length len 1).symm)
    intro i hi1 hi2
    have hi : i < len.length := by rw [h1] at hi1; exact hi1
    have e1 := key i hi
    have e2 := col_major_strides_from_getD len 1 i hi
    rw [List.getD_eq_getElem _ _ hi1] at e1
    rw [one_mul] at e2
    have e3 := getD_map_to_stride_type (col_major_strides len) i
    rw [List.getD_eq_getElem _ _ hi2] at e3
    rw [e1, e3]
    show _ = to_stride_type ((col_major_strides_from 1 len).getD i 0)
    rw [e2]

/-- For a shape whose element count, times the first stride, fits `size_t`, the
column-major strides converted to `stride_type` give every in-bounds multi-index the offset
of the exact strides: a stride that does not fit belongs to a dimension whose only index is
`0`. -/
theorem linear_offset_col_major_converted (len : List Nat) :
    ∀ (first : Nat) (idx : List Nat), in_range idx len → first * len.prod < 2 ^ 64 →
      linear_offset idx ((col_major_strides_from (first : Int) len).map to_stride_type) =
        linear_offset idx (col_major_strides_from (first : Int) len) := by
  induction len with
  | nil =>
    intro first idx h _
    cases idx with
    | nil => rfl
    | cons i idx => simp [in_range] at h
  | cons l len ih =>
    intro first idx h hsize
    cases idx with
    | nil => simp [in_range] at h
    | cons i idx =>
      have hpos := prod_pos_of_pos len (in_range_pos idx len h.2)
      have hl : 1 ≤ l := by have := h.1; omega
      rw [List.prod_cons] at hsize
      have htail : (first * l) * len.prod < 2 ^ 64 := by
        rw [Nat.mul_assoc]; exact hsize
      have hhead : (i : Int) * to_stride_type (first : Int) = (i : Int) * (first : Int) := by
        by_cases hfit : first < 2 ^ 63
        · rw [to_stride_type_of_fits _ (by omega) (by exact_mod_cast hfit)]
        · have hl1 : l * len.prod < 2 := by
            by_contra hne
            have h2 : 2 ≤ l * len.prod := by omega
            have : first * 2 ≤ first * (l * len.prod) := Nat.mul_le_mul_left _ h2
            omega
          have hl2 : l = 1 := by
            by_contra hne
            have h2 : 2 ≤ l := by omega
            have : 2 * 1 ≤ l * len.prod := Nat.mul_le_mul h2 hpos
            omega
          have hi0 : i = 0 := by have := h.1; omega
          subst hi0
          simp
      have ih' := ih (first * l) idx h.2 htail
      rw [Nat.cast_mul] at ih'
      simp only [col_major_strides_from, List.map_cons, linear_offset]
      rw [ih', hhead]

/-- The offset that the strides of `default_strides` for the column-major layout give an
in-bounds multi-index, for a shape whose element count fits `size_t`. -/
theorem default_strides_col_major_offset (len idx : List Nat) (hin : in_range idx len)
    (hsize : len.prod < 2 ^ 64) :
    linear_offset idx (default_strides len Layout.COLUMN_MAJOR) =
      linear_offset idx (col_major_strides len) := by
  rw [default_strides_col_major_closed]
  have h := linear_offset_col_major_converted len 1 idx hin (by simpa using hsize)
  simpa [col_major_strides] using h

/-- For a shape whose element count fits `size_t`, the offsets that the strides of
`default_strides` give the in-bounds multi-indices lie in `[0, product of lengths)`. -/
theorem default_strides_offset_bounds (len : List Nat) (layout : Layout)
    (hsize : len.prod < 2 ^ 64) :
    ∀ idx, in_range idx len →
      0 ≤ linear_offset idx (default_strides len layout) ∧
      linear_offset idx (default_strides len layout) < ((len.prod : Nat) : Int) := by
  intro idx hin
  cases layout with
  | ROW_MAJOR =>
    rw [default_strides_row_major_offset len idx hin hsize]
    exact row_major_offset_bounds len idx hin
  | COLUMN_MAJOR =>
    rw [default_strides_col_major_offset len idx hin hsize]
    exact col_major_offset_bounds len idx hin

/-- For a shape whose element count fits `size_t`, distinct in-bounds multi-indices have
distinct offsets under the strides of `default_strides`. -/
theorem default_strides_offset_injective (len : List Nat) (layout : Layout)
    (hsize : len.prod < 2 ^ 64) :
    ∀ idx1 idx2, in_range idx1 len → in_range idx2 len →
      linear_offset idx1 (default_strides len layout) =
        linear_offset idx2 (default_strides len layout) → idx1 = idx2 := by
  intro idx1 idx2 h1 h2 heq
  cases layout with
  | ROW_MAJOR =>
    rw [default_strides_row_major_offset len idx1 h1 hsize,
      default_strides_row_major_offset len idx2 h2 hsize] at heq
    exact row_major_offset_injective len idx1 idx2 h1 h2 heq
  | COLUMN_MAJOR =>
    rw [default_strides_col_major_offset len idx1 h1 hsize,
      default_strides_col_major_offset len idx2 h2 hsize] at heq
    exact col_major_offset_injective len idx1 idx2 h1 h2 heq

/-- For a shape whose element count fits `size_t`, every value of
`[0, product of lengths)` is the offset of an in-bounds multi-index under the strides of
`default_strides`. -/
theorem default_strides_offset_surjective (len : List Nat) (layout : Layout)
    (hsize : len.prod < 2 ^ 64) :
    ∀ o : Int, 0 ≤ o → o < ((len.prod : Nat) : Int) →
      ∃ idx, in_range idx len ∧ linear_offset idx (default_strides len layout) = o := by
  intro o h0 h1
  have ho : ((o.toNat : Nat) : Int) = o := Int.toNat_of_nonneg h0
  have hlt : o.toNat < len.prod := by omega
  cases layout with
  | ROW_MAJOR =>
    obtain ⟨idx, hin, hoff⟩ := row_major_offset_surjective len o.toNat hlt
    exact ⟨idx, hin, by rw [default_strides_row_major_offset len idx hin hsize, hoff, ho]⟩
  | COLUMN_MAJOR =>
    obtain ⟨idx, hin, hoff⟩ := col_major_offset_surjective len o.toNat hlt
    exact ⟨idx, hin, by rw [default_strides_col_major_offset len idx hin hsize, hoff, ho]⟩

/-! ## Claims about the offsets of `default_strides` -/

/-- Counterexample for C35: for the shape `(65536, 65536, 65536, 65536)`, whose lengths are
all at least 1, the owning array allocates `size_ = 0` elements, so the offset `0` of the
in-bounds multi-index `(0, 0, 0, 0)` is not inside its buffer; the product of the lengths
is `2^64`.  For the shape `(65536, 65536, 65536, 65536, 65536)` the row-major stride of
dimension 0 is `0`, so the in-bounds multi-indices `(0, 0, 0, 0, 0)` and `(1, 0, 0, 0, 0)`
have the same offset.  For the shape `(2^31, 2^30)` and `sizeof(T) = 8` the array has `2^61`
elements and the block that `allocate` returns, of `2^61 * 8 mod 2^64 = 0` bytes, holds
none. -/
theorem offsets_outside_wrapped_buffer :
    (∀ l ∈ ([65536, 65536, 65536, 65536] : List Nat), 1 ≤ l) ∧
    in_range [0, 0, 0, 0] [65536, 65536, 65536, 65536] ∧
    (marray.reset_uninitialized [65536, 65536, 65536, 65536] Layout.COLUMN_MAJOR 0).size_ =
      0 ∧
    ¬ (linear_offset [0, 0, 0, 0]
        (default_strides [65536, 65536, 65536, 65536] Layout.COLUMN_MAJOR) <
      (((marray.reset_uninitialized [65536, 65536, 65536, 65536]
        Layout.COLUMN_MAJOR 0).size_ : Nat) : Int)) ∧
    in_range [0, 0, 0, 0, 0] [65536, 65536, 65536, 65536, 65536] ∧
    in_range [1, 0, 0, 0, 0] [65536, 65536, 65536, 65536, 65536] ∧
    linear_offset [0, 0, 0, 0, 0]
        (default_strides [65536, 65536, 65536, 65536, 65536] Layout.ROW_MAJOR) =
      linear_offset [1, 0, 0, 0, 0]
        (default_strides [65536, 65536, 65536, 65536, 65536] Layout.ROW_MAJOR) ∧
    (marray.reset_uninitialized [2147483648, 1073741824] Layout.ROW_MAJOR 0).size_ =
      2305843009213693952 ∧
    aligned_allocator.capacity 8
      (marray.reset_uninitialized [2147483648, 1073741824] Layout.ROW_MAJOR 0).size_ = 0 := by
  refine ⟨by decide, by simp [in_range], by decide, by decide, by simp [in_range],
    by simp [in_range], by decide, by decide, by decide⟩

/-- C35 (amended): for every shape whose product of lengths is below `2^64` and for both
layouts, the map from in-bounds multi-indices to linear offsets `sum_k i_k * stride[k]`, with
`stride = default_strides(shape, layout)`, is a bijection onto `[0, product of lengths)`:
every offset lies in that interval, distinct indices have distinct offsets, and every value
of the interval is an offset.  When the product of the lengths times `sizeof(T)` is below
`2^64`, the owning array constructed from the shape stores these strides, the block
allocated for it holds that many elements, and every in-bounds element lies inside it. -/
theorem default_strides_offsets_bijective (len : List Nat) (layout : Layout)
    (hsize : len.prod < 2 ^ 64) :
    (∀ idx, in_range idx len →
      0 ≤ linear_offset idx (default_strides len layout) ∧
      linear_offset idx (default_strides len layout) < ((len.prod : Nat) : Int)) ∧
    (∀ idx1 idx2, in_range idx1 len → in_range idx2 len →
      linear_offset idx1 (default_strides len layout) =
        linear_offset idx2 (default_strides len layout) → idx1 = idx2) ∧
    (∀ o : Int, 0 ≤ o → o < ((len.prod : Nat) : Int) →
      ∃ idx, in_range idx len ∧ linear_offset idx (default_strides len layout) = o) ∧
    (∀ (ptr : Int) (sizeof_T : Nat), 0 < sizeof_T → len.prod * sizeof_T < 2 ^ 64 →
      (marray.reset_uninitialized len layout ptr).stride_ = default_strides len layout ∧
      (marray.reset_uninitialized len layout ptr).size_ = len.prod ∧
      aligned_allocator.capacity sizeof_T (marray.reset_uninitialized len layout ptr).size_ =
        len.prod ∧
      ∀ idx, in_range idx len →
        ptr ≤ ptr + linear_offset idx (marray.reset_uninitialized len layout ptr).stride_ ∧
        ptr + linear_offset idx (marray.reset_uninitialized len layout ptr).stride_ <
          ptr + ((aligned_allocator.capacity sizeof_T
            (marray.reset_uninitialized len layout ptr).size_ : Nat) : Int)) := by
  have hbounds := default_strides_offset_bounds len layout hsize
  refine ⟨hbounds, default_strides_offset_injective len layout hsize,
    default_strides_offset_surjective len layout hsize, ?_⟩
  intro ptr sizeof_T hT hbytes
  have hsz : (marray.reset_uninitialized len layout ptr).size_ = len.prod := by
    rw [marray.reset_uninitialized_size, Nat.mod_eq_of_lt hsize]
  have hcap : aligned_allocator.capacity sizeof_T
      (marray.reset_uninitialized len layout ptr).size_ = len.prod := by
    rw [hsz]
    exact aligned_allocator.capacity_eq sizeof_T len.prod hT hbytes
  refine ⟨rfl, hsz, hcap, ?_⟩
  intro idx hin
  obtain ⟨h0, h1⟩ := hbounds idx hin
  rw [hcap]
  have hstr : (marray.reset_uninitialized len layout ptr).stride_ =
      default_strides len layout := rfl
  rw [hstr]
  constructor <;> omega

/-- Witness for C35: the column-major `3 x 4` array at address `64` stores the strides
`[1, 3]` and `12` elements, and its in-bounds offsets are exactly `0, ..., 11`. -/
theorem default_strides_offsets_bijective_witness :
    (marray.reset_uninitialized [3, 4] Layout.COLUMN_MAJOR 64).stride_ =
      default_strides [3, 4] Layout.COLUMN_MAJOR ∧
    (marray.reset_uninitialized [3, 4] Layout.COLUMN_MAJOR 64).size_ =
      ([3, 4] : List Nat).prod ∧
    aligned_allocator.capacity 8 (marray.reset_uninitialized [3, 4] Layout.COLUMN_MAJOR 64).size_ =
      ([3, 4] : List Nat).prod ∧
    (∀ idx, in_range idx [3, 4] →
      (64 : Int) ≤ 64 + linear_offset idx
        (marray.reset_uninitialized [3, 4] Layout.COLUMN_MAJOR 64).stride_ ∧
      64 + linear_offset idx (marray.reset_uninitialized [3, 4] Layout.COLUMN_MAJOR 64).stride_ <
        64 + ((aligned_allocator.capacity 8
          (marray.reset_uninitialized [3, 4] Layout.COLUMN_MAJOR 64).size_ : Nat) : Int)) ∧
    default_strides [3, 4] Layout.COLUMN_MAJOR = [1, 3] ∧
    (iterator_indices [3, 4]).map
      (fun idx => linear_offset idx (default_strides [3, 4] Layout.COLUMN_MAJOR)) =
        [0, 3, 6, 9, 1, 4, 7, 10, 2, 5, 8, 11] := by
  obtain ⟨h1, h2, h3, h4⟩ :=
    (default_strides_offsets_bijective [3, 4] Layout.COLUMN_MAJOR (by decide)).2.2.2
      64 8 (by decide) (by decide)
  exact ⟨h1, h2, h3, h4, by decide, by decide⟩

end MArray
